import Mathlib

/-!
# HMIC script parser, frame renderer and HMICB container writer

A shallow embedding of `src/hmicx.h`, `src/hmicx.cpp` and `src/hmicb.cpp`.

Conventions of the embedding.

* Text is a `List Char`; a C++ `(pointer, length)` pair is the list it views, and a
  position `pos` into a buffer `data` is a `Nat` index into the list.
* A C++ `int` is an `Int`.  The decimal accumulation of the parser (`num * 10 + digit`)
  is reduced with `wrapInt32`: signed overflow is undefined in C++, and the embedding
  takes the two-complement result every mainstream compiler produces.  The conversion
  `%d` of `sscanf` follows the C library: the value stops at the ends of `long` and its
  low 32 bits are stored.  The product `width * height` of the renderer has no result
  where it is no `int`.  The other `int` arithmetic (frame numbers, coordinates) is exact.
* `uint8_t`, `uint16_t`, `uint32_t` values are naturals reduced modulo `2^8`, `2^16`,
  `2^32` at the places where the source narrows them; a byte of the output stream is a
  `Fin 256`.
* A function whose C++ original may fail to return a value (it loops forever, reads
  outside its buffer, divides by zero or throws) returns an `Option`; `none` stands for
  "no result".  Loops whose
  position jumps forward carry a fuel argument; running out of fuel is `none` as well, and
  the callers pass enough fuel for every run that makes progress.
* Diagnostic output (`cout`) is not modelled.
-/

namespace HMICX

/-! ## Character classes of the C locale -/

/-- The C function `isspace`: space, `\t`, `\n`, `\v`, `\f`, `\r`. -/
def isspace (c : Char) : Bool :=
  c.toNat = 32 || (9 ≤ c.toNat && c.toNat ≤ 13)

/-- The C function `isdigit`. -/
def isdigit (c : Char) : Bool :=
  48 ≤ c.toNat && c.toNat ≤ 57

/-- The C function `isxdigit`. -/
def isxdigit (c : Char) : Bool :=
  isdigit c || (97 ≤ c.toNat && c.toNat ≤ 102) || (65 ≤ c.toNat && c.toNat ≤ 70)

/-- The C function `tolower`. -/
def tolower (c : Char) : Char :=
  if 65 ≤ c.toNat ∧ c.toNat ≤ 90 then Char.ofNat (c.toNat + 32) else c

/-- The C function `toupper`. -/
def toupper (c : Char) : Char :=
  if 97 ≤ c.toNat ∧ c.toNat ≤ 122 then Char.ofNat (c.toNat - 32) else c

/-- Reduction of an integer to the range of a 32-bit `int`. -/
def wrapInt32 (z : Int) : Int :=
  (z + 2147483648) % 4294967296 - 2147483648

/-- The character `data[pos]`; the terminating NUL of `c_str()` at and past the end. -/
def charAt (data : List Char) (pos : Nat) : Char :=
  data.getD pos (Char.ofNat 0)

/-- The characters `data[from .. to)`, i.e. the view `(data + from, to - from)`. -/
def slice (data : List Char) (lo hi : Nat) : List Char :=
  (data.drop lo).take (hi - lo)

/-! ## Data structures (`hmicx.h`) -/

/-- `struct Pixel { int x, y; }`. -/
structure Pixel where
  x : Int
  y : Int
  deriving DecidableEq, Repr

/-- `struct Command { int start, end; vector<Pixel> pixels; string color; }`
(`end` is a keyword of Lean, the field is called `end_`). -/
structure Command where
  start : Int
  end_ : Int
  pixels : List Pixel
  color : List Char
  deriving DecidableEq, Repr

/-- `std::map<std::string, std::string>`: a list of key/value pairs with distinct keys. -/
abbrev HeaderMap := List (List Char × List Char)

/-- The assignment `header[key] = val`: overwrite the entry of `key`, or add one. -/
def HeaderMap.assign : HeaderMap → List Char → List Char → HeaderMap
  | [], key, val => [(key, val)]
  | (k, v) :: rest, key, val =>
    if k = key then (key, val) :: rest else (k, v) :: HeaderMap.assign rest key val

/-- Lookup of a key, `header.find(key)`. -/
def HeaderMap.lookup : HeaderMap → List Char → Option (List Char)
  | [], _ => none
  | (k, v) :: rest, key => if k = key then some v else HeaderMap.lookup rest key

/-! ## Inline helpers (`hmicx.h`) -/

/-- `fastStartsWith(str, len, prefix, prefixLen)`: case-insensitive prefix test. -/
def fastStartsWith (str pfx : List Char) : Bool :=
  if str.length < pfx.length then false
  else (List.range pfx.length).all
    (fun i => tolower (charAt str i) = tolower (charAt pfx i))

/-- The loop of `fastExtractNumber`, run on the characters from `pos` on:
`while (pos < len && isdigit(str[pos])) { num = num*10 + (str[pos]-48); pos++; found = true; }`. -/
def digitLoop : List Char → Int → Nat → Bool → Int × Nat × Bool
  | [], num, pos, found => (num, pos, found)
  | c :: cs, num, pos, found =>
    if isdigit c then digitLoop cs (wrapInt32 (num * 10 + ((c.toNat : Int) - 48))) (pos + 1) true
    else (num, pos, found)

/-- `fastExtractNumber(str, len, pos)`: the number read and the updated `pos`. -/
def fastExtractNumber (str : List Char) (pos : Nat) : Int × Nat :=
  let r := digitLoop (str.drop pos) 0 pos false
  (if r.2.2 then r.1 else -1, r.2.1)

/-- The loop of `findMatchingBrace` on the characters from index `i` on, at depth `depth`. -/
def findMatchingBraceFrom : List Char → Int → Nat → Option Nat
  | [], _, _ => none
  | c :: cs, depth, i =>
    if c = '{' then findMatchingBraceFrom cs (depth + 1) (i + 1)
    else if c = '}' then
      if depth - 1 = 0 then some i else findMatchingBraceFrom cs (depth - 1) (i + 1)
    else findMatchingBraceFrom cs depth (i + 1)

/-- `findMatchingBrace(s, len, start)`; `none` is `std::string::npos`. -/
def findMatchingBrace (s : List Char) (start : Nat) : Option Nat :=
  findMatchingBraceFrom (s.drop start) 0 start

/-- `fastTrim(start, len)`: drop leading, then trailing, whitespace. -/
def fastTrim (s : List Char) : List Char :=
  (s.dropWhile isspace).rdropWhile isspace

/-- The loop `while (pos < len && isspace(data[pos])) pos++` on the characters from `pos`. -/
def skipSpacesFrom : List Char → Nat → Nat
  | [], pos => pos
  | c :: cs, pos => if isspace c then skipSpacesFrom cs (pos + 1) else pos

/-- The position after the whitespace that starts at `pos`. -/
def skipSpaces (data : List Char) (pos : Nat) : Nat :=
  skipSpacesFrom (data.drop pos) pos

/-- `memchr(s, ch, len)`: the index of the first occurrence of `ch`. -/
def memchr : List Char → Char → Option Nat
  | [], _ => none
  | c :: cs, ch => if c = ch then some 0 else (memchr cs ch).map (· + 1)

/-! ## The parser (`hmicx.cpp`) -/

/-- The body of the line branch of `parseHeaderBody`, for the raw line
`body[lineStart .. i)`: trim it, split it at the first `=`, trim both sides and store
`header[toupper(key)] = val` when neither side is empty. -/
def headerLine (rawLine : List Char) (header : HeaderMap) : HeaderMap :=
  let line := fastTrim rawLine
  if line.length > 0 then
    match memchr line '=' with
    | some eqPos =>
      let key := fastTrim (line.take eqPos)
      let val := fastTrim (line.drop (eqPos + 1))
      if key.length > 0 ∧ val.length > 0 then header.assign (key.map toupper) val
      else header
    | none => header
  else header

/-- The loop `for (i = 0; i <= len; i++)` of `parseHeaderBody`; the second argument is
`body[i ..]`, so the empty list is the iteration `i == len`. -/
def parseHeaderBodyLoop (body : List Char) : List Char → Nat → Nat → HeaderMap → HeaderMap
  | [], i, lineStart, header => headerLine (slice body lineStart i) header
  | c :: rest, i, lineStart, header =>
    if c = '\n' then
      parseHeaderBodyLoop body rest (i + 1) (i + 1) (headerLine (slice body lineStart i) header)
    else parseHeaderBodyLoop body rest (i + 1) lineStart header

/-- `Parser::parseHeaderBody(body, len)`, as a function of the member `header`. -/
def parseHeaderBody (body : List Char) (header : HeaderMap) : HeaderMap :=
  parseHeaderBodyLoop body body 0 0 header

/-- The loop `for (pos = 0; pos < len - 4; pos++)` of `parseHeader`, for `len ≥ 4`.
A failed match leaves `pos` where the match attempt stopped, and the loop increment then
steps over one more character. -/
def parseHeaderLoop (data : List Char) : Nat → Nat → HeaderMap → Option HeaderMap
  | 0, _, _ => none
  | fuel + 1, pos, header =>
    if pos + 4 < data.length then
      if fastStartsWith (data.drop pos) ['i', 'n', 'f', 'o'] then
        let pos1 := skipSpaces data (pos + 4)
        if pos1 < data.length ∧ charAt data pos1 = '{' then
          match findMatchingBrace data pos1 with
          | some e => some (parseHeaderBody (slice data (pos1 + 1) e) header)
          | none => parseHeaderLoop data fuel (pos1 + 1) header
        else parseHeaderLoop data fuel (pos1 + 1) header
      else parseHeaderLoop data fuel (pos + 1) header
    else some header

/-- `Parser::parseHeader()`, as a function of the members `content` and `header`.
For a text shorter than 4 characters the unsigned bound `len - 4` wraps around and the scan
runs past the end of the buffer: no result. -/
def parseHeader (content : List Char) (header : HeaderMap) : Option HeaderMap :=
  if content.length < 4 then none
  else parseHeaderLoop content (content.length + 1) 0 header

/-- The `while (pos < end)` loop of a `P=` line in `parsePixels`; `line` is the trimmed
line `body[start .. end)` and `pos` is relative to `start`.  One iteration reads an
optional `x` number, an optional separator with a `y` number, stores the pixel when both
numbers had digits, and skips one comma and the whitespace after it.  When an iteration
ends at the position where it began, every later iteration repeats it: the C++ loop does
not terminate, and the result is `none`. -/
def parsePItems (line : List Char) : Nat → Nat → List Pixel → Option (List Pixel)
  | 0, _, _ => none
  | fuel + 1, pos, pixels =>
    if pos < line.length then
      let rx := digitLoop (line.drop pos) 0 pos false
      let ry :=
        if rx.2.1 < line.length ∧ (charAt line rx.2.1 = 'x' ∨ charAt line rx.2.1 = 'X') then
          digitLoop (line.drop (rx.2.1 + 1)) 0 (rx.2.1 + 1) false
        else (0, rx.2.1, false)
      let pixels1 := if rx.2.2 ∧ ry.2.2 then pixels ++ [⟨rx.1, ry.1⟩] else pixels
      let pos1 := if ry.2.1 < line.length ∧ charAt line ry.2.1 = ',' then ry.2.1 + 1 else ry.2.1
      let pos2 := skipSpaces line pos1
      if pos2 = pos then none
      else parsePItems line fuel pos2 pixels1
    else some pixels

/-- The variable `current` of a `PL=` line points at
one of the four coordinates. -/
inductive PLSlot where
  | x1 | y1 | x2 | y2
  deriving DecidableEq, Repr

/-- The four coordinates of a `PL=` line. -/
structure PLState where
  x1 : Int
  y1 : Int
  x2 : Int
  y2 : Int
  current : PLSlot
  deriving DecidableEq, Repr

/-- The statement `*current = *current * 10 + digit`. -/
def PLState.pushDigit (s : PLState) (d : Int) : PLState :=
  match s.current with
  | .x1 => { s with x1 := wrapInt32 (s.x1 * 10 + d) }
  | .y1 => { s with y1 := wrapInt32 (s.y1 * 10 + d) }
  | .x2 => { s with x2 := wrapInt32 (s.x2 * 10 + d) }
  | .y2 => { s with y2 := wrapInt32 (s.y2 * 10 + d) }

/-- The `while (pos < end)` loop of a `PL=` line, run on the characters after `PL=`. -/
def parsePLChars : List Char → PLState → PLState
  | [], s => s
  | c :: cs, s =>
    if isdigit c then parsePLChars cs (s.pushDigit ((c.toNat : Int) - 48))
    else if c = 'x' ∨ c = 'X' then
      if s.current = .x1 then parsePLChars cs { s with current := .y1 }
      else if s.current = .x2 then parsePLChars cs { s with current := .y2 }
      else parsePLChars cs s
    else if c = '-' then parsePLChars cs { s with current := .x2 }
    else parsePLChars cs s

/-- The integers `lo, lo + 1, ..., hi` of a loop `for (v = lo; v <= hi; v++)`. -/
def intRange (lo hi : Int) : List Int :=
  (List.range (hi + 1 - lo).toNat).map (fun (k : Nat) => lo + (k : Int))

/-- The pixels a `PL=` line generates: a horizontal run when `y1 == y2`, else a vertical
run when `x1 == x2`, else nothing. -/
def plRun (s : PLState) : List Pixel :=
  if s.y1 = s.y2 then (intRange (min s.x1 s.x2) (max s.x1 s.x2)).map (fun x => ⟨x, s.y1⟩)
  else if s.x1 = s.x2 then (intRange (min s.y1 s.y2) (max s.y1 s.y2)).map (fun y => ⟨s.x1, y⟩)
  else []

/-- The body of the line branch of `parsePixels`, for the raw line `body[lineStart .. i)`. -/
def pixelLine (rawLine : List Char) (pixels : List Pixel) : Option (List Pixel) :=
  let line := fastTrim rawLine
  if line.length > 0 then
    if line.length > 2 ∧ (charAt line 0 = 'p' ∨ charAt line 0 = 'P') ∧ charAt line 1 = '=' then
      parsePItems line (line.length + 1) 2 pixels
    else if line.length > 3 ∧ (charAt line 0 = 'p' ∨ charAt line 0 = 'P') ∧
        (charAt line 1 = 'l' ∨ charAt line 1 = 'L') ∧ charAt line 2 = '=' then
      some (pixels ++ plRun (parsePLChars (line.drop 3) ⟨0, 0, 0, 0, .x1⟩))
    else some pixels
  else some pixels

/-- The loop `for (i = 0; i <= len; i++)` of `parsePixels`; the second argument is
`body[i ..]`. -/
def parsePixelsLoop (body : List Char) : List Char → Nat → Nat → List Pixel → Option (List Pixel)
  | [], i, lineStart, pixels => pixelLine (slice body lineStart i) pixels
  | c :: rest, i, lineStart, pixels =>
    if c = '\n' then
      (pixelLine (slice body lineStart i) pixels).bind
        (fun pixels1 => parsePixelsLoop body rest (i + 1) (i + 1) pixels1)
    else parsePixelsLoop body rest (i + 1) lineStart pixels

/-- `Parser::parsePixels(body, len)`. -/
def parsePixels (body : List Char) : Option (List Pixel) :=
  parsePixelsLoop body body 0 0 []

/-- The position of the `)` searched by `while (parenEnd < len && body[parenEnd] != 41) parenEnd++`,
run on the characters from `parenEnd` on. -/
def findParenFrom : List Char → Nat → Nat
  | [], p => p
  | c :: cs, p => if c = ')' then p else findParenFrom cs (p + 1)

/-- The colour detection at the head of the `while` loop of `parseFrameBody`: `rgba(`, then
`rgb(`, then `#` with six hexadecimal digits.  On a match, the colour text and the position
after it. -/
def detectColor (body : List Char) (pos : Nat) : Option (List Char × Nat) :=
  if pos + 5 ≤ body.length ∧ fastStartsWith (body.drop pos) ['r', 'g', 'b', 'a', '('] then
    let parenEnd := findParenFrom (body.drop (pos + 5)) (pos + 5)
    if parenEnd < body.length ∧ charAt body parenEnd = ')' then
      some (slice body pos (parenEnd + 1), parenEnd + 1)
    else none
  else if pos + 4 ≤ body.length ∧ fastStartsWith (body.drop pos) ['r', 'g', 'b', '('] then
    let parenEnd := findParenFrom (body.drop (pos + 4)) (pos + 4)
    if parenEnd < body.length ∧ charAt body parenEnd = ')' then
      some (slice body pos (parenEnd + 1), parenEnd + 1)
    else none
  else if pos < body.length ∧ charAt body pos = '#' ∧ pos + 7 ≤ body.length then
    if (List.range 6).all (fun i => isxdigit (charAt body (pos + (i + 1)))) then
      some (slice body pos (pos + 7), pos + 7)
    else none
  else none

/-- The `while (pos < len)` loop of `parseFrameBody`, as a function of the member
`commands`. -/
def parseFrameBodyLoop (body : List Char) (start end_ : Int) :
    Nat → Nat → List Command → Option (List Command)
  | 0, _, _ => none
  | fuel + 1, pos, commands =>
    if pos < body.length then
      match detectColor body pos with
      | none => parseFrameBodyLoop body start end_ fuel (pos + 1) commands
      | some (color, pos0) =>
        if color.isEmpty then parseFrameBodyLoop body start end_ fuel pos0 commands
        else
          let pos1 := skipSpaces body pos0
          if pos1 ≥ body.length then some commands
          else if charAt body pos1 ≠ '{' then
            parseFrameBodyLoop body start end_ fuel pos1 commands
          else
            match findMatchingBrace body pos1 with
            | none => some commands
            | some blockEnd =>
              (parsePixels (slice body (pos1 + 1) blockEnd)).bind (fun pixels =>
                parseFrameBodyLoop body start end_ fuel (blockEnd + 1)
                  (if pixels.isEmpty then commands
                   else commands ++ [⟨start, end_, pixels, color⟩]))
    else some commands

/-- `Parser::parseFrameBody(body, len, start, end)`, as a function of the member
`commands`. -/
def parseFrameBody (body : List Char) (start end_ : Int) (commands : List Command) :
    Option (List Command) :=
  parseFrameBodyLoop body start end_ (body.length + 1) 0 commands

/-- The loop `for (pos = 0; pos < len - 1; pos++)` of `parseFrames`, for `len ≥ 1`.
Each `continue` of the source is followed by the increment `pos++` of the loop, applied to
the position the match attempt had reached. -/
def parseFramesLoop (data : List Char) : Nat → Nat → List Command → Option (List Command)
  | 0, _, _ => none
  | fuel + 1, pos, commands =>
    if pos + 1 < data.length then
      if (charAt data pos = 'F' ∨ charAt data pos = 'f') ∧ isdigit (charAt data (pos + 1)) then
        let rs := fastExtractNumber data (pos + 1)
        let re :=
          if rs.2 < data.length ∧ charAt data rs.2 = '-' then fastExtractNumber data (rs.2 + 1)
          else (rs.1, rs.2)
        let pos1 := skipSpaces data re.2
        if pos1 ≥ data.length then parseFramesLoop data fuel (pos1 + 1) commands
        else if charAt data pos1 ≠ '{' then parseFramesLoop data fuel (pos1 + 1) commands
        else
          match findMatchingBrace data pos1 with
          | none => parseFramesLoop data fuel (pos1 + 1) commands
          | some frameEnd =>
            if frameEnd - pos1 - 1 > 0 then
              (parseFrameBody (slice data (pos1 + 1) frameEnd) rs.1 re.1 commands).bind
                (fun commands1 => parseFramesLoop data fuel (frameEnd + 1) commands1)
            else parseFramesLoop data fuel (frameEnd + 1) commands
      else parseFramesLoop data fuel (pos + 1) commands
    else some commands

/-- `Parser::parseFrames()`, as a function of the members `content` and `commands`.
For the empty text the unsigned bound `len - 1` wraps around and the scan runs past the
end of the buffer: no result. -/
def parseFrames (content : List Char) (commands : List Command) : Option (List Command) :=
  if content.length = 0 then none
  else parseFramesLoop content (content.length + 1) 0 commands

/-- `Parser::parse()` followed by `getHeader()` and `getCommands()`, on a parser whose
`content` is the given text. -/
def parse (content : List Char) : Option (HeaderMap × List Command) :=
  (parseHeader content []).bind (fun header =>
    (parseFrames content []).bind (fun commands => some (header, commands)))

/-! ## Reference definitions for the header body

The next definitions follow the wording of the specification, not the code; the theorems
compare them with the parser. -/

/-- Specification of trimming: the text that is left when the whitespace at the front is
removed and then, read from the back, the whitespace at the end. -/
def trimText (s : List Char) : List Char :=
  ((s.dropWhile isspace).reverse.dropWhile isspace).reverse

/-- Specification of a header line: the entry a line contributes.  The line is trimmed; if it
contains `=`, the key is the trimmed, upper-cased text before the first `=` and the
value is the trimmed text after it; a line without `=`, or with an empty key or value,
contributes nothing. -/
def headerEntry (line : List Char) : Option (List Char × List Char) :=
  let t := trimText line
  if '=' ∈ t then
    let key := (trimText (t.takeWhile (fun c => decide (c ≠ '=')))).map toupper
    let val := trimText ((t.dropWhile (fun c => decide (c ≠ '='))).drop 1)
    if key ≠ [] ∧ val ≠ [] then some (key, val) else none
  else none

/-- Specification of the header body: the value of key `K` is the value of the last line,
among the newline-separated lines, that contributes an entry with key `K`. -/
def lastHeaderValue (body : List Char) (K : List Char) : Option (List Char) :=
  ((((body.splitOn '\n').filterMap headerEntry).filter (fun e => decide (e.1 = K))).getLast?).map
    Prod.snd

/-- A text is trimmed when it neither starts nor ends with whitespace. -/
def Trimmed (s : List Char) : Prop :=
  (∀ c, s.head? = some c → isspace c = false) ∧ (∀ c, s.getLast? = some c → isspace c = false)

/-- A lowercase ASCII letter. -/
def islower (c : Char) : Bool :=
  97 ≤ c.toNat && c.toNat ≤ 122

end HMICX

namespace HMICB

open HMICX

/-! ## Pixel buffers and the renderer (`hmicb.cpp`) -/

/-- One byte, a `uint8_t`. -/
abbrev Byte := Fin 256

/-- The narrowing of a natural number to a `uint8_t`. -/
def toByte (n : Nat) : Byte := ⟨n % 256, Nat.mod_lt n (by decide)⟩

/-- `struct RGBA { uint8_t r,g,b,a; }`. -/
structure RGBA where
  r : Byte
  g : Byte
  b : Byte
  a : Byte
  deriving DecidableEq, Repr

/-- The initial value `{0,0,0,0}` of every cell. -/
def RGBA.clear : RGBA := ⟨0, 0, 0, 0⟩

/-- The body of the loop `for (const auto& px : cmd.pixels)` of `renderAllFrames`, on the
buffer `frames[idx]`.  The argument `blend c a bg` stands for the single-precision
expression `uint8_t(c * (a / 255.f) + bg * (1.f - a / 255.f))` of the source, which the
embedding does not evaluate. -/
def drawPixel (blend : Byte → Byte → Byte → Byte) (color : RGBA) (width height : Int)
    (buf : List RGBA) (px : Pixel) : List RGBA :=
  let x := px.x - 1
  let y := px.y - 1
  if x < 0 ∨ x ≥ width ∨ y < 0 ∨ y ≥ height then buf
  else
    let i := (y * width + x).toNat
    if color.a = 255 then buf.set i color
    else if color.a > 0 then
      let bg := buf.getD i RGBA.clear
      buf.set i ⟨blend color.r color.a bg.r, blend color.g color.a bg.g,
        blend color.b color.a bg.b, max bg.a color.a⟩
    else buf

/-- The loop `for (int f = cmdStart; f <= cmdEnd && f <= totalFrames; ++f)` of
`renderAllFrames` for one command, whose colour text has been resolved to `color`: the
command is drawn on the frames `f = cmd.start, ..., min(cmd.end, totalFrames)` whose index
`f - 1` lies in `[0, totalFrames)`. -/
def renderCommand (blend : Byte → Byte → Byte → Byte) (width height totalFrames : Int)
    (color : RGBA) (frames : List (List RGBA)) (cmd : Command) : List (List RGBA) :=
  (intRange cmd.start (min cmd.end_ totalFrames)).foldl
    (fun frames f =>
      let idx := f - 1
      if idx < 0 ∨ idx ≥ totalFrames then frames
      else
        frames.set idx.toNat
          (cmd.pixels.foldl (drawPixel blend color width height) (frames.getD idx.toNat [])))
    frames

/-- `renderAllFrames(commands, width, height, totalFrames)`.  The argument `parseColor` is
the colour resolver, which has no result where `parseColor` of the source throws.  No
result in these cases: the product `width * height` is computed in `int` and is no `int`,
or it is negative and the `vector` constructor throws; `totalFrames` is negative (the
constructor throws) or 0 (the function reads `frames[0]` of an empty vector); the colour
of a command does not resolve. -/
def renderAllFrames (parseColor : List Char → Option RGBA) (blend : Byte → Byte → Byte → Byte)
    (commands : List Command) (width height totalFrames : Int) : Option (List (List RGBA)) :=
  if totalFrames ≤ 0 ∨ width * height < 0 ∨ width * height > 2147483647 then none
  else
    commands.foldlM
      (fun frames cmd =>
        (parseColor cmd.color).map
          (fun color => renderCommand blend width height totalFrames color frames cmd))
      (List.replicate totalFrames.toNat (List.replicate (width * height).toNat RGBA.clear))

/-! ## The delta encoder -/

/-- The test `memcmp(&prev[i], &curr[i], sizeof(RGBA)) != 0` of `computeDelta`, for an
index `i` of `curr`.  `none` when `prev` has no cell `i`: the source then reads past the
end of the vector. -/
def cellChanged (prev curr : List RGBA) (i : Nat) : Option Bool :=
  prev[i]?.map (fun p => decide (p ≠ curr.getD i RGBA.clear))

/-- The eight bytes `computeDelta` stores for the changed cell `i`: `x = i % width` and
`y = i / width` narrowed to `uint16_t`, little-endian, then the four colour bytes.
`none` when `width` is 0: the source divides by zero. -/
def deltaRecord (curr : List RGBA) (width : Nat) (i : Nat) : Option (List Byte) :=
  if width = 0 then none
  else
    let x := (i % width) % 65536
    let y := (i / width) % 65536
    let c := curr.getD i RGBA.clear
    some [toByte x, toByte (x / 256), toByte y, toByte (y / 256), c.r, c.g, c.b, c.a]

/-- `computeDelta(prev, curr, width, deltaData)`: the final contents of `deltaData`.  The
first loop counts the changed cells, the count is stored in four bytes, the second loop
appends one record for each changed cell in increasing index order.  `width` is the
value of the `int` argument after its conversion to `size_t`.  `none` when a cell test or
a record has no result. -/
def computeDelta (prev curr : List RGBA) (width : Nat) : Option (List Byte) :=
  ((List.range curr.length).foldlM
    (fun (changeCount : Nat) i =>
      (cellChanged prev curr i).map
        (fun changed => if changed then changeCount + 1 else changeCount))
    0).bind (fun changeCount =>
      (List.range curr.length).foldlM
        (fun (deltaData : List Byte) i =>
          (cellChanged prev curr i).bind (fun changed =>
            if changed then (deltaRecord curr width i).map (fun record => deltaData ++ record)
            else some deltaData))
        [toByte changeCount, toByte (changeCount / 256), toByte (changeCount / 65536),
          toByte (changeCount / 16777216)])

/-! ## The output stream and the container writer -/

/-- The state of an `ofstream`: the bytes of the file and the write position. -/
structure OStream where
  buf : List Byte
  pos : Nat
  deriving DecidableEq, Repr

/-- `out.write(bytes, n)`: the bytes overwrite the file from the write position on and
extend it where they reach past its end (a gap before the position is filled with zeros). -/
def OStream.write (s : OStream) (bytes : List Byte) : OStream :=
  { buf := s.buf.take s.pos ++ List.replicate (s.pos - s.buf.length) 0 ++ bytes ++
      s.buf.drop (s.pos + bytes.length)
    pos := s.pos + bytes.length }

/-- `out.tellp()`. -/
def OStream.tellp (s : OStream) : Nat := s.pos

/-- `out.seekp(p)`. -/
def OStream.seekp (s : OStream) (p : Nat) : OStream := { s with pos := p }

/-- `writeU8(out, val)`. -/
def writeU8 (out : OStream) (val : Nat) : OStream :=
  out.write [toByte val]

/-- `writeU16(out, val)`: low byte first. -/
def writeU16 (out : OStream) (val : Nat) : OStream :=
  out.write [toByte val, toByte (val / 256)]

/-- `writeU32(out, val)`: low byte first. -/
def writeU32 (out : OStream) (val : Nat) : OStream :=
  out.write [toByte val, toByte (val / 256), toByte (val / 65536), toByte (val / 16777216)]

/-- `struct FrameIndexEntry { uint32_t offset; uint32_t size; uint8_t type; }`. -/
structure FrameIndexEntry where
  offset : Nat
  size : Nat
  type : Nat
  deriving DecidableEq, Repr

/-- The memory of a frame, `(char*)frame.data()`: four bytes `r,g,b,a` for each cell. -/
def frameBytes (frame : List RGBA) : List Byte :=
  frame.flatMap (fun c => [c.r, c.g, c.b, c.a])

/-- The body of the loop `for (i = 0; i < frames.size(); ++i)` of `writeHMICB`: frame `i`
is written in full when `i % 10 == 0` and as a delta against frame `i - 1` otherwise, and
its position, size and kind are recorded in `index[i]` as 32-bit values.  `none` when
`computeDelta` has no result. -/
def writeFrame (frames : List (List RGBA)) (width : Int)
    (st : OStream × List FrameIndexEntry) (i : Nat) : Option (OStream × List FrameIndexEntry) :=
  let pos := st.1.tellp
  let frame := frames.getD i []
  let frameSize := frame.length * 4
  if i = 0 ∨ i % 10 = 0 then
    some (st.1.write (frameBytes frame),
      st.2.set i ⟨pos % 4294967296, frameSize % 4294967296, 0⟩)
  else
    (computeDelta (frames.getD (i - 1) []) frame (width % 18446744073709551616).toNat).map
      (fun deltaData =>
        (st.1.write deltaData, st.2.set i ⟨pos % 4294967296, deltaData.length % 4294967296, 1⟩))

/-- The fixed header of `writeHMICB`: tag, version, the narrowed `width`, `height`, `fps`
and `totalFrames`, the loop flag, the flags byte and 14 zero bytes. -/
def writeHeader (out : OStream) (width height fps totalFrames : Int) (loop : Bool) : OStream :=
  let s1 := out.write [72, 77, 73, 67, 66]
  let s2 := writeU8 s1 1
  let s3 := writeU16 s2 (width % 65536).toNat
  let s4 := writeU16 s3 (height % 65536).toNat
  let s5 := writeU16 s4 (fps % 65536).toNat
  let s6 := writeU32 s5 (totalFrames % 4294967296).toNat
  let s7 := writeU8 s6 (if loop then 1 else 0)
  let s8 := writeU8 s7 1
  (List.range 14).foldl (fun s _ => writeU8 s 0) s8

/-- `writeHMICB(path, width, height, fps, totalFrames, loop, frames)` on a stream that
opened: the bytes of the file after `out.close()`.  `none` when the function throws
(the data-start check), when `computeDelta` has no result for a frame or, for an empty
frame list, when the function reads `index[0]` of an empty vector. -/
def writeHMICB (width height fps totalFrames : Int) (loop : Bool)
    (frames : List (List RGBA)) : Option (List Byte) :=
  let out0 := writeHeader ⟨[], 0⟩ width height fps totalFrames loop
  let indexSize := (frames.length * 9) % 4294967296
  let dataStartOffset := (32 + indexSize) % 4294967296
  let indexPos := out0.tellp
  let out1 := (List.range frames.length).foldl
    (fun s _ => writeU8 (writeU32 (writeU32 s 0) 0) 0) out0
  let dataStart := out1.tellp
  if dataStart % 4294967296 ≠ dataStartOffset then none
  else
    ((List.range frames.length).foldlM (writeFrame frames width)
      (out1, List.replicate frames.length ⟨0, 0, 0⟩)).bind (fun st =>
        let out2 := st.1.seekp indexPos
        let out3 := st.2.foldl
          (fun s e => writeU8 (writeU32 (writeU32 s e.offset) e.size) e.type) out2
        if frames.length = 0 then none else some out3.buf)

/-! ## Reference definitions for the renderer

The next definitions follow the wording of the specification, not the code. -/

/-- Specification of blending into one cell: a colour blended into cell `i` of a
buffer replaces the cell when its alpha is 255, leaves it alone when its alpha is 0, and
otherwise mixes the three colour channels and raises the alpha to the maximum. -/
def blendInto (blend : Byte → Byte → Byte → Byte) (color : RGBA) (buf : List RGBA) (i : Nat) :
    List RGBA :=
  if color.a = 255 then buf.set i color
  else if color.a = 0 then buf
  else
    buf.set i ⟨blend color.r color.a (buf.getD i RGBA.clear).r,
      blend color.g color.a (buf.getD i RGBA.clear).g,
      blend color.b color.a (buf.getD i RGBA.clear).b, max (buf.getD i RGBA.clear).a color.a⟩

/-- Specification of the renderer: buffer `k` (0-based) starts with all cells `(0,0,0,0)` and
receives, in command-list order, every command whose range contains `k + 1`; of such a
command every pixel `(x, y)` with `1 ≤ x ≤ width` and `1 ≤ y ≤ height` is blended into
cell `(y - 1) * width + (x - 1)`.  The argument `color` gives the colour that a colour
text resolves to. -/
def renderedFrame (color : List Char → RGBA) (blend : Byte → Byte → Byte → Byte)
    (commands : List Command) (width height : Int) (k : Nat) : List RGBA :=
  (commands.filter (fun cmd => decide (cmd.start ≤ (k : Int) + 1 ∧ (k : Int) + 1 ≤ cmd.end_))).foldl
    (fun buf cmd =>
      (cmd.pixels.filter
        (fun px => decide (1 ≤ px.x ∧ px.x ≤ width ∧ 1 ≤ px.y ∧ px.y ≤ height))).foldl
        (fun buf px =>
          blendInto blend (color cmd.color) buf ((px.y - 1) * width + (px.x - 1)).toNat)
        buf)
    (List.replicate (width * height).toNat RGBA.clear)

/-! ## Reference definitions for the container

The payload of a frame and its place in the stream, and a reader of the fixed layout.
These definitions follow the wording of the specification and call no function of the
writer; the theorems compare them with what the writer produces. -/

/-- The four bytes of a 32-bit value, low byte first. -/
def u32Bytes (val : Nat) : List Byte :=
  [toByte val, toByte (val / 256), toByte (val / 65536), toByte (val / 16777216)]

/-- The 32 bytes of the fixed header. -/
def headerBytes (width height fps totalFrames : Int) (loop : Bool) : List Byte :=
  [72, 77, 73, 67, 66, toByte 1,
    toByte (width % 65536).toNat, toByte ((width % 65536).toNat / 256),
    toByte (height % 65536).toNat, toByte ((height % 65536).toNat / 256),
    toByte (fps % 65536).toNat, toByte ((fps % 65536).toNat / 256)] ++
  u32Bytes (totalFrames % 4294967296).toNat ++
  [toByte (if loop then 1 else 0), toByte 1] ++ List.replicate 14 (toByte 0)

/-- The nine bytes of an index entry. -/
def entryBytes (e : FrameIndexEntry) : List Byte :=
  u32Bytes e.offset ++ u32Bytes e.size ++ [toByte e.type]

/-- Reference: the indices of the cells at which the two buffers differ, in increasing
order. -/
def differingCells (prev curr : List RGBA) : List Nat :=
  (List.range curr.length).filter (fun i => decide (prev[i]? ≠ curr[i]?))

/-- Reference: the eight bytes of the record of cell `i`: the column `i mod width` and
the row `i div width` in two bytes each, low byte first, then the bytes r, g, b, a of the
cell in `curr`. -/
def recordBytes (curr : List RGBA) (width : Nat) (i : Nat) : List Byte :=
  let x := (i % width) % 65536
  let y := (i / width) % 65536
  let c := curr.getD i RGBA.clear
  [toByte x, toByte (x / 256), toByte y, toByte (y / 256), c.r, c.g, c.b, c.a]

/-- Reference: the Delta payload of a buffer against its predecessor: the number of
differing cells in four bytes, then the record of every differing cell in increasing
index order. -/
def deltaBytes (prev curr : List RGBA) (width : Nat) : List Byte :=
  u32Bytes (differingCells prev curr).length ++
    (differingCells prev curr).flatMap (recordBytes curr width)

/-- Reference: the delta of `curr` against `prev` can be computed: `prev` has every cell
of `curr`, and the width is not 0 unless no cell differs. -/
def DeltaDefined (prev curr : List RGBA) (width : Nat) : Prop :=
  curr.length ≤ prev.length ∧ (width = 0 → differingCells prev curr = [])

/-- Reference: every frame of the list can be encoded: each frame whose index is no
multiple of 10 has a delta against the frame before it. -/
def Writable (frames : List (List RGBA)) (width : Int) : Prop :=
  ∀ i, i < frames.length → ¬ (i = 0 ∨ i % 10 = 0) →
    DeltaDefined (frames.getD (i - 1) []) (frames.getD i [])
      (width % 18446744073709551616).toNat

/-- Reference: the Full payload of a buffer: the four bytes r, g, b, a of every cell, in
the order of the cells. -/
def fullBytes : List RGBA → List Byte
  | [] => []
  | c :: cs => c.r :: c.g :: c.b :: c.a :: fullBytes cs

/-- Reference: the payload of frame `i`: the Full payload when `i` is a multiple of 10,
the Delta payload against frame `i - 1` otherwise. -/
def framePayload (frames : List (List RGBA)) (width : Int) (i : Nat) : List Byte :=
  if i = 0 ∨ i % 10 = 0 then fullBytes (frames.getD i [])
  else deltaBytes (frames.getD (i - 1) []) (frames.getD i []) (width % 18446744073709551616).toNat

/-- The kind byte of frame `i`: 0 for a full frame, 1 for a delta. -/
def frameKind (i : Nat) : Nat :=
  if i = 0 ∨ i % 10 = 0 then 0 else 1

/-- The byte position at which the payload of frame `i` begins: behind the 32 header
bytes, the `9 * N` index bytes and the payloads of the frames before `i`. -/
def payloadStart (frames : List (List RGBA)) (width : Int) (i : Nat) : Nat :=
  32 + 9 * frames.length + ((List.range i).map (fun j => (framePayload frames width j).length)).sum

/-- Reference: the index entry of frame `i`: position and length of its payload as 32-bit
values, and its kind. -/
def frameEntry (frames : List (List RGBA)) (width : Int) (i : Nat) : FrameIndexEntry :=
  ⟨payloadStart frames width i % 4294967296,
    (framePayload frames width i).length % 4294967296, frameKind i⟩

/-- The byte at offset `off` of a stream, as a number. -/
def readU8 (out : List Byte) (off : Nat) : Nat :=
  (out.getD off 0).val

/-- The little-endian 16-bit number at offset `off`. -/
def readU16 (out : List Byte) (off : Nat) : Nat :=
  readU8 out off + 256 * readU8 out (off + 1)

/-- The little-endian 32-bit number at offset `off`. -/
def readU32 (out : List Byte) (off : Nat) : Nat :=
  readU8 out off + 256 * readU8 out (off + 1) + 65536 * readU8 out (off + 2) +
    16777216 * readU8 out (off + 3)

/-- The offset field of index entry `i`, stored at bytes `32 + 9 i .. 32 + 9 i + 3`. -/
def indexOffset (out : List Byte) (i : Nat) : Nat := readU32 out (32 + 9 * i)

/-- The size field of index entry `i`, stored at bytes `32 + 9 i + 4 .. 32 + 9 i + 7`. -/
def indexSize (out : List Byte) (i : Nat) : Nat := readU32 out (32 + 9 * i + 4)

/-- The kind field of index entry `i`, stored at byte `32 + 9 i + 8`. -/
def indexKind (out : List Byte) (i : Nat) : Nat := readU8 out (32 + 9 * i + 8)

/-- The bytes `out[off .. off + size)`. -/
def byteSlice (out : List Byte) (off size : Nat) : List Byte :=
  (out.drop off).take size

/-- The payload of frame `j` as a reader finds it in a stream of `n` frames: payloads lie
back to back behind the index table, each as long as its index entry says. -/
def payloadAt (out : List Byte) (n j : Nat) : List Byte :=
  byteSlice out (32 + 9 * n + ((List.range j).map (indexSize out)).sum) (indexSize out j)

/-- The buffer a Full payload holds: four bytes `r,g,b,a` for each cell. -/
def decodeFull : List Byte → List RGBA
  | r :: g :: b :: a :: rest => ⟨r, g, b, a⟩ :: decodeFull rest
  | _ => []

/-- The 8-byte records of a Delta payload applied to a buffer: each record sets cell
`y * width + x` to its four colour bytes. -/
def applyRecords (width : Nat) : List RGBA → List Byte → List RGBA
  | buf, x0 :: x1 :: y0 :: y1 :: r :: g :: b :: a :: rest =>
    applyRecords width
      (buf.set ((y0.val + 256 * y1.val) * width + (x0.val + 256 * x1.val)) ⟨r, g, b, a⟩) rest
  | buf, _ => buf

/-- A Delta payload applied to a buffer: the records follow the 4-byte change count. -/
def applyDelta (width : Nat) (buf : List RGBA) (payload : List Byte) : List RGBA :=
  applyRecords width buf (payload.drop 4)

/-- Reconstruction of frame `i` from a stream of `n` frames: take the Full snapshot of the
nearest frame `k ≤ i` with `k % 10 == 0`, then apply the Delta payloads of the frames
`k + 1, ..., i` in order. -/
def reconstruct (out : List Byte) (n width i : Nat) : List RGBA :=
  (List.range' (i - i % 10 + 1) (i % 10)).foldl
    (fun buf j => applyDelta width buf (payloadAt out n j))
    (decodeFull (payloadAt out n (i - i % 10)))

end HMICB
namespace HMICX

/-! ## Reference texts of pixel lines -/

/-- Reference text: the decimal numeral of a natural number. -/
def decimal (n : Nat) : List Char := Nat.toDigits 10 n

/-- Reference text: one pair, the decimal numerals of `x` and `y` around the separator. -/
def pairText (item : Nat × Char × Nat) : List Char :=
  decimal item.1 ++ item.2.1 :: decimal item.2.2

/-- Reference text: the pairs separated by commas. -/
def pairsText : List (Nat × Char × Nat) → List Char
  | [] => []
  | [item] => pairText item
  | item :: next :: rest => pairText item ++ ',' :: pairsText (next :: rest)

end HMICX

namespace HMICX

/-- The value a digit loop accumulates over the characters `ds`, starting from `init`. -/
def digitsValue (ds : List Char) (init : Int) : Int :=
  ds.foldl (fun (num : Int) c => wrapInt32 (num * 10 + ((c.toNat : Int) - 48))) init

/-- Reference text: the two end points of a `PL=` line, `<x1>x<y1>-<x2>x<y2>`. -/
def plText (x1 y1 x2 y2 : Nat) (s1 s2 : Char) : List Char :=
  decimal x1 ++ s1 :: (decimal y1 ++ '-' :: (decimal x2 ++ s2 :: decimal y2))

/-- Reference pixels of a line between two end points: the horizontal run when the
rows agree, else the vertical run when the columns agree, else nothing. -/
def runPixels (x1 y1 x2 y2 : Nat) : List Pixel :=
  if y1 = y2 then
    (List.range' (min x1 x2) (max x1 x2 + 1 - min x1 x2)).map (fun (x : Nat) => ⟨(x : Int), (y1 : Int)⟩)
  else if x1 = x2 then
    (List.range' (min y1 y2) (max y1 y2 + 1 - min y1 y2)).map (fun (y : Nat) => ⟨(x1 : Int), (y : Int)⟩)
  else []

end HMICX

namespace HMICB

open HMICX

/-! ## Colour specifiers (`parseColor` of `hmicb.cpp`) -/

/-- The conversion of an `int` to a `uint8_t`. -/
def intToByte (z : Int) : Byte := toByte (z % 256).toNat

/-- The characters of `str.c_str()` as a C function reads them: up to the first NUL. -/
def cstr (s : List Char) : List Char := s.takeWhile (fun c => c != Char.ofNat 0)

/-- The value of a hexadecimal digit. -/
def hexDigitValue (c : Char) : Nat :=
  if isdigit c then c.toNat - 48
  else if 97 ≤ c.toNat ∧ c.toNat ≤ 102 then c.toNat - 87
  else c.toNat - 55

/-- The library call `std::stoi(s, nullptr, 16)`: leading whitespace, an optional sign, an
optional `0x` before a hexadecimal digit, then the longest run of hexadecimal digits.
`none` stands for the exceptions `std::invalid_argument` (no digit) and
`std::out_of_range` (the value is no `int`). -/
def stoiHex (s : List Char) : Option Int :=
  let s1 := (cstr s).dropWhile isspace
  let neg : Bool := s1.head? = some '-'
  let s2 := if s1.head? = some '-' ∨ s1.head? = some '+' then s1.tail else s1
  let s3 :=
    if s2.head? = some '0' ∧ (s2.tail.head? = some 'x' ∨ s2.tail.head? = some 'X') ∧
        (s2.drop 2).head?.any isxdigit then s2.drop 2
    else s2
  let ds := s3.takeWhile isxdigit
  let v : Int := ds.foldl (fun (n : Int) c => n * 16 + (hexDigitValue c : Int)) 0
  if ds.isEmpty then none
  else if neg then (if v ≤ 2147483648 then some (-v) else none)
  else if v ≤ 2147483647 then some v else none

/-- The conversion `%d` of `sscanf`: leading whitespace, an optional sign and at least one
decimal digit; the result is the value read and the text that follows it, or `none` when
the conversion fails.  The library converts the digits as `strtol` does, to a `long` that
stops at `LONG_MAX` and `LONG_MIN`, and stores the low 32 bits of it in the `int`. -/
def scanInt (s : List Char) : Option (Int × List Char) :=
  let s1 := s.dropWhile isspace
  let neg : Bool := s1.head? = some '-'
  let s2 := if s1.head? = some '-' ∨ s1.head? = some '+' then s1.tail else s1
  let ds := s2.takeWhile isdigit
  let v : Int := ds.foldl (fun (n : Int) c => n * 10 + ((c.toNat : Int) - 48)) 0
  if ds.isEmpty then none
  else
    some (wrapInt32 (if neg then max (-v) (-9223372036854775808) else min v 9223372036854775807),
      s2.dropWhile isdigit)

/-- The values `sscanf` assigns for a format of `n` conversions `%d` separated by commas:
the scan stops at the first conversion that fails and at the first comma that is missing,
and what follows the last conversion is not looked at. -/
def scanInts : Nat → List Char → List Int
  | 0, _ => []
  | n + 1, s =>
    match scanInt s with
    | none => []
    | some (v, rest) =>
      match rest with
      | ',' :: t => v :: scanInts n t
      | _ => [v]

/-- The initial value `{255,255,255,255}` of `parseColor`. -/
def RGBA.white : RGBA := ⟨255, 255, 255, 255⟩

/-- The function `parseColor`; `none` when a call of `stoi` throws. -/
def parseColor (s : List Char) : Option RGBA :=
  let str := s.map tolower
  if str.head? = some '#' ∧ str.length = 7 then
    (stoiHex ((str.drop 1).take 2)).bind (fun r =>
    (stoiHex ((str.drop 3).take 2)).bind (fun g =>
    (stoiHex ((str.drop 5).take 2)).bind (fun b =>
      some ⟨intToByte r, intToByte g, intToByte b, 255⟩)))
  else if "rgba(".toList.isPrefixOf str then
    match scanInts 4 ((cstr str).drop 5) with
    | [r, g, b, a] => some ⟨intToByte r, intToByte g, intToByte b, intToByte a⟩
    | _ => some RGBA.white
  else if "rgb(".toList.isPrefixOf str then
    match scanInts 3 ((cstr str).drop 4) with
    | [r, g, b] => some ⟨intToByte r, intToByte g, intToByte b, 255⟩
    | _ => some RGBA.white
  else some RGBA.white

end HMICB

namespace HMICB

open HMICX

/-! ## Reference texts of colour specifiers -/

/-- Reference text: the hexadecimal digit of a value below 16, upper-case when `upper`. -/
def hexChar (upper : Bool) (d : Nat) : Char :=
  if d < 10 then Char.ofNat (48 + d)
  else if upper then Char.ofNat (55 + d)
  else Char.ofNat (87 + d)

/-- Reference text: the two hexadecimal digits of a component, each in its own case. -/
def hexPair (u v : Bool) (n : Nat) : List Char :=
  [hexChar u (n / 16), hexChar v (n % 16)]

end HMICB

namespace HMICB

open HMICX

/-- Reference: a text that reads as one integer, made of whitespace, an optional sign
and at least one decimal digit. -/
def IntegerText (t : List Char) : Prop :=
  ∃ ws sg ds, t = ws ++ sg ++ ds ∧ (∀ c ∈ ws, isspace c = true) ∧
    (sg = [] ∨ sg = ['-'] ∨ sg = ['+']) ∧ ds ≠ [] ∧ ∀ c ∈ ds, isdigit c = true

/-- Reference text: the texts `ts` separated by commas. -/
def commaSeparated : List (List Char) → List Char
  | [] => []
  | [t] => t
  | t :: u :: rest => t ++ ',' :: commaSeparated (u :: rest)

/-- Reference: `str` begins with `name` and `n` integers separated by commas. -/
def BeginsWithIntegers (name : List Char) (n : Nat) (str : List Char) : Prop :=
  ∃ (ts : List (List Char)) (rest : List Char), ts.length = n ∧ (∀ t ∈ ts, IntegerText t) ∧
    str = name ++ (commaSeparated ts ++ rest)

end HMICB

namespace HMICB

open HMICX

/-- Reference: the command covers frame `k + 1` and one of its pixels inside the canvas
lies on cell `i`. -/
def coversCell (cmd : Command) (width height : Int) (k i : Nat) : Prop :=
  cmd.start ≤ (k : Int) + 1 ∧ (k : Int) + 1 ≤ cmd.end_ ∧
    ∃ px ∈ cmd.pixels, 1 ≤ px.x ∧ px.x ≤ width ∧ 1 ≤ px.y ∧ px.y ≤ height ∧
      ((px.y - 1) * width + (px.x - 1)).toNat = i

/-- Reference: the command with the pixels outside the canvas removed. -/
def clipCommand (width height : Int) (cmd : Command) : Command :=
  ⟨cmd.start, cmd.end_,
    cmd.pixels.filter
      (fun px => decide (1 ≤ px.x ∧ px.x ≤ width ∧ 1 ≤ px.y ∧ px.y ≤ height)),
    cmd.color⟩

end HMICB

namespace HMICB

open HMICX

/-! ## The conversion (`main` of `hmicb.cpp`) -/

/-- The library call `std::stoi(s)`: leading whitespace, an optional sign, then the
longest run of decimal digits.  `none` stands for the exceptions `std::invalid_argument`
(no digit) and `std::out_of_range` (the value is no `int`). -/
def stoiDec (s : List Char) : Option Int :=
  let s1 := (cstr s).dropWhile isspace
  let neg : Bool := s1.head? = some '-'
  let s2 := if s1.head? = some '-' ∨ s1.head? = some '+' then s1.tail else s1
  let ds := s2.takeWhile isdigit
  let v : Int := ds.foldl (fun (n : Int) c => n * 10 + ((c.toNat : Int) - 48)) 0
  if ds.isEmpty then none
  else if neg then (if v ≤ 2147483648 then some (-v) else none)
  else if v ≤ 2147483647 then some v else none

/-- The variables `width, height, fps, frames, loop` of `main`. -/
structure Props where
  width : Int
  height : Int
  fps : Int
  frames : Int
  loop : Bool
  deriving DecidableEq, Repr

/-- The two calls `sscanf(v, "%dx%d", &width, &height)` and, when the first does not make
both conversions, `sscanf(v, "%dX%d", &width, &height)`: every conversion that is made
stores its value in the `int` variable, also in a call that then fails. -/
def scanDisplay (v : List Char) (p : Props) : Props :=
  match scanInt (cstr v) with
  | none => p
  | some (w, rest) =>
    match rest with
    | c :: rest1 =>
      if c = 'x' ∨ c = 'X' then
        match scanInt rest1 with
        | some (h, _) => { p with width := w, height := h }
        | none => { p with width := w }
      else { p with width := w }
    | [] => { p with width := w }

/-- The body of the loop `for (auto& [k, v] : h)` of `main`; `none` when `stoi` throws. -/
def propsStep (p : Props) (kv : List Char × List Char) : Option Props :=
  let key := kv.1.map toupper
  if key = "DISPLAY".toList then some (scanDisplay kv.2 p)
  else if key = "FPS".toList then (stoiDec kv.2).map (fun n => { p with fps := n })
  else if key = "F".toList then (stoiDec kv.2).map (fun n => { p with frames := n })
  else if key = "LOOP".toList then
    some { p with loop := decide (kv.2 = ['Y'] ∨ kv.2 = ['y'] ∨ kv.2 = ['1']) }
  else some p

/-- The loop `for (auto& [k, v] : h)` of `main` from the initial values
`width=5, height=5, fps=2, frames=1, loop=true`.  The entries are visited in the order of
the list; the `std::map` of the source visits them in the order of the keys, which gives
the same variables because the parser stores every key once and in upper case. -/
def headerProps (h : HeaderMap) : Option Props :=
  h.foldlM propsStep ⟨5, 5, 2, 1, true⟩

/-- The exceptions that end the `try` block of `main`. -/
inductive Failure where
  | noValidCommands
  | invalidDimensions
  | libraryException
  deriving DecidableEq, Repr

/-- What the conversion ends with: a fatal error, or the bytes of the container file. -/
inductive Outcome where
  | failed (f : Failure)
  | written (bytes : List Byte)
  deriving DecidableEq, Repr

/-- The calls `renderAllFrames(cmds, width, height, frames)` and `writeHMICB(...)` of
`main`.  A negative frame count makes the `vector` constructor throw and a colour text
that `stoi` rejects makes `parseColor` throw; `none` when the renderer or the writer has
no result. -/
def renderAndWrite (blend : Byte → Byte → Byte → Byte) (cmds : List Command) (p : Props) :
    Option Outcome :=
  if p.frames < 0 then some (.failed .libraryException)
  else if cmds.any (fun cmd => (parseColor cmd.color).isNone) then
    some (.failed .libraryException)
  else
    (renderAllFrames parseColor blend cmds p.width p.height p.frames).bind (fun fr =>
      (writeHMICB p.width p.height p.fps p.frames p.loop fr).map Outcome.written)

/-- The `try` block of `main` on a script text, from `p.parse()` to `writeHMICB`: the
commands without pixels are filtered out, no command left is fatal, the properties are
read from the header, dimensions outside `[1, 10000]` are fatal, then the frames are
rendered and written.  `none` when the parser has no result. -/
def convert (blend : Byte → Byte → Byte → Byte) (content : List Char) : Option Outcome :=
  (parse content).bind (fun hc =>
    let validCmds := hc.2.filter (fun cmd => !cmd.pixels.isEmpty)
    if validCmds.isEmpty then some (.failed .noValidCommands)
    else
      match headerProps hc.1 with
      | none => some (.failed .libraryException)
      | some p =>
        if p.width ≤ 0 ∨ p.height ≤ 0 ∨ p.width > 10000 ∨ p.height > 10000 then
          some (.failed .invalidDimensions)
        else renderAndWrite blend validCmds p)

end HMICB
namespace HMICX

/-! ## Brace matching -/

/-- Scanning a stretch of text in which the depth stays positive never returns inside the
stretch: the scan continues behind it with the depth the stretch ends at. -/
theorem findMatchingBraceFrom_append (l tail : List Char) :
    ∀ (d : Int) (i : Nat),
      (∀ n, n ≤ l.length →
        0 < d + ((l.take n).count '{' : Int) - ((l.take n).count '}' : Int)) →
      findMatchingBraceFrom (l ++ tail) d i =
        findMatchingBraceFrom tail (d + (l.count '{' : Int) - (l.count '}' : Int))
          (i + l.length) := by
  induction l with
  | nil => intro d i _; simp
  | cons c cs ih =>
    intro d i h
    have h1 := h 1 (by simp)
    have hstep : ∀ n, n ≤ cs.length →
        0 < d + (((c :: cs).take (n + 1)).count '{' : Int)
          - (((c :: cs).take (n + 1)).count '}' : Int) :=
      fun n hn => h (n + 1) (by simpa using hn)
    by_cases hc : c = '{'
    · subst hc
      have hne : ('{' : Char) ≠ '}' := by decide
      simp only [List.cons_append, findMatchingBraceFrom, List.append_eq, if_true]
      rw [ih (d + 1) (i + 1)]
      · simp only [List.count_cons, List.length_cons]
        simp [hne]
        congr 1 <;> omega
      · intro n hn
        have := hstep n hn
        simp [List.count_cons, hne] at this
        omega
    · by_cases hc2 : c = '}'
      · subst hc2
        have hne : ('}' : Char) ≠ '{' := by decide
        simp [List.count_cons, hne] at h1
        have hd : ¬ (d - 1 = 0) := by omega
        simp only [List.cons_append, findMatchingBraceFrom, List.append_eq, if_neg hne, if_true, if_neg hd]
        rw [ih (d - 1) (i + 1)]
        · simp only [List.count_cons, List.length_cons]
          simp [hne]
          congr 1 <;> omega
        · intro n hn
          have := hstep n hn
          simp [List.count_cons, hne] at this
          omega
      · simp only [List.cons_append, findMatchingBraceFrom, List.append_eq, if_neg hc, if_neg hc2]
        rw [ih d (i + 1)]
        · simp only [List.count_cons, List.length_cons]
          simp [hc, hc2]
          congr 1
          omega
        · intro n hn
          have := hstep n hn
          simp [List.count_cons, hc, hc2] at this
          omega

/-- At positive depth the scan fails exactly when the depth stays positive on every prefix
of the text that is left. -/
theorem findMatchingBraceFrom_eq_none_iff (l : List Char) :
    ∀ (d : Int) (i : Nat), 1 ≤ d →
      (findMatchingBraceFrom l d i = none ↔
        ∀ n, n ≤ l.length →
          0 < d + ((l.take n).count '{' : Int) - ((l.take n).count '}' : Int)) := by
  induction l with
  | nil =>
    intro d i hd
    simp [findMatchingBraceFrom]
    omega
  | cons c cs ih =>
    intro d i hd
    have hsplit : ∀ (P : Nat → Prop), (∀ n, n ≤ (c :: cs).length → P n) ↔
        (P 0 ∧ ∀ n, n ≤ cs.length → P (n + 1)) := by
      intro P
      constructor
      · intro h
        exact ⟨h 0 (by simp), fun n hn => h (n + 1) (by simpa using hn)⟩
      · rintro ⟨h0, hs⟩ n hn
        cases n with
        | zero => exact h0
        | succ m => exact hs m (by simpa using hn)
    rw [hsplit]
    by_cases hc : c = '{'
    · subst hc
      have hne : ('{' : Char) ≠ '}' := by decide
      simp only [findMatchingBraceFrom, if_true]
      rw [ih (d + 1) (i + 1) (by omega)]
      simp only [List.take_succ_cons, List.count_cons]
      simp [hne]
      constructor
      · intro h
        refine ⟨by omega, fun n hn => ?_⟩
        have := h n hn
        omega
      · rintro ⟨_, h⟩ n hn
        have := h n hn
        omega
    · by_cases hc2 : c = '}'
      · subst hc2
        have hne : ('}' : Char) ≠ '{' := by decide
        by_cases hd1 : d - 1 = 0
        · simp only [findMatchingBraceFrom, if_neg hne, if_true, if_pos hd1]
          simp only [List.take_succ_cons, List.count_cons]
          simp [hne]
          intro _
          refine ⟨0, by simp, ?_⟩
          simp
          omega
        · simp only [findMatchingBraceFrom, if_neg hne, if_true, if_neg hd1]
          rw [ih (d - 1) (i + 1) (by omega)]
          simp only [List.take_succ_cons, List.count_cons]
          simp [hne]
          constructor
          · intro h
            refine ⟨by omega, fun n hn => ?_⟩
            have := h n hn
            omega
          · rintro ⟨_, h⟩ n hn
            have := h n hn
            omega
      · simp only [findMatchingBraceFrom, if_neg hc, if_neg hc2]
        rw [ih d (i + 1) hd]
        simp only [List.take_succ_cons, List.count_cons]
        simp [hc, hc2]
        intro _
        omega

/-- An index the scan returns lies in the scanned text and holds a closing brace. -/
theorem findMatchingBraceFrom_eq_some (l : List Char) :
    ∀ (d : Int) (i c : Nat), findMatchingBraceFrom l d i = some c →
      i ≤ c ∧ l[c - i]? = some '}' := by
  induction l with
  | nil => intro d i c h; simp [findMatchingBraceFrom] at h
  | cons a cs ih =>
    intro d i c h
    have hrec : ∀ d1, findMatchingBraceFrom cs d1 (i + 1) = some c →
        i ≤ c ∧ (a :: cs)[c - i]? = some '}' := by
      intro d1 h1
      obtain ⟨hle, hget⟩ := ih d1 (i + 1) c h1
      refine ⟨by omega, ?_⟩
      have : c - i = (c - (i + 1)) + 1 := by omega
      rw [this, List.getElem?_cons_succ]
      exact hget
    by_cases hc : a = '{'
    · simp only [findMatchingBraceFrom, if_pos hc] at h
      exact hrec _ h
    · by_cases hc2 : a = '}'
      · by_cases hd1 : d - 1 = 0
        · simp only [findMatchingBraceFrom, if_neg hc, if_pos hc2, if_pos hd1] at h
          have : i = c := by simpa using h
          subst this
          simp [hc2]
        · simp only [findMatchingBraceFrom, if_neg hc, if_pos hc2, if_neg hd1] at h
          exact hrec _ h
      · simp only [findMatchingBraceFrom, if_neg hc, if_neg hc2] at h
        exact hrec _ h

/-- The brace that opens a balanced stretch is matched by the brace that closes it. -/
theorem findMatchingBrace_of_balanced (pre inner rest : List Char)
    (hpfx : ∀ n, n ≤ inner.length → (inner.take n).count '}' ≤ (inner.take n).count '{')
    (htotal : inner.count '{' = inner.count '}') :
    findMatchingBrace (pre ++ ['{'] ++ inner ++ ['}'] ++ rest) pre.length =
      some (pre.length + inner.length + 1) := by
  have hdrop : (pre ++ ['{'] ++ inner ++ ['}'] ++ rest).drop pre.length =
      '{' :: (inner ++ '}' :: rest) := by
    have : pre ++ ['{'] ++ inner ++ ['}'] ++ rest = pre ++ ('{' :: (inner ++ '}' :: rest)) := by
      simp
    rw [this, List.drop_left]
  unfold findMatchingBrace
  rw [hdrop]
  simp only [findMatchingBraceFrom, if_true]
  rw [findMatchingBraceFrom_append inner ('}' :: rest) (0 + 1) (pre.length + 1)]
  · have hne : ('}' : Char) ≠ '{' := by decide
    have hz : (0 : Int) + 1 + (inner.count '{' : Int) - (inner.count '}' : Int) - 1 = 0 := by
      rw [htotal]; omega
    simp only [findMatchingBraceFrom, if_neg hne, if_true, if_pos hz]
    congr 1
    omega
  · intro n hn
    have := hpfx n hn
    omega

/-- C5. On a text `pre ++ "{" ++ inner ++ "}" ++ rest` whose `inner` is brace-balanced
(no prefix of `inner` closes more braces than it opens, and `inner` opens as many as it
closes, nested to any depth), `findMatchingBrace` started at the opening brace returns the
index of that closing brace, `|pre| + |inner| + 1`. -/
theorem findMatchingBrace_balanced (pre inner rest : List Char)
    (hpfx : ∀ n, n ≤ inner.length → (inner.take n).count '}' ≤ (inner.take n).count '{')
    (htotal : inner.count '{' = inner.count '}') :
    findMatchingBrace (pre ++ ['{'] ++ inner ++ ['}'] ++ rest) pre.length =
      some (pre.length + inner.length + 1) :=
  findMatchingBrace_of_balanced pre inner rest hpfx htotal

/-- C5, at a concrete input: in `ab{c{d}{{}}}x}` the brace opened at index 2 closes at
index 11. -/
theorem findMatchingBrace_balanced_witness :
    findMatchingBrace ("ab".toList ++ ['{'] ++ "c\x7bd\x7d\x7b\x7b\x7d\x7d".toList ++ ['}'] ++
      "x\x7d".toList) 2 = some 11 :=
  findMatchingBrace_balanced "ab".toList "c\x7bd\x7d\x7b\x7b\x7d\x7d".toList "x\x7d".toList
    (by decide) (by decide)

/-- C6. When `text[start]` is an opening brace, `findMatchingBrace` (a total function)
returns NOT_FOUND exactly when every non-empty prefix of `text[start ..]` contains more
opening than closing braces; otherwise it returns an index `c > start` with
`text[c]` a closing brace. -/
theorem findMatchingBrace_none_iff (text : List Char) (start : Nat)
    (hopen : text[start]? = some '{') :
    (findMatchingBrace text start = none ↔
      ∀ n, 1 ≤ n → n ≤ (text.drop start).length →
        ((text.drop start).take n).count '}' < ((text.drop start).take n).count '{') ∧
    (findMatchingBrace text start ≠ none →
      ∃ c, findMatchingBrace text start = some c ∧ start < c ∧ text[c]? = some '}') := by
  have hlt : start < text.length := by
    rcases Nat.lt_or_ge start text.length with h | h
    · exact h
    · rw [List.getElem?_eq_none h] at hopen; cases hopen
  have hget : text[start] = '{' := by
    rw [List.getElem?_eq_getElem hlt] at hopen
    exact Option.some.inj hopen
  have hdrop : text.drop start = '{' :: text.drop (start + 1) := by
    rw [List.drop_eq_getElem_cons hlt, hget]
  have hfm : findMatchingBrace text start =
      findMatchingBraceFrom (text.drop (start + 1)) 1 (start + 1) := by
    unfold findMatchingBrace
    rw [hdrop]
    simp [findMatchingBraceFrom]
  have hne : ('{' : Char) ≠ '}' := by decide
  refine ⟨?_, ?_⟩
  · rw [hfm, findMatchingBraceFrom_eq_none_iff _ 1 _ (by omega), hdrop]
    constructor
    · intro h n h1 hn
      obtain ⟨m, rfl⟩ : ∃ m, n = m + 1 := ⟨n - 1, by omega⟩
      have := h m (by simpa using hn)
      simp only [List.take_succ_cons, List.count_cons]
      simp [hne]
      omega
    · intro h n hn
      have := h (n + 1) (by omega) (by simpa using hn)
      simp only [List.take_succ_cons, List.count_cons] at this
      simp [hne] at this
      omega
  · intro hsome
    rw [hfm] at hsome ⊢
    cases hres : findMatchingBraceFrom (text.drop (start + 1)) 1 (start + 1) with
    | none => exact absurd hres hsome
    | some c =>
      obtain ⟨hle, hc⟩ := findMatchingBraceFrom_eq_some _ _ _ _ hres
      refine ⟨c, rfl, by omega, ?_⟩
      rw [List.getElem?_drop] at hc
      have : start + 1 + (c - (start + 1)) = c := by omega
      rw [this] at hc
      exact hc

/-- C6, at a concrete input: in `a{b{c}` the brace opened at index 1 is never closed. -/
theorem findMatchingBrace_none_iff_witness :
    findMatchingBrace "a\x7bb\x7bc\x7d".toList 1 = none :=
  (findMatchingBrace_none_iff "a\x7bb\x7bc\x7d".toList 1 (by decide)).1.2 (by decide)

/-! ## The header body -/

theorem slice_middle (pre cur rest : List Char) :
    slice (pre ++ cur ++ rest) pre.length (pre.length + cur.length) = cur := by
  unfold slice
  rw [List.append_assoc, List.drop_left, Nat.add_sub_cancel_left, List.take_left]

/-- The loop of `parseHeaderBody` folds `headerLine` over the newline-separated lines. -/
theorem parseHeaderBodyLoop_eq (rest : List Char) :
    ∀ (pre cur : List Char) (h : HeaderMap),
      parseHeaderBodyLoop (pre ++ cur ++ rest) rest (pre.length + cur.length) pre.length h =
        (((rest.splitOn '\n').modifyHead (fun l => cur ++ l)).foldl
          (fun h l => headerLine l h) h) := by
  induction rest with
  | nil =>
    intro pre cur h
    have := slice_middle pre cur []
    simp only [parseHeaderBodyLoop, this, List.splitOn_nil]
    simp
  | cons c rest ih =>
    intro pre cur h
    have hs := slice_middle pre cur (c :: rest)
    have hsplit : (c :: rest).splitOn '\n' =
        if (c == '\n') = true then [] :: rest.splitOn '\n'
        else (rest.splitOn '\n').modifyHead (List.cons c) :=
      List.splitOnP_cons _ c rest
    by_cases hc : c = '\n'
    · subst hc
      have hbody : pre ++ cur ++ '\n' :: rest = (pre ++ cur ++ ['\n']) ++ [] ++ rest := by simp
      have hlen : pre.length + cur.length + 1 =
          (pre ++ cur ++ ['\n']).length + ([] : List Char).length := by
        simp only [List.length_append, List.length_cons, List.length_nil]
      have hlen2 : pre.length + cur.length + 1 = (pre ++ cur ++ ['\n']).length := by
        simp only [List.length_append, List.length_cons, List.length_nil]
      simp only [parseHeaderBodyLoop, if_true, hs]
      rw [hsplit]
      simp only [beq_self_eq_true, if_true, List.modifyHead_cons, List.append_nil,
        List.foldl_cons]
      have := ih (pre ++ cur ++ ['\n']) [] (headerLine cur h)
      rw [← hbody, ← hlen, ← hlen2] at this
      rw [this]
      congr 1
      cases rest.splitOn '\n' <;> simp
    · have hbody : pre ++ cur ++ c :: rest = pre ++ (cur ++ [c]) ++ rest := by simp
      have hlen : pre.length + cur.length + 1 = pre.length + (cur ++ [c]).length := by
        simp only [List.length_append, List.length_cons, List.length_nil]
        omega
      simp only [parseHeaderBodyLoop, if_neg hc]
      rw [hsplit]
      have hb : ¬ ((c == '\n') = true) := by simpa using hc
      simp only [if_neg hb]
      have := ih pre (cur ++ [c]) h
      rw [← hbody, ← hlen] at this
      rw [this]
      congr 1
      cases rest.splitOn '\n' <;> simp

theorem parseHeaderBody_eq_foldl (body : List Char) (h : HeaderMap) :
    parseHeaderBody body h = (body.splitOn '\n').foldl (fun h l => headerLine l h) h := by
  have := parseHeaderBodyLoop_eq body [] [] h
  simp only [List.nil_append, List.length_nil, Nat.add_zero] at this
  unfold parseHeaderBody
  rw [this]
  congr 1
  cases body.splitOn '\n' <;> simp

theorem memchr_eq_none (t : List Char) (ch : Char) : memchr t ch = none ↔ ch ∉ t := by
  induction t with
  | nil => simp [memchr]
  | cons c cs ih =>
    by_cases hc : c = ch
    · simp [memchr, hc]
    · have : ¬ ch = c := fun h => hc h.symm
      simp [memchr, hc, ih, this]

theorem memchr_eq_some (t : List Char) (ch : Char) :
    ∀ k, memchr t ch = some k →
      t.take k = t.takeWhile (fun c => decide (c ≠ ch)) ∧
      t.drop (k + 1) = (t.dropWhile (fun c => decide (c ≠ ch))).drop 1 := by
  induction t with
  | nil => intro k h; simp [memchr] at h
  | cons c cs ih =>
    intro k h
    by_cases hc : c = ch
    · simp only [memchr, if_pos hc] at h
      have : k = 0 := by simpa using h.symm
      subst this
      simp [List.takeWhile_cons, List.dropWhile_cons, hc]
    · simp only [memchr, if_neg hc] at h
      cases hm : memchr cs ch with
      | none => rw [hm] at h; simp at h
      | some j =>
        rw [hm] at h
        have : k = j + 1 := by simpa using h.symm
        subst this
        obtain ⟨h1, h2⟩ := ih j hm
        simp [List.takeWhile_cons, List.dropWhile_cons, hc, h1, h2]

/-- The trimming of the code gives the trimmed text of the specification. -/
theorem fastTrim_eq_trimText (s : List Char) : fastTrim s = trimText s := rfl

/-- One line of the header body stores the entry the specification gives for the line. -/
theorem headerLine_eq (line : List Char) (h : HeaderMap) :
    headerLine line h =
      match headerEntry line with
      | some e => h.assign e.1 e.2
      | none => h := by
  unfold headerLine headerEntry
  simp only [← fastTrim_eq_trimText]
  cases hm : memchr (fastTrim line) '=' with
  | none =>
    have hnot := (memchr_eq_none _ _).1 hm
    simp [hnot]
  | some k =>
    have hin : '=' ∈ fastTrim line := by
      by_contra hcon
      rw [(memchr_eq_none _ _).2 hcon] at hm
      cases hm
    obtain ⟨h1, h2⟩ := memchr_eq_some _ _ k hm
    have hpos : (fastTrim line).length > 0 := List.length_pos_of_mem hin
    simp only [hpos, if_true, hin, h1, h2]
    generalize fastTrim ((fastTrim line).takeWhile (fun c => decide (c ≠ '='))) = key
    generalize fastTrim (((fastTrim line).dropWhile (fun c => decide (c ≠ '='))).drop 1) = val
    cases key <;> cases val <;> simp

theorem HeaderMap.lookup_assign (h : HeaderMap) (k v k1 : List Char) :
    (h.assign k v).lookup k1 = if k = k1 then some v else h.lookup k1 := by
  induction h with
  | nil => simp [HeaderMap.assign, HeaderMap.lookup]
  | cons e rest ih =>
    obtain ⟨k0, v0⟩ := e
    by_cases h0 : k0 = k
    · subst h0
      by_cases h1 : k0 = k1 <;> simp [HeaderMap.assign, HeaderMap.lookup, h1]
    · by_cases h1 : k0 = k1
      · subst h1
        have : ¬ k = k0 := fun h => h0 h.symm
        simp [HeaderMap.assign, HeaderMap.lookup, h0, this]
      · simp [HeaderMap.assign, HeaderMap.lookup, h0, h1, ih]

theorem HeaderMap.mem_assign (h : HeaderMap) (k v : List Char) (e : List Char × List Char)
    (he : e ∈ h.assign k v) : e = (k, v) ∨ e ∈ h := by
  induction h with
  | nil => simpa [HeaderMap.assign] using he
  | cons e0 rest ih =>
    obtain ⟨k0, v0⟩ := e0
    by_cases h0 : k0 = k
    · simp only [HeaderMap.assign, if_pos h0, List.mem_cons] at he
      rcases he with he | he
      · exact Or.inl he
      · exact Or.inr (List.mem_cons_of_mem _ he)
    · simp only [HeaderMap.assign, if_neg h0, List.mem_cons] at he
      rcases he with he | he
      · exact Or.inr (by simp [he])
      · rcases ih he with h1 | h1
        · exact Or.inl h1
        · exact Or.inr (List.mem_cons_of_mem _ h1)

theorem foldl_headerLine_eq (ls : List (List Char)) :
    ∀ h : HeaderMap, ls.foldl (fun h l => headerLine l h) h =
      (ls.filterMap headerEntry).foldl (fun h e => h.assign e.1 e.2) h := by
  induction ls with
  | nil => intro h; rfl
  | cons l ls ih =>
    intro h
    simp only [List.foldl_cons, List.filterMap_cons]
    rw [ih, headerLine_eq]
    cases headerEntry l <;> rfl

theorem lookup_foldl_assign (es : List (List Char × List Char)) (K : List Char) :
    ∀ h : HeaderMap, (es.foldl (fun h e => h.assign e.1 e.2) h).lookup K =
      match (es.filter (fun e => decide (e.1 = K))).getLast? with
      | some e => some e.2
      | none => h.lookup K := by
  induction es with
  | nil => intro h; rfl
  | cons e es ih =>
    intro h
    simp only [List.foldl_cons]
    rw [ih, HeaderMap.lookup_assign]
    by_cases hk : e.1 = K
    · simp only [List.filter_cons, hk, decide_True, if_true]
      cases hf : es.filter (fun e => decide (e.1 = K)) with
      | nil => simp
      | cons x xs =>
        rw [List.getLast?_cons_cons, List.getLast?_eq_getLast _ (List.cons_ne_nil x xs)]
    · simp only [List.filter_cons, hk, decide_False, if_false]
      simp

/-- The header map after `parseHeaderBody`: the last contributing line of each key wins,
and the keys no line contributes keep their old value. -/
theorem lookup_parseHeaderBody (body : List Char) (h : HeaderMap) (K : List Char) :
    (parseHeaderBody body h).lookup K =
      match lastHeaderValue body K with
      | some v => some v
      | none => h.lookup K := by
  rw [parseHeaderBody_eq_foldl, foldl_headerLine_eq, lookup_foldl_assign]
  unfold lastHeaderValue
  cases (List.filter (fun e => decide (e.1 = K))
    (List.filterMap headerEntry (List.splitOn '\n' body))).getLast? <;> rfl

theorem toNat_ofNat_small (n : Nat) (h : n < 256) : (Char.ofNat n).toNat = n := by
  interval_cases n <;> decide

theorem toupper_toNat (c : Char) :
    (toupper c).toNat = if 97 ≤ c.toNat ∧ c.toNat ≤ 122 then c.toNat - 32 else c.toNat := by
  unfold toupper
  by_cases h : 97 ≤ c.toNat ∧ c.toNat ≤ 122
  · rw [if_pos h, if_pos h]
    exact toNat_ofNat_small _ (by omega)
  · rw [if_neg h, if_neg h]

theorem isspace_toupper (c : Char) : isspace (toupper c) = isspace c := by
  unfold isspace
  rw [toupper_toNat]
  by_cases h : 97 ≤ c.toNat ∧ c.toNat ≤ 122
  · rw [if_pos h]
    have h1 : ¬ (c.toNat - 32 = 32) := by omega
    have h2 : ¬ (c.toNat - 32 ≤ 13) := by omega
    have h3 : ¬ (c.toNat = 32) := by omega
    have h4 : ¬ (c.toNat ≤ 13) := by omega
    simp [h1, h2, h3, h4]
  · rw [if_neg h]

theorem islower_toupper (c : Char) : islower (toupper c) = false := by
  unfold islower
  rw [toupper_toNat]
  by_cases h : 97 ≤ c.toNat ∧ c.toNat ≤ 122
  · rw [if_pos h]
    have h2 : ¬ (97 ≤ c.toNat - 32) := by omega
    simp [h2]
  · rw [if_neg h]
    simp only [Bool.and_eq_false_imp, decide_eq_true_eq, decide_eq_false_iff_not]
    intro h1 h2
    exact h ⟨h1, h2⟩

theorem fastTrim_trimmed (s : List Char) : Trimmed (fastTrim s) := by
  unfold fastTrim Trimmed
  constructor
  · intro c hc
    have hpre : (s.dropWhile isspace).rdropWhile isspace <+: s.dropWhile isspace :=
      List.rdropWhile_prefix isspace _
    obtain ⟨t, ht⟩ := hpre
    cases hr : (s.dropWhile isspace).rdropWhile isspace with
    | nil => rw [hr] at hc; cases hc
    | cons a as =>
      rw [hr] at hc ht
      have hca : a = c := by simpa using hc
      subst hca
      have hne : s.dropWhile isspace ≠ [] := by rw [← ht]; simp
      have := List.head_dropWhile_not isspace s hne
      have hh : (s.dropWhile isspace).head hne = a := by
        simp only [← ht]
        rfl
      rw [hh] at this
      exact this
  · intro c hc
    cases hr : (s.dropWhile isspace).rdropWhile isspace with
    | nil => rw [hr] at hc; cases hc
    | cons a as =>
      have hne : (s.dropWhile isspace).rdropWhile isspace ≠ [] := by rw [hr]; simp
      have := List.rdropWhile_last_not isspace (s.dropWhile isspace) hne
      rw [List.getLast?_eq_getLast _ hne] at hc
      have hc1 := Option.some.inj hc
      rw [hc1] at this
      simpa using this

theorem trimmed_map_toupper (s : List Char) (h : Trimmed s) : Trimmed (s.map toupper) := by
  obtain ⟨h1, h2⟩ := h
  constructor
  · intro c hc
    rw [List.head?_map] at hc
    cases hs : s.head? with
    | none => rw [hs] at hc; cases hc
    | some a =>
      rw [hs] at hc
      have : toupper a = c := by simpa using hc
      rw [← this, isspace_toupper]
      exact h1 a hs
  · intro c hc
    rw [List.getLast?_map] at hc
    cases hs : s.getLast? with
    | none => rw [hs] at hc; cases hc
    | some a =>
      rw [hs] at hc
      have : toupper a = c := by simpa using hc
      rw [← this, isspace_toupper]
      exact h2 a hs

/-- What every stored entry satisfies: a non-empty, trimmed key without lowercase ASCII
letters and a non-empty, trimmed value. -/
theorem headerEntry_shape (line : List Char) (e : List Char × List Char)
    (he : headerEntry line = some e) :
    e.1 ≠ [] ∧ Trimmed e.1 ∧ (∀ c ∈ e.1, islower c = false) ∧ e.2 ≠ [] ∧ Trimmed e.2 := by
  unfold headerEntry at he
  simp only [← fastTrim_eq_trimText] at he
  split at he
  · split at he
    · rename_i hkv
      have := Option.some.inj he
      subst this
      refine ⟨hkv.1, trimmed_map_toupper _ (fastTrim_trimmed _), ?_, hkv.2, fastTrim_trimmed _⟩
      intro c hc
      obtain ⟨a, _, rfl⟩ := List.mem_map.1 hc
      exact islower_toupper a
    · cases he
  · cases he

theorem HeaderMap.keys_assign (h : HeaderMap) (k v : List Char) (k1 : List Char)
    (hk : k1 ∈ (h.assign k v).map Prod.fst) : k1 = k ∨ k1 ∈ h.map Prod.fst := by
  obtain ⟨e, he, rfl⟩ := List.mem_map.1 hk
  rcases HeaderMap.mem_assign h k v e he with h1 | h1
  · exact Or.inl (by rw [h1])
  · exact Or.inr (List.mem_map.2 ⟨e, h1, rfl⟩)

theorem HeaderMap.nodup_assign (h : HeaderMap) (k v : List Char)
    (hn : (h.map Prod.fst).Nodup) : ((h.assign k v).map Prod.fst).Nodup := by
  induction h with
  | nil => simp [HeaderMap.assign]
  | cons e0 rest ih =>
    obtain ⟨k0, v0⟩ := e0
    simp only [List.map_cons, List.nodup_cons] at hn
    by_cases h0 : k0 = k
    · subst h0
      simp only [HeaderMap.assign, if_true, List.map_cons, List.nodup_cons]
      exact hn
    · simp only [HeaderMap.assign, if_neg h0, List.map_cons, List.nodup_cons]
      refine ⟨fun hmem => ?_, ih hn.2⟩
      rcases HeaderMap.keys_assign rest k v k0 hmem with h1 | h1
      · exact h0 h1
      · exact hn.1 h1

theorem HeaderMap.lookup_eq_some_iff (h : HeaderMap) (hn : (h.map Prod.fst).Nodup)
    (k v : List Char) : h.lookup k = some v ↔ (k, v) ∈ h := by
  induction h with
  | nil => simp [HeaderMap.lookup]
  | cons e0 rest ih =>
    obtain ⟨k0, v0⟩ := e0
    simp only [List.map_cons, List.nodup_cons] at hn
    by_cases h0 : k0 = k
    · subst h0
      simp only [HeaderMap.lookup, if_true, List.mem_cons, Option.some.injEq, Prod.mk.injEq,
        true_and]
      constructor
      · intro hv; exact Or.inl hv.symm
      · rintro (hv | hv)
        · exact hv.symm
        · exact absurd (List.mem_map.2 ⟨(k0, v), hv, rfl⟩) hn.1
    · have h1 : ¬ k = k0 := fun h => h0 h.symm
      simp only [HeaderMap.lookup, if_neg h0, List.mem_cons, Prod.mk.injEq, h1, false_and,
        false_or]
      exact ih hn.2

theorem foldl_assign_invariant (P : List Char × List Char → Prop)
    (es : List (List Char × List Char)) (hes : ∀ e ∈ es, P e) :
    ∀ h : HeaderMap, (h.map Prod.fst).Nodup → (∀ e ∈ h, P e) →
      ((es.foldl (fun h e => h.assign e.1 e.2) h).map Prod.fst).Nodup ∧
      ∀ e ∈ es.foldl (fun h e => h.assign e.1 e.2) h, P e := by
  induction es with
  | nil => intro h hn hp; exact ⟨hn, hp⟩
  | cons e es ih =>
    intro h hn hp
    simp only [List.foldl_cons]
    apply ih (fun x hx => hes x (List.mem_cons_of_mem _ hx)) _ (HeaderMap.nodup_assign h _ _ hn)
    intro x hx
    rcases HeaderMap.mem_assign h _ _ x hx with h1 | h1
    · rw [h1]; exact hes e (List.mem_cons_self _ _)
    · exact hp x h1

/-- C10. For every header body, `parseHeaderBody` (started on the empty map) stores the
pair `(K, V)` exactly when the last newline-separated line that contributes an entry with
key `K` (a trimmed line with `=`, key the upper-cased trimmed text before the first `=`,
value the trimmed text after it, both non-empty) has value `V`; lines that contribute no
entry add nothing.  Every stored key is non-empty, trimmed and free of lowercase ASCII
letters, every stored value is non-empty and trimmed, and no key is stored twice. -/
theorem parseHeaderBody_spec (body : List Char) :
    (∀ K V, (K, V) ∈ parseHeaderBody body [] ↔ lastHeaderValue body K = some V) ∧
    (∀ K, (parseHeaderBody body []).lookup K = lastHeaderValue body K) ∧
    ((parseHeaderBody body []).map Prod.fst).Nodup ∧
    (∀ e ∈ parseHeaderBody body [],
      e.1 ≠ [] ∧ Trimmed e.1 ∧ (∀ c ∈ e.1, islower c = false) ∧ e.2 ≠ [] ∧ Trimmed e.2) := by
  have hlook : ∀ K, (parseHeaderBody body []).lookup K = lastHeaderValue body K := by
    intro K
    rw [lookup_parseHeaderBody]
    cases lastHeaderValue body K <;> rfl
  have hinv := foldl_assign_invariant
    (fun e => e.1 ≠ [] ∧ Trimmed e.1 ∧ (∀ c ∈ e.1, islower c = false) ∧ e.2 ≠ [] ∧ Trimmed e.2)
    ((body.splitOn '\n').filterMap headerEntry)
    (by
      intro e he
      obtain ⟨l, _, hl⟩ := List.mem_filterMap.1 he
      exact headerEntry_shape l e hl)
    [] (by simp) (by simp)
  rw [← foldl_headerLine_eq, ← parseHeaderBody_eq_foldl] at hinv
  refine ⟨fun K V => ?_, hlook, hinv.1, hinv.2⟩
  rw [← HeaderMap.lookup_eq_some_iff _ hinv.1, hlook]

/-- C10, at a concrete body: of the two lines with key `a` the last one wins, keys are
upper-cased, both sides are trimmed, and the lines `noequal`, `=5` and `c=` add nothing. -/
theorem parseHeaderBody_spec_witness :
    parseHeaderBody " a = 1 \nFps=2\nnoequal\n=5\nc=\na=x y".toList [] =
      [("A".toList, "x y".toList), ("FPS".toList, "2".toList)] ∧
    (∀ K, (parseHeaderBody " a = 1 \nFps=2\nnoequal\n=5\nc=\na=x y".toList []).lookup K =
      lastHeaderValue " a = 1 \nFps=2\nnoequal\n=5\nc=\na=x y".toList K) ∧
    lastHeaderValue " a = 1 \nFps=2\nnoequal\n=5\nc=\na=x y".toList "A".toList =
      some "x y".toList ∧
    lastHeaderValue " a = 1 \nFps=2\nnoequal\n=5\nc=\na=x y".toList "FPS".toList =
      some "2".toList ∧
    lastHeaderValue " a = 1 \nFps=2\nnoequal\n=5\nc=\na=x y".toList "C".toList = none :=
  ⟨by decide, (parseHeaderBody_spec _).2.1, by decide, by decide, by decide⟩

end HMICX

namespace HMICX

/-! ## Decimal numbers -/

theorem wrapInt32_of_lt (z : Int) (h0 : 0 ≤ z) (h1 : z < 2147483648) : wrapInt32 z = z := by
  unfold wrapInt32
  omega

theorem digitChar_spec (n : Nat) (h : n < 10) :
    isdigit (Nat.digitChar n) = true ∧ ((Nat.digitChar n).toNat : Int) - 48 = n := by
  interval_cases n <;> decide

theorem toDigitsCore_succ (fuel n : Nat) (ds : List Char) :
    Nat.toDigitsCore 10 (fuel + 1) n ds =
      if n / 10 = 0 then Nat.digitChar (n % 10) :: ds
      else Nat.toDigitsCore 10 fuel (n / 10) (Nat.digitChar (n % 10) :: ds) := by
  rw [Nat.toDigitsCore]

/-- The digits `Nat.toDigitsCore` puts in front of `ds`, read back with the accumulation of
`fastExtractNumber`, give `n`. -/
theorem toDigitsCore_spec (n : Nat) :
    ∀ (fuel : Nat) (ds : List Char), n < fuel →
      ∃ xs, Nat.toDigitsCore 10 fuel n ds = xs ++ ds ∧ xs ≠ [] ∧
        (∀ c ∈ xs, isdigit c = true) ∧
        (n < 2147483648 →
          xs.foldl (fun (num : Int) c => wrapInt32 (num * 10 + ((c.toNat : Int) - 48))) 0 = n) := by
  induction n using Nat.strong_induction_on with
  | _ n ih =>
    intro fuel ds hf
    obtain ⟨f, rfl⟩ : ∃ f, fuel = f + 1 := ⟨fuel - 1, by omega⟩
    obtain ⟨hd1, hd2⟩ := digitChar_spec (n % 10) (Nat.mod_lt _ (by decide))
    rw [toDigitsCore_succ]
    generalize Nat.digitChar (n % 10) = d at hd1 hd2 ⊢
    by_cases hq : n / 10 = 0
    · rw [if_pos hq]
      refine ⟨[d], rfl, List.cons_ne_nil _ _, ?_, ?_⟩
      · intro c hc
        rw [List.mem_singleton] at hc
        rw [hc]; exact hd1
      · intro hn
        have e : (0 : Int) * 10 + ((d.toNat : Int) - 48) = n := by rw [hd2]; omega
        show wrapInt32 ((0 : Int) * 10 + ((d.toNat : Int) - 48)) = n
        rw [e]
        exact wrapInt32_of_lt _ (by omega) (by omega)
    · rw [if_neg hq]
      have hlt : n / 10 < n := by omega
      obtain ⟨xs, hxs, hne, hdig, hval⟩ := ih (n / 10) hlt f (d :: ds) (by omega)
      refine ⟨xs ++ [d], ?_, ?_, ?_, ?_⟩
      · rw [hxs, List.append_assoc]; rfl
      · intro h
        exact hne (List.append_eq_nil.1 h).1
      · intro c hc
        rcases List.mem_append.1 hc with h1 | h1
        · exact hdig c h1
        · rw [List.mem_singleton] at h1
          rw [h1]; exact hd1
      · intro hn
        rw [List.foldl_append, hval (by omega)]
        have e : ((n / 10 : Nat) : Int) * 10 + ((d.toNat : Int) - 48) = n := by rw [hd2]; omega
        show wrapInt32 (((n / 10 : Nat) : Int) * 10 + ((d.toNat : Int) - 48)) = n
        rw [e]
        exact wrapInt32_of_lt _ (by omega) (by omega)

/-- The decimal numeral of `a` is a non-empty run of digits, and reading it back with the
accumulation of `fastExtractNumber` gives `a` when `a` fits an `int`. -/
theorem toDigits_spec (a : Nat) :
    Nat.toDigits 10 a ≠ [] ∧ (∀ c ∈ Nat.toDigits 10 a, isdigit c = true) ∧
    (a < 2147483648 →
      (Nat.toDigits 10 a).foldl
        (fun (num : Int) c => wrapInt32 (num * 10 + ((c.toNat : Int) - 48))) 0 = a) := by
  obtain ⟨xs, hxs, hne, hdig, hval⟩ := toDigitsCore_spec a (a + 1) [] (by omega)
  have : Nat.toDigits 10 a = xs := by
    unfold Nat.toDigits
    rw [hxs, List.append_nil]
  rw [this]
  exact ⟨hne, hdig, hval⟩

/-- The digit loop on a run of digits that is followed by a character that is no digit. -/
theorem digitLoop_run (ds : List Char) (hdig : ∀ c ∈ ds, isdigit c = true) (rest : List Char)
    (hrest : ∀ c, rest.head? = some c → isdigit c = false) :
    ∀ (num : Int) (pos : Nat) (found : Bool),
      digitLoop (ds ++ rest) num pos found =
        (ds.foldl (fun (num : Int) c => wrapInt32 (num * 10 + ((c.toNat : Int) - 48))) num,
          pos + ds.length, found || !ds.isEmpty) := by
  induction ds with
  | nil =>
    intro num pos found
    cases rest with
    | nil => simp [digitLoop]
    | cons c cs =>
      have := hrest c rfl
      simp [digitLoop, this]
  | cons d ds ih =>
    intro num pos found
    have hd : isdigit d = true := hdig d (List.mem_cons_self _ _)
    rw [List.cons_append, digitLoop, if_pos hd,
      ih (fun c hc => hdig c (List.mem_cons_of_mem _ hc))]
    simp only [List.foldl_cons, List.length_cons, List.isEmpty_cons, Bool.not_false,
      Bool.or_true, Bool.true_or]
    congr 2
    omega

theorem skipSpacesFrom_ge (l : List Char) : ∀ pos, pos ≤ skipSpacesFrom l pos := by
  induction l with
  | nil => intro pos; simp [skipSpacesFrom]
  | cons c cs ih =>
    intro pos
    unfold skipSpacesFrom
    split
    · exact Nat.le_trans (Nat.le_succ _) (ih (pos + 1))
    · exact Nat.le_refl _

theorem skipSpaces_ge (data : List Char) (pos : Nat) : pos ≤ skipSpaces data pos :=
  skipSpacesFrom_ge _ _

/-- The scan of `parseHeader` returns for every text of at least four characters. -/
theorem parseHeaderLoop_isSome (data : List Char) :
    ∀ (fuel pos : Nat) (h : HeaderMap), data.length ≤ pos + fuel → 1 ≤ fuel →
      ∃ h1, parseHeaderLoop data fuel pos h = some h1 := by
  intro fuel
  induction fuel with
  | zero => intro pos h _ h1; omega
  | succ k ih =>
    intro pos h hlen _
    unfold parseHeaderLoop
    by_cases hp : pos + 4 < data.length
    · have hsk := skipSpaces_ge data (pos + 4)
      simp only [hp, if_true]
      split
      · split
        · split
          · exact ⟨_, rfl⟩
          · exact ih _ _ (by omega) (by omega)
        · exact ih _ _ (by omega) (by omega)
      · exact ih _ _ (by omega) (by omega)
    · simp only [hp, if_false]
      exact ⟨_, rfl⟩

theorem parseHeader_isSome (content : List Char) (hlen : 4 ≤ content.length) (h : HeaderMap) :
    ∃ h1, parseHeader content h = some h1 := by
  unfold parseHeader
  rw [if_neg (by omega)]
  exact parseHeaderLoop_isSome content _ _ _ (by omega) (by omega)

end HMICX

namespace HMICX

/-! ## Frame blocks -/

theorem parseFramesLoop_stop (data : List Char) (fuel pos : Nat) (commands : List Command)
    (h : ¬ pos + 1 < data.length) :
    parseFramesLoop data (fuel + 1) pos commands = some commands := by
  rw [parseFramesLoop, if_neg h]

theorem skipSpaces_of_not_space (pre rest : List Char) (c : Char) (hc : isspace c = false) :
    skipSpaces (pre ++ c :: rest) pre.length = pre.length := by
  unfold skipSpaces
  rw [List.drop_left, skipSpacesFrom, hc]
  rfl

theorem charAt_append_cons (pre rest : List Char) (c : Char) :
    charAt (pre ++ c :: rest) pre.length = c := by
  unfold charAt
  rw [List.getD_eq_getElem?_getD, List.getElem?_append_right (Nat.le_refl _)]
  simp

theorem fastExtractNumber_run (pre ds rest : List Char) (hne : ds ≠ [])
    (hdig : ∀ c ∈ ds, isdigit c = true)
    (hrest : ∀ c, rest.head? = some c → isdigit c = false) :
    fastExtractNumber (pre ++ (ds ++ rest)) pre.length =
      (ds.foldl (fun (num : Int) c => wrapInt32 (num * 10 + ((c.toNat : Int) - 48))) 0,
        pre.length + ds.length) := by
  unfold fastExtractNumber
  rw [List.drop_left, digitLoop_run ds hdig rest hrest]
  cases ds with
  | nil => exact absurd rfl hne
  | cons d ds => simp

end HMICX

namespace HMICX

/-- A frame block `F<range>{<body>}` that makes up the whole text: when the range text `N`
is read as start `s` and end `e` and `body` is brace-balanced, `parseFrames` produces the
commands of `body` for the frames `s .. e`. -/
theorem parseFrames_block (F : Char) (hF : F = 'F' ∨ F = 'f') (N body : List Char) (s e : Int)
    (text : List Char) (htext : text = F :: (N ++ '{' :: (body ++ ['}'])))
    (hpfx : ∀ n, n ≤ body.length → (body.take n).count '}' ≤ (body.take n).count '{')
    (htotal : body.count '{' = body.count '}')
    (hdig : isdigit (charAt text 1) = true)
    (hstart : (fastExtractNumber text 1).1 = s)
    (hrange :
      (if (fastExtractNumber text 1).2 < text.length ∧
          charAt text (fastExtractNumber text 1).2 = '-' then
        fastExtractNumber text ((fastExtractNumber text 1).2 + 1)
      else ((fastExtractNumber text 1).1, (fastExtractNumber text 1).2)) = (e, N.length + 1))
    (commands : List Command) :
    parseFrames text commands = parseFrameBody body s e commands := by
  have hlen : text.length = (N.length + body.length + 2) + 1 := by
    rw [htext]; simp only [List.length_cons, List.length_append, List.length_nil]; omega
  have hne : ¬ text.length = 0 := by omega
  have h1 : 1 < text.length := by omega
  have c0 : charAt text 0 = F := by rw [htext]; rfl
  have ht2 : text = (F :: N) ++ '{' :: (body ++ ['}']) := by rw [htext]; rfl
  have hsk : skipSpaces text (N.length + 1) = N.length + 1 := by
    rw [ht2]; exact skipSpaces_of_not_space (F :: N) _ '{' (by decide)
  have hbr : charAt text (N.length + 1) = '{' := by
    rw [ht2]; exact charAt_append_cons (F :: N) _ '{'
  have hfm : findMatchingBrace text (N.length + 1) = some (N.length + 1 + body.length + 1) := by
    have := findMatchingBrace_of_balanced (F :: N) body [] hpfx htotal
    rw [List.append_nil] at this
    rw [ht2]
    simpa using this
  have hsl : slice text (N.length + 1 + 1) (N.length + 1 + body.length + 1) = body := by
    have := slice_middle ((F :: N) ++ ['{']) body ['}']
    have e1 : text = (F :: N) ++ ['{'] ++ body ++ ['}'] := by rw [htext]; simp
    rw [e1]
    simpa [Nat.add_assoc, Nat.add_comm, Nat.add_left_comm] using this
  have hstop : ∀ c : List Command,
      parseFramesLoop text text.length (N.length + 1 + body.length + 1 + 1) c = some c := by
    intro c
    rw [hlen]
    exact parseFramesLoop_stop _ _ _ _ (by omega)
  unfold parseFrames
  rw [if_neg hne, parseFramesLoop]
  simp only [Nat.zero_add]
  rw [if_pos h1, if_pos ⟨by rw [c0]; exact hF, hdig⟩]
  simp only [hrange]
  simp only [hstart, hsk, hbr, hfm]
  rw [if_neg (by omega), if_neg (by simp)]
  simp only [hstop, hsl]
  by_cases hb : body = []
  · subst hb
    simp [parseFrameBody, parseFrameBodyLoop]
  · have : N.length + 1 + body.length + 1 - (N.length + 1) - 1 > 0 := by
      have := List.length_pos_of_ne_nil hb
      omega
    rw [if_pos this]
    cases parseFrameBody body s e commands <;> rfl

end HMICX

namespace HMICX

theorem parse_commands (text : List Char) (hlen : 4 ≤ text.length) :
    (parse text).map Prod.snd = parseFrames text [] := by
  obtain ⟨h, hh⟩ := parseHeader_isSome text hlen []
  unfold parse
  rw [hh]
  cases parseFrames text [] <;> rfl

/-- The frame range `<a>-<b>` in front of an opening brace is read as start `a`, end `b`. -/
theorem frame_range_two (F : Char) (A B rest : List Char) (a b : Int)
    (hA : A ≠ []) (hAd : ∀ c ∈ A, isdigit c = true)
    (hAv : A.foldl (fun (num : Int) c => wrapInt32 (num * 10 + ((c.toNat : Int) - 48))) 0 = a)
    (hB : B ≠ []) (hBd : ∀ c ∈ B, isdigit c = true)
    (hBv : B.foldl (fun (num : Int) c => wrapInt32 (num * 10 + ((c.toNat : Int) - 48))) 0 = b)
    (text : List Char) (htext : text = F :: ((A ++ '-' :: B) ++ '{' :: rest)) :
    isdigit (charAt text 1) = true ∧ (fastExtractNumber text 1).1 = a ∧
    (if (fastExtractNumber text 1).2 < text.length ∧
        charAt text (fastExtractNumber text 1).2 = '-' then
      fastExtractNumber text ((fastExtractNumber text 1).2 + 1)
    else ((fastExtractNumber text 1).1, (fastExtractNumber text 1).2)) =
      (b, (A ++ '-' :: B).length + 1) := by
  have e1 : text = [F] ++ (A ++ ('-' :: (B ++ '{' :: rest))) := by rw [htext]; simp
  have e2 : text = ([F] ++ A) ++ '-' :: (B ++ '{' :: rest) := by rw [htext]; simp
  have e3 : text = ([F] ++ A ++ ['-']) ++ (B ++ '{' :: rest) := by rw [htext]; simp
  have hrs : fastExtractNumber text 1 = (a, A.length + 1) := by
    have := fastExtractNumber_run [F] A ('-' :: (B ++ '{' :: rest)) hA hAd
      (by intro c hc; have : c = '-' := by simpa using hc.symm
          rw [this]; decide)
    rw [← e1, hAv] at this
    rw [show ([F] : List Char).length = 1 from rfl] at this
    rw [this, Nat.add_comm]
  have hc : charAt text (A.length + 1) = '-' := by
    have := charAt_append_cons ([F] ++ A) (B ++ '{' :: rest) '-'
    rw [← e2] at this
    rw [show ([F] ++ A).length = A.length + 1 by simp [Nat.add_comm]] at this
    exact this
  have hre : fastExtractNumber text (A.length + 1 + 1) = (b, (A ++ '-' :: B).length + 1) := by
    have := fastExtractNumber_run ([F] ++ A ++ ['-']) B ('{' :: rest) hB hBd
      (by intro c hc; have : c = '{' := by simpa using hc.symm
          rw [this]; decide)
    rw [← e3, hBv] at this
    have l1 : ([F] ++ A ++ ['-']).length = A.length + 1 + 1 := by simp [Nat.add_comm]
    rw [l1] at this
    rw [this]
    simp only [List.length_append, List.length_cons]
    congr 1
    omega
  have hlen : A.length + 1 < text.length := by
    rw [htext]; simp only [List.length_cons, List.length_append]; omega
  refine ⟨?_, ?_, ?_⟩
  · cases A with
    | nil => exact absurd rfl hA
    | cons d A1 =>
      have : charAt text 1 = d := by rw [htext]; rfl
      rw [this]
      exact hAd d (List.mem_cons_self _ _)
  · rw [hrs]
  · rw [hrs]
    simp only [hc, hlen, and_self, if_true, hre]

/-- The single frame number `<a>` in front of an opening brace is read as start and end. -/
theorem frame_range_one (F : Char) (A rest : List Char) (a : Int)
    (hA : A ≠ []) (hAd : ∀ c ∈ A, isdigit c = true)
    (hAv : A.foldl (fun (num : Int) c => wrapInt32 (num * 10 + ((c.toNat : Int) - 48))) 0 = a)
    (text : List Char) (htext : text = F :: (A ++ '{' :: rest)) :
    isdigit (charAt text 1) = true ∧ (fastExtractNumber text 1).1 = a ∧
    (if (fastExtractNumber text 1).2 < text.length ∧
        charAt text (fastExtractNumber text 1).2 = '-' then
      fastExtractNumber text ((fastExtractNumber text 1).2 + 1)
    else ((fastExtractNumber text 1).1, (fastExtractNumber text 1).2)) =
      (a, A.length + 1) := by
  have e1 : text = [F] ++ (A ++ ('{' :: rest)) := by rw [htext]; simp
  have e2 : text = ([F] ++ A) ++ '{' :: rest := by rw [htext]; simp
  have hrs : fastExtractNumber text 1 = (a, A.length + 1) := by
    have := fastExtractNumber_run [F] A ('{' :: rest) hA hAd
      (by intro c hc; have : c = '{' := by simpa using hc.symm
          rw [this]; decide)
    rw [← e1, hAv] at this
    rw [show ([F] : List Char).length = 1 from rfl] at this
    rw [this, Nat.add_comm]
  have hc : charAt text (A.length + 1) = '{' := by
    have := charAt_append_cons ([F] ++ A) rest '{'
    rw [← e2] at this
    rw [show ([F] ++ A).length = A.length + 1 by simp [Nat.add_comm]] at this
    exact this
  refine ⟨?_, ?_, ?_⟩
  · cases A with
    | nil => exact absurd rfl hA
    | cons d A1 =>
      have : charAt text 1 = d := by rw [htext]; rfl
      rw [this]
      exact hAd d (List.mem_cons_self _ _)
  · rw [hrs]
  · rw [hrs]
    have : ¬ ('{' : Char) = '-' := by decide
    simp only [hc, this, and_false, if_false]

/-- C7. For natural numbers `a`, `b` that fit an `int` and a brace-balanced frame body,
parsing the script `F<a>-<b>{<body>}` yields exactly the commands `parseFrameBody`
produces for `body` with start `a` and end `b`, and parsing `F<a>{<body>}` yields those
with start and end `a`; the marker may be `F` or `f`, and `<a>`, `<b>` are the decimal
numerals. -/
theorem parse_frame_block (F : Char) (hF : F = 'F' ∨ F = 'f') (a b : Nat)
    (ha : a < 2147483648) (hb : b < 2147483648) (body : List Char)
    (hpfx : ∀ n, n ≤ body.length → (body.take n).count '}' ≤ (body.take n).count '{')
    (htotal : body.count '{' = body.count '}') :
    (parse ([F] ++ Nat.toDigits 10 a ++ ['-'] ++ Nat.toDigits 10 b ++ ['{'] ++ body ++ ['}'])).map
        Prod.snd = parseFrameBody body a b [] ∧
    (parse ([F] ++ Nat.toDigits 10 a ++ ['{'] ++ body ++ ['}'])).map Prod.snd =
      parseFrameBody body a a [] := by
  obtain ⟨hA, hAd, hAv⟩ := toDigits_spec a
  obtain ⟨hB, hBd, hBv⟩ := toDigits_spec b
  have lA := List.length_pos_of_ne_nil hA
  have lB := List.length_pos_of_ne_nil hB
  constructor
  · have e : [F] ++ Nat.toDigits 10 a ++ ['-'] ++ Nat.toDigits 10 b ++ ['{'] ++ body ++ ['}'] =
        F :: ((Nat.toDigits 10 a ++ '-' :: Nat.toDigits 10 b) ++ '{' :: (body ++ ['}'])) := by
      simp
    rw [e, parse_commands _ (by simp only [List.length_cons, List.length_append]; omega)]
    obtain ⟨h1, h2, h3⟩ := frame_range_two F _ _ (body ++ ['}']) a b hA hAd (hAv ha) hB hBd
      (hBv hb) _ rfl
    exact parseFrames_block F hF _ body a b _ rfl hpfx htotal h1 h2 h3 []
  · have e : [F] ++ Nat.toDigits 10 a ++ ['{'] ++ body ++ ['}'] =
        F :: (Nat.toDigits 10 a ++ '{' :: (body ++ ['}'])) := by
      simp
    rw [e, parse_commands _ (by simp only [List.length_cons, List.length_append]; omega)]
    obtain ⟨h1, h2, h3⟩ := frame_range_one F _ (body ++ ['}']) a hA hAd (hAv ha) _ rfl
    exact parseFrames_block F hF _ body a a _ rfl hpfx htotal h1 h2 h3 []

/-- C7, at a concrete input: the script `f1-12{ #FF0000 { P=1x1,2x2 } }` and its
single-number form `f1{ #FF0000 { P=1x1,2x2 } }`, with the commands they yield. -/
theorem parse_frame_block_witness :
    ((parse (['f'] ++ Nat.toDigits 10 1 ++ ['-'] ++ Nat.toDigits 10 12 ++ ['{'] ++
        " #FF0000 \x7b P=1x1,2x2 \x7d ".toList ++ ['}'])).map Prod.snd =
      parseFrameBody " #FF0000 \x7b P=1x1,2x2 \x7d ".toList 1 12 [] ∧
    (parse (['f'] ++ Nat.toDigits 10 1 ++ ['{'] ++
        " #FF0000 \x7b P=1x1,2x2 \x7d ".toList ++ ['}'])).map Prod.snd =
      parseFrameBody " #FF0000 \x7b P=1x1,2x2 \x7d ".toList 1 1 []) ∧
    parseFrameBody " #FF0000 \x7b P=1x1,2x2 \x7d ".toList 1 12 [] =
      some [⟨1, 12, [⟨1, 1⟩, ⟨2, 2⟩], "#FF0000".toList⟩] :=
  ⟨parse_frame_block 'f' (Or.inr rfl) 1 12 (by decide) (by decide)
    " #FF0000 \x7b P=1x1,2x2 \x7d ".toList (by decide) (by decide), by decide⟩

end HMICX

namespace HMICX

/-! ## Failed matches -/

/-- C8, evaluated: in `F1 F2{#FF0000{P=1x1}}` the failed match `F1` ends at the `F` of the
next block, the loop increment steps over that `F`, and the block is lost: no command
comes out, while the block alone gives one command. -/
theorem parseFrames_failed_match_skips :
    parse "F1 F2\x7b#FF0000\x7bP=1x1\x7d\x7d".toList = some ([], []) ∧
    parse "F2\x7b#FF0000\x7bP=1x1\x7d\x7d".toList =
      some ([], [⟨2, 2, [⟨1, 1⟩], "#FF0000".toList⟩]) := by
  decide

/-- C9, evaluated: in `info info{A=1}` the failed match of the first `info` ends at the
`i` of the second one, the loop increment steps over it, and the header block is not
found: the header map stays empty, while the block alone gives the entry `A = 1`. -/
theorem parseHeader_failed_match_skips :
    parseHeader "info info\x7bA=1\x7d".toList [] = some [] ∧
    parseHeader "info\x7bA=1\x7d".toList [] = some [("A".toList, "1".toList)] ∧
    parseHeader "F1".toList [] = none := by
  decide

end HMICX

namespace HMICB

open HMICX

/-! ## The renderer -/

theorem mem_intRange (lo hi z : Int) : z ∈ intRange lo hi ↔ lo ≤ z ∧ z ≤ hi := by
  unfold intRange
  rw [List.mem_map]
  constructor
  · rintro ⟨k, hk, rfl⟩
    rw [List.mem_range] at hk
    omega
  · rintro ⟨h1, h2⟩
    refine ⟨(z - lo).toNat, ?_, ?_⟩
    · rw [List.mem_range]
      omega
    · omega

theorem nodup_intRange (lo hi : Int) : (intRange lo hi).Nodup := by
  unfold intRange
  exact (List.nodup_range _).map (fun a b h => by simpa using h)

/-- One pixel of the source loop is the specified blend when the pixel lies on the canvas,
and nothing otherwise. -/
theorem drawPixel_eq (blend : Byte → Byte → Byte → Byte) (color : RGBA) (width height : Int)
    (buf : List RGBA) (px : Pixel) :
    drawPixel blend color width height buf px =
      if 1 ≤ px.x ∧ px.x ≤ width ∧ 1 ≤ px.y ∧ px.y ≤ height then
        blendInto blend color buf ((px.y - 1) * width + (px.x - 1)).toNat
      else buf := by
  unfold drawPixel blendInto
  by_cases hin : 1 ≤ px.x ∧ px.x ≤ width ∧ 1 ≤ px.y ∧ px.y ≤ height
  · have hout : ¬ (px.x - 1 < 0 ∨ px.x - 1 ≥ width ∨ px.y - 1 < 0 ∨ px.y - 1 ≥ height) := by
      omega
    rw [if_neg hout, if_pos hin]
    by_cases h255 : color.a = 255
    · rw [if_pos h255, if_pos h255]
    · by_cases h0 : color.a = 0
      · have : ¬ (color.a > 0) := by rw [h0]; decide
        rw [if_neg h255, if_neg h255, if_neg this, if_pos h0]
      · have : color.a > 0 := Fin.pos_iff_ne_zero.2 h0
        rw [if_neg h255, if_neg h255, if_pos this, if_neg h0]
  · have hout : px.x - 1 < 0 ∨ px.x - 1 ≥ width ∨ px.y - 1 < 0 ∨ px.y - 1 ≥ height := by
      omega
    rw [if_pos hout, if_neg hin]

theorem foldl_drawPixel_eq (blend : Byte → Byte → Byte → Byte) (color : RGBA)
    (width height : Int) (pixels : List Pixel) :
    ∀ buf : List RGBA,
      pixels.foldl (drawPixel blend color width height) buf =
        (pixels.filter
          (fun px => decide (1 ≤ px.x ∧ px.x ≤ width ∧ 1 ≤ px.y ∧ px.y ≤ height))).foldl
          (fun buf px => blendInto blend color buf ((px.y - 1) * width + (px.x - 1)).toNat)
          buf := by
  induction pixels with
  | nil => intro buf; rfl
  | cons px pixels ih =>
    intro buf
    rw [List.foldl_cons, ih, drawPixel_eq]
    by_cases hin : 1 ≤ px.x ∧ px.x ≤ width ∧ 1 ≤ px.y ∧ px.y ≤ height
    · rw [if_pos hin, List.filter_cons_of_pos (by simpa using hin), List.foldl_cons]
    · rw [if_neg hin, List.filter_cons_of_neg (by simpa using hin)]

theorem length_blendInto (blend : Byte → Byte → Byte → Byte) (color : RGBA) (buf : List RGBA)
    (i : Nat) : (blendInto blend color buf i).length = buf.length := by
  unfold blendInto
  split
  · simp
  · split <;> simp

theorem length_foldl_blendInto (blend : Byte → Byte → Byte → Byte) (color : RGBA)
    (width : Int) (pixels : List Pixel) :
    ∀ buf : List RGBA,
      (pixels.foldl
        (fun buf px => blendInto blend color buf ((px.y - 1) * width + (px.x - 1)).toNat)
        buf).length = buf.length := by
  induction pixels with
  | nil => intro buf; rfl
  | cons px pixels ih =>
    intro buf
    rw [List.foldl_cons, ih, length_blendInto]

/-- The frame loop of one command over a list of distinct frame numbers: buffer `k` is
redrawn exactly when `k + 1` is among them. -/
theorem frameLoop_getD (draw : List RGBA → List RGBA) (totalFrames : Int) (k : Nat)
    (hk : (k : Int) < totalFrames) (L : List Int) (hL : L.Nodup) :
    ∀ frames : List (List RGBA), k < frames.length →
      (L.foldl
          (fun frames f =>
            if f - 1 < 0 ∨ f - 1 ≥ totalFrames then frames
            else frames.set (f - 1).toNat (draw (frames.getD (f - 1).toNat []))) frames).length =
        frames.length ∧
      (L.foldl
          (fun frames f =>
            if f - 1 < 0 ∨ f - 1 ≥ totalFrames then frames
            else frames.set (f - 1).toNat (draw (frames.getD (f - 1).toNat []))) frames).getD k [] =
        if ((k : Int) + 1) ∈ L then draw (frames.getD k []) else frames.getD k [] := by
  induction L with
  | nil => intro frames _; simp
  | cons f L ih =>
    intro frames hlen
    rw [List.nodup_cons] at hL
    rw [List.foldl_cons]
    by_cases hout : f - 1 < 0 ∨ f - 1 ≥ totalFrames
    · rw [if_pos hout]
      obtain ⟨h1, h2⟩ := ih hL.2 frames hlen
      refine ⟨h1, ?_⟩
      rw [h2]
      have hne : ¬ ((k : Int) + 1 = f) := by omega
      simp only [List.mem_cons, hne, false_or]
    · rw [if_neg hout]
      obtain ⟨h1, h2⟩ := ih hL.2 (frames.set (f - 1).toNat (draw (frames.getD (f - 1).toNat [])))
        (by simpa using hlen)
      refine ⟨by rw [h1, List.length_set], ?_⟩
      rw [h2]
      by_cases hf : (k : Int) + 1 = f
      · subst hf
        have hidx : ((k : Int) + 1 - 1).toNat = k := by omega
        rw [if_neg hL.1, if_pos (List.mem_cons_self _ _), hidx]
        simp [List.getD_eq_getElem?_getD, hlen]
      · have hidx : ¬ (f - 1).toNat = k := by omega
        have hget : (frames.set (f - 1).toNat (draw (frames.getD (f - 1).toNat []))).getD k [] =
            frames.getD k [] := by
          simp only [List.getD_eq_getElem?_getD, List.getElem?_set_ne hidx]
        rw [hget]
        simp only [List.mem_cons, hf, false_or]

end HMICB

namespace HMICB

open HMICX

/-- One command of the source loop: buffer `k` receives the on-canvas pixels of the command
when the range of the command contains `k + 1`, and is left alone otherwise. -/
theorem renderCommand_getD (parseColor : List Char → RGBA) (blend : Byte → Byte → Byte → Byte)
    (width height totalFrames : Int) (k : Nat) (hk : (k : Int) < totalFrames)
    (frames : List (List RGBA)) (hlen : k < frames.length) (cmd : Command) :
    (renderCommand blend width height totalFrames (parseColor cmd.color) frames cmd).length =
      frames.length ∧
    (renderCommand blend width height totalFrames (parseColor cmd.color) frames cmd).getD k [] =
      if cmd.start ≤ (k : Int) + 1 ∧ (k : Int) + 1 ≤ cmd.end_ then
        (cmd.pixels.filter
          (fun px => decide (1 ≤ px.x ∧ px.x ≤ width ∧ 1 ≤ px.y ∧ px.y ≤ height))).foldl
          (fun buf px =>
            blendInto blend (parseColor cmd.color) buf ((px.y - 1) * width + (px.x - 1)).toNat)
          (frames.getD k [])
      else frames.getD k [] := by
  have h := frameLoop_getD
    (fun buf => cmd.pixels.foldl (drawPixel blend (parseColor cmd.color) width height) buf)
    totalFrames k hk (intRange cmd.start (min cmd.end_ totalFrames)) (nodup_intRange _ _)
    frames hlen
  have hmem : ((k : Int) + 1 ∈ intRange cmd.start (min cmd.end_ totalFrames)) ↔
      (cmd.start ≤ (k : Int) + 1 ∧ (k : Int) + 1 ≤ cmd.end_) := by
    rw [mem_intRange]
    constructor
    · rintro ⟨h1, h2⟩
      exact ⟨h1, le_trans h2 (min_le_left _ _)⟩
    · rintro ⟨h1, h2⟩
      exact ⟨h1, le_min h2 (by omega)⟩
  refine ⟨h.1, h.2.trans ?_⟩
  simp only [hmem, foldl_drawPixel_eq]

/-- The command loop: buffer `k` receives, in list order, the commands whose range
contains `k + 1`. -/
theorem foldl_renderCommand_getD (parseColor : List Char → RGBA)
    (blend : Byte → Byte → Byte → Byte) (width height totalFrames : Int) (k : Nat)
    (hk : (k : Int) < totalFrames) (commands : List Command) :
    ∀ frames : List (List RGBA), k < frames.length →
      (commands.foldl (fun frames cmd => renderCommand blend width height totalFrames (parseColor cmd.color) frames cmd) frames).length =
        frames.length ∧
      (commands.foldl (fun frames cmd => renderCommand blend width height totalFrames (parseColor cmd.color) frames cmd) frames).getD k [] =
        (commands.filter
          (fun cmd => decide (cmd.start ≤ (k : Int) + 1 ∧ (k : Int) + 1 ≤ cmd.end_))).foldl
          (fun buf cmd =>
            (cmd.pixels.filter
              (fun px => decide (1 ≤ px.x ∧ px.x ≤ width ∧ 1 ≤ px.y ∧ px.y ≤ height))).foldl
              (fun buf px =>
                blendInto blend (parseColor cmd.color) buf
                  ((px.y - 1) * width + (px.x - 1)).toNat)
              buf)
          (frames.getD k []) := by
  induction commands with
  | nil => intro frames _; exact ⟨rfl, rfl⟩
  | cons cmd commands ih =>
    intro frames hlen
    obtain ⟨h1, h2⟩ := renderCommand_getD parseColor blend width height totalFrames k hk frames
      hlen cmd
    obtain ⟨h3, h4⟩ := ih (renderCommand blend width height totalFrames (parseColor cmd.color) frames cmd)
      (by rw [h1]; exact hlen)
    rw [List.foldl_cons]
    refine ⟨by rw [h3, h1], ?_⟩
    rw [h4, h2]
    by_cases hc : cmd.start ≤ (k : Int) + 1 ∧ (k : Int) + 1 ≤ cmd.end_
    · rw [if_pos hc, List.filter_cons_of_pos (by simpa using hc), List.foldl_cons]
    · rw [if_neg hc, List.filter_cons_of_neg (by simpa using hc)]

theorem length_renderedFrame (parseColor : List Char → RGBA) (blend : Byte → Byte → Byte → Byte)
    (commands : List Command) (width height : Int) (k : Nat) :
    (renderedFrame parseColor blend commands width height k).length =
      (width * height).toNat := by
  unfold renderedFrame
  generalize commands.filter
    (fun cmd => decide (cmd.start ≤ (k : Int) + 1 ∧ (k : Int) + 1 ≤ cmd.end_)) = cs
  have : ∀ buf : List RGBA,
      (cs.foldl
        (fun buf cmd =>
          (cmd.pixels.filter
            (fun px => decide (1 ≤ px.x ∧ px.x ≤ width ∧ 1 ≤ px.y ∧ px.y ≤ height))).foldl
            (fun buf px =>
              blendInto blend (parseColor cmd.color) buf
                ((px.y - 1) * width + (px.x - 1)).toNat)
            buf) buf).length = buf.length := by
    induction cs with
    | nil => intro buf; rfl
    | cons c cs ih =>
      intro buf
      rw [List.foldl_cons, ih, length_foldl_blendInto]
  rw [this, List.length_replicate]

/-- The command loop of `renderAllFrames` has a result exactly when the colour of every
command resolves, and is then the loop with the resolved colours. -/
theorem foldlM_resolve (parseColor : List Char → Option RGBA)
    (step : RGBA → List (List RGBA) → Command → List (List RGBA)) (commands : List Command) :
    ∀ frames : List (List RGBA),
      commands.foldlM
        (fun frames cmd => (parseColor cmd.color).map (fun color => step color frames cmd))
        frames =
      if ∀ cmd ∈ commands, (parseColor cmd.color).isSome = true then
        some (commands.foldl
          (fun frames cmd => step ((parseColor cmd.color).getD RGBA.clear) frames cmd) frames)
      else none := by
  induction commands with
  | nil => intro frames; simp
  | cons cmd commands ih =>
    intro frames
    rw [List.foldlM_cons]
    cases hc : parseColor cmd.color with
    | none =>
      rw [if_neg (fun h => by
        have := h cmd (List.mem_cons_self _ _)
        rw [hc] at this
        cases this)]
      rfl
    | some c =>
      simp only [Option.map_some', Option.bind_eq_bind, Option.some_bind, ih, List.foldl_cons,
        List.mem_cons, forall_eq_or_imp, hc, Option.isSome_some, true_and, Option.getD_some]

/-- The result of `renderAllFrames`, when there is one. -/
theorem renderAllFrames_eq (parseColor : List Char → Option RGBA)
    (blend : Byte → Byte → Byte → Byte) (commands : List Command)
    (width height totalFrames : Int) :
    renderAllFrames parseColor blend commands width height totalFrames =
      if (totalFrames ≤ 0 ∨ width * height < 0 ∨ width * height > 2147483647) ∨
          ¬ ∀ cmd ∈ commands, (parseColor cmd.color).isSome = true then none
      else
        some (commands.foldl
          (fun frames cmd => renderCommand blend width height totalFrames
            ((fun s => (parseColor s).getD RGBA.clear) cmd.color) frames cmd)
          (List.replicate totalFrames.toNat
            (List.replicate (width * height).toNat RGBA.clear))) := by
  unfold renderAllFrames
  by_cases hg : totalFrames ≤ 0 ∨ width * height < 0 ∨ width * height > 2147483647
  · rw [if_pos hg, if_pos (Or.inl hg)]
  · rw [if_neg hg, foldlM_resolve parseColor
      (fun color frames cmd => renderCommand blend width height totalFrames color frames cmd)]
    by_cases hc : ∀ cmd ∈ commands, (parseColor cmd.color).isSome = true
    · rw [if_pos hc, if_neg (by tauto)]
    · rw [if_neg hc, if_pos (Or.inr hc)]

/-- The result of `renderAllFrames` on commands whose colours resolve, on a canvas whose
cell count is an `int`. -/
theorem renderAllFrames_resolved (parseColor : List Char → Option RGBA)
    (color : List Char → RGBA) (blend : Byte → Byte → Byte → Byte) (commands : List Command)
    (width height totalFrames : Int)
    (hg : ¬ (totalFrames ≤ 0 ∨ width * height < 0 ∨ width * height > 2147483647))
    (hcol : ∀ cmd ∈ commands, parseColor cmd.color = some (color cmd.color)) :
    renderAllFrames parseColor blend commands width height totalFrames =
      some (commands.foldl
        (fun frames cmd => renderCommand blend width height totalFrames (color cmd.color)
          frames cmd)
        (List.replicate totalFrames.toNat
          (List.replicate (width * height).toNat RGBA.clear))) := by
  have hall : ∀ cmd ∈ commands, (parseColor cmd.color).isSome = true := by
    intro cmd hcmd
    rw [hcol cmd hcmd]
    rfl
  rw [renderAllFrames_eq, if_neg (by tauto)]
  congr 1
  apply List.foldl_ext
  intro frames cmd hcmd
  simp only [hcol cmd hcmd, Option.getD_some]

/-- C4, the counterexample: the colour text `#zzzzzz` has seven characters and begins
with `#`, so `parseColor` converts `zz` with `stoi`, which throws; `renderAllFrames`
returns no buffers for the one command with this colour on a 1x1 canvas with one frame.
Nor does it on a canvas of 46341 x 46341 cells, whose cell count is no `int`. -/
theorem renderAllFrames_color_error :
    parseColor "#zzzzzz".toList = none ∧
      renderAllFrames parseColor (fun c _ _ => c) [⟨1, 1, [⟨1, 1⟩], "#zzzzzz".toList⟩] 1 1 1 =
        none ∧
      renderAllFrames parseColor (fun c _ _ => c) [] 46341 46341 1 = none := by
  decide

/-- C4, amended: for every command list whose colour texts all resolve, `width ≥ 1`,
`height ≥ 1` with `width * height ≤ 2^31 - 1` and `totalFrames ≥ 1`, `renderAllFrames`
returns exactly `totalFrames` buffers of `width * height` cells, and buffer `k` is the
result of starting from all cells `(0,0,0,0)` and applying, in command-list order, every
command with `start ≤ k + 1 ≤ end`, blending each of its pixels with `1 ≤ x ≤ width`,
`1 ≤ y ≤ height` into cell `(y - 1) * width + (x - 1)`; other commands and other pixels
do not affect buffer `k`.  The statement holds for every colour resolver and every
channel-mixing function; `color` names the colours the texts resolve to. -/
theorem renderAllFrames_spec (parseColor : List Char → Option RGBA) (color : List Char → RGBA)
    (blend : Byte → Byte → Byte → Byte)
    (commands : List Command) (width height totalFrames : Int)
    (hw : 1 ≤ width) (hh : 1 ≤ height) (ht : 1 ≤ totalFrames)
    (hcells : width * height ≤ 2147483647)
    (hcol : ∀ cmd ∈ commands, parseColor cmd.color = some (color cmd.color)) :
    ∃ frames, renderAllFrames parseColor blend commands width height totalFrames = some frames ∧
      (frames.length : Int) = totalFrames ∧
      ∀ k : Nat, (k : Int) < totalFrames →
        frames[k]? = some (renderedFrame color blend commands width height k) ∧
        ((renderedFrame color blend commands width height k).length : Int) =
          width * height := by
  have hpos : 0 < width * height := Int.mul_pos (by omega) (by omega)
  have hguard : ¬ (totalFrames ≤ 0 ∨ width * height < 0 ∨ width * height > 2147483647) := by
    omega
  refine ⟨_, renderAllFrames_resolved parseColor color blend commands width height totalFrames
    hguard hcol, ?_, ?_⟩
  · have h0 : (0 : Nat) < (List.replicate totalFrames.toNat
        (List.replicate (width * height).toNat RGBA.clear)).length := by
      rw [List.length_replicate]; omega
    have := (foldl_renderCommand_getD color blend width height totalFrames 0 (by omega)
      commands _ h0).1
    rw [this, List.length_replicate]
    omega
  · intro k hk
    have hlen : k < (List.replicate totalFrames.toNat
        (List.replicate (width * height).toNat RGBA.clear)).length := by
      rw [List.length_replicate]; omega
    obtain ⟨h1, h2⟩ := foldl_renderCommand_getD color blend width height totalFrames k hk
      commands _ hlen
    constructor
    · have hk2 : k < (commands.foldl
          (fun frames cmd => renderCommand blend width height totalFrames (color cmd.color)
            frames cmd)
          (List.replicate totalFrames.toNat
            (List.replicate (width * height).toNat RGBA.clear))).length := by
        rw [h1]; exact hlen
      rw [List.getD_eq_getElem?_getD, List.getElem?_eq_getElem hk2] at h2
      rw [List.getElem?_eq_getElem hk2]
      simp only [Option.getD_some] at h2
      rw [h2]
      have hrep : (List.replicate totalFrames.toNat
          (List.replicate (width * height).toNat RGBA.clear)).getD k [] =
          List.replicate (width * height).toNat RGBA.clear := by
        rw [List.getD_eq_getElem?_getD, List.getElem?_eq_getElem hlen]
        simp
      rw [hrep]
      rfl
    · rw [length_renderedFrame]
      omega

/-- C4, amended, at a concrete input: two commands with the colours `#FF0000` and
`rgba(0,0,255,128)` on a 2x2 canvas with 2 frames. -/
theorem renderAllFrames_spec_witness :
    ∃ frames,
      renderAllFrames parseColor (fun c _ _ => c)
        [⟨1, 2, [⟨1, 1⟩, ⟨3, 1⟩], "#FF0000".toList⟩,
          ⟨2, 2, [⟨2, 2⟩], "rgba(0,0,255,128)".toList⟩] 2 2 2 = some frames ∧
      (frames.length : Int) = 2 ∧
      ∀ k : Nat, (k : Int) < 2 →
        frames[k]? = some (renderedFrame (fun s => (parseColor s).getD RGBA.clear)
          (fun c _ _ => c)
          [⟨1, 2, [⟨1, 1⟩, ⟨3, 1⟩], "#FF0000".toList⟩,
            ⟨2, 2, [⟨2, 2⟩], "rgba(0,0,255,128)".toList⟩] 2 2 k) ∧
        ((renderedFrame (fun s => (parseColor s).getD RGBA.clear) (fun c _ _ => c)
          [⟨1, 2, [⟨1, 1⟩, ⟨3, 1⟩], "#FF0000".toList⟩,
            ⟨2, 2, [⟨2, 2⟩], "rgba(0,0,255,128)".toList⟩] 2 2 k).length : Int) = 2 * 2 :=
  renderAllFrames_spec parseColor (fun s => (parseColor s).getD RGBA.clear) _ _ 2 2 2
    (by decide) (by decide) (by decide) (by decide) (by decide)

end HMICB

namespace HMICB

/-! ## The output stream -/

/-- The bytes of `writeU32`. -/
theorem writeU32_eq (s : OStream) (val : Nat) :
    writeU32 s val =
      s.write [toByte val, toByte (val / 256), toByte (val / 65536), toByte (val / 16777216)] :=
  rfl

theorem write_at_end (buf : List Byte) (bytes : List Byte) :
    OStream.write ⟨buf, buf.length⟩ bytes = ⟨buf ++ bytes, (buf ++ bytes).length⟩ := by
  unfold OStream.write
  simp

/-- Two consecutive writes are one write of the concatenated bytes. -/
theorem write_write (s : OStream) (hs : s.pos ≤ s.buf.length) (a b : List Byte) :
    (s.write a).write b = s.write (a ++ b) := by
  obtain ⟨buf, pos⟩ := s
  simp only at hs
  unfold OStream.write
  simp only [Nat.sub_eq_zero_of_le hs, List.replicate_zero, List.append_nil, List.length_append,
    List.length_take, Nat.min_eq_left hs, List.length_drop, OStream.mk.injEq]
  have h1 : pos + a.length - (pos + a.length + (buf.length - (pos + a.length))) = 0 := by omega
  refine ⟨?_, by omega⟩
  rw [h1, List.replicate_zero, List.append_nil]
  have h2 : (List.take pos buf ++ a ++ List.drop (pos + a.length) buf).take (pos + a.length) =
      List.take pos buf ++ a := by
    rw [List.take_append_of_le_length (by simp [Nat.min_eq_left hs])]
    rw [List.take_of_length_le (by simp [Nat.min_eq_left hs])]
  have h3 : (List.take pos buf ++ a ++ List.drop (pos + a.length) buf).drop
      (pos + a.length + b.length) = List.drop (pos + (a.length + b.length)) buf := by
    have hl : (List.take pos buf ++ a).length = pos + a.length := by
      simp [Nat.min_eq_left hs]
    rw [show pos + a.length + b.length = (List.take pos buf ++ a).length + b.length by rw [hl]]
    rw [List.drop_append, List.drop_drop]
    congr 1
    omega
  rw [h2, h3]
  simp

theorem write_pos_le (s : OStream) (hs : s.pos ≤ s.buf.length) (a : List Byte) :
    (s.write a).pos ≤ (s.write a).buf.length := by
  obtain ⟨buf, pos⟩ := s
  simp only at hs
  unfold OStream.write
  simp only [List.length_append, List.length_take, List.length_replicate, List.length_drop]
  omega

end HMICB

namespace HMICB

/-- A loop that appends the same bytes in each of its `n` rounds. -/
theorem foldl_append_const (step : OStream → OStream) (bytes : List Byte)
    (hstep : ∀ buf : List Byte, step ⟨buf, buf.length⟩ = ⟨buf ++ bytes, (buf ++ bytes).length⟩)
    (n : Nat) (buf : List Byte) :
    (List.range n).foldl (fun s _ => step s) ⟨buf, buf.length⟩ =
      ⟨buf ++ (List.replicate n bytes).flatten, (buf ++ (List.replicate n bytes).flatten).length⟩ := by
  induction n with
  | zero => simp
  | succ n ih =>
    rw [List.range_succ, List.foldl_append, ih, List.foldl_cons, List.foldl_nil, hstep]
    have : (List.replicate (n + 1) bytes).flatten = (List.replicate n bytes).flatten ++ bytes := by
      rw [List.replicate_succ', List.flatten_append]
      simp
    rw [this, List.append_assoc]

theorem length_headerBytes (width height fps totalFrames : Int) (loop : Bool) :
    (headerBytes width height fps totalFrames loop).length = 32 := by
  rfl

theorem writeHeader_eq (width height fps totalFrames : Int) (loop : Bool) :
    writeHeader ⟨[], 0⟩ width height fps totalFrames loop =
      ⟨headerBytes width height fps totalFrames loop,
        (headerBytes width height fps totalFrames loop).length⟩ := by
  show writeHeader ⟨[], ([] : List Byte).length⟩ width height fps totalFrames loop = _
  unfold writeHeader writeU32 writeU16
  simp only [writeU8]
  rw [write_at_end, write_at_end, write_at_end, write_at_end, write_at_end, write_at_end,
    write_at_end, write_at_end,
    foldl_append_const (fun s => s.write [toByte 0]) [toByte 0] (fun buf => write_at_end buf _)]
  have : headerBytes width height fps totalFrames loop =
      [] ++ [72, 77, 73, 67, 66] ++ [toByte 1] ++
        [toByte (width % 65536).toNat, toByte ((width % 65536).toNat / 256)] ++
        [toByte (height % 65536).toNat, toByte ((height % 65536).toNat / 256)] ++
        [toByte (fps % 65536).toNat, toByte ((fps % 65536).toNat / 256)] ++
        [toByte (totalFrames % 4294967296).toNat, toByte ((totalFrames % 4294967296).toNat / 256),
          toByte ((totalFrames % 4294967296).toNat / 65536),
          toByte ((totalFrames % 4294967296).toNat / 16777216)] ++
        [toByte (if loop then 1 else 0)] ++ [toByte 1] ++
        (List.replicate 14 [toByte 0]).flatten := by
    rfl
  rw [this]

theorem length_u32Bytes (v : Nat) : (u32Bytes v).length = 4 := rfl

theorem length_entryBytes (e : FrameIndexEntry) : (entryBytes e).length = 9 := rfl

end HMICB

namespace HMICB

/-! ## The delta encoder -/

theorem foldlM_range_some {β : Type} (f : β → Nat → Option β) (g : β → Nat → β) (n : Nat)
    (h : ∀ i, i < n → ∀ b, f b i = some (g b i)) (b0 : β) :
    (List.range n).foldlM f b0 = some ((List.range n).foldl g b0) := by
  induction n with
  | zero => rfl
  | succ n ih =>
    rw [List.range_succ, List.foldlM_append, ih (fun i hi => h i (by omega)), List.foldl_append]
    simp only [Option.bind_eq_bind, Option.some_bind, List.foldlM_cons, List.foldlM_nil,
      List.foldl_cons, List.foldl_nil]
    rw [h n (by omega)]
    rfl

theorem foldlM_range_none {β : Type} (f : β → Nat → Option β) (n k : Nat) (hk : k < n)
    (h : ∀ b, f b k = none) (b0 : β) : (List.range n).foldlM f b0 = none := by
  induction n with
  | zero => omega
  | succ n ih =>
    rw [List.range_succ, List.foldlM_append]
    by_cases hkn : k < n
    · rw [ih hkn]
      rfl
    · have hkn2 : k = n := by omega
      subst hkn2
      cases (List.range k).foldlM f b0 with
      | none => rfl
      | some b =>
        simp only [Option.bind_eq_bind, Option.some_bind, List.foldlM_cons, h b]
        rfl

theorem cellChanged_of_lt (prev curr : List RGBA) (i : Nat) (hi : i < curr.length)
    (hp : i < prev.length) :
    cellChanged prev curr i = some (decide (prev[i]? ≠ curr[i]?)) := by
  unfold cellChanged
  rw [List.getD_eq_getElem?_getD, List.getElem?_eq_getElem hi, List.getElem?_eq_getElem hp]
  simp

theorem cellChanged_none (prev curr : List RGBA) (i : Nat) (hp : prev.length ≤ i) :
    cellChanged prev curr i = none := by
  unfold cellChanged
  rw [List.getElem?_eq_none hp]
  rfl

theorem deltaRecord_of_pos (curr : List RGBA) (width i : Nat) (hw : width ≠ 0) :
    deltaRecord curr width i = some (recordBytes curr width i) := by
  unfold deltaRecord
  rw [if_neg hw]
  rfl

theorem foldl_count (P : Nat → Bool) (l : List Nat) :
    ∀ c0 : Nat, l.foldl (fun c i => if P i = true then c + 1 else c) c0 =
      c0 + (l.filter P).length := by
  induction l with
  | nil => intro c0; rfl
  | cons a l ih =>
    intro c0
    rw [List.foldl_cons, ih]
    by_cases ha : P a = true
    · rw [if_pos ha, List.filter_cons_of_pos ha, List.length_cons]
      omega
    · rw [if_neg ha, List.filter_cons_of_neg ha]

theorem foldl_records (P : Nat → Bool) (r : Nat → List Byte) (l : List Nat) :
    ∀ d0 : List Byte, l.foldl (fun d i => if P i = true then d ++ r i else d) d0 =
      d0 ++ (l.filter P).flatMap r := by
  induction l with
  | nil => intro d0; simp
  | cons a l ih =>
    intro d0
    rw [List.foldl_cons, ih]
    by_cases ha : P a = true
    · rw [if_pos ha, List.filter_cons_of_pos ha, List.flatMap_cons, List.append_assoc]
    · rw [if_neg ha, List.filter_cons_of_neg ha]

/-- Where the delta can be computed, `computeDelta` returns the Delta payload. -/
theorem computeDelta_of_defined (prev curr : List RGBA) (width : Nat)
    (h : DeltaDefined prev curr width) :
    computeDelta prev curr width = some (deltaBytes prev curr width) := by
  obtain ⟨hlen, hw⟩ := h
  unfold computeDelta
  rw [foldlM_range_some _
    (fun c i => if decide (prev[i]? ≠ curr[i]?) = true then c + 1 else c) curr.length
    (fun i hi c => by rw [cellChanged_of_lt prev curr i hi (by omega)]; rfl)]
  simp only [Option.bind_eq_bind, Option.some_bind]
  rw [foldlM_range_some _
    (fun d i => if decide (prev[i]? ≠ curr[i]?) = true then d ++ recordBytes curr width i else d)
    curr.length
    (fun i hi d => by
      rw [cellChanged_of_lt prev curr i hi (by omega)]
      simp only [Option.bind_eq_bind, Option.some_bind]
      by_cases hP : decide (prev[i]? ≠ curr[i]?) = true
      · have hw0 : width ≠ 0 := by
          intro h0
          have hnil := hw h0
          have hmem : i ∈ differingCells prev curr := by
            unfold differingCells
            exact List.mem_filter.2 ⟨List.mem_range.2 hi, hP⟩
          rw [hnil] at hmem
          cases hmem
        rw [if_pos hP, if_pos hP, deltaRecord_of_pos curr width i hw0]
        rfl
      · rw [if_neg hP, if_neg hP])]
  rw [foldl_count, foldl_records, Nat.zero_add]
  rfl

/-- A result of `computeDelta` is the Delta payload, and the delta can be computed. -/
theorem computeDelta_some (prev curr : List RGBA) (width : Nat) (out : List Byte)
    (h : computeDelta prev curr width = some out) :
    DeltaDefined prev curr width ∧ out = deltaBytes prev curr width := by
  by_cases hd : DeltaDefined prev curr width
  · rw [computeDelta_of_defined prev curr width hd] at h
    exact ⟨hd, (Option.some.inj h).symm⟩
  · exfalso
    by_cases hlen : curr.length ≤ prev.length
    · have hw : ¬ (width = 0 → differingCells prev curr = []) := fun hw => hd ⟨hlen, hw⟩
      have hw0 : width = 0 := by
        by_contra h0
        exact hw (fun h1 => absurd h1 h0)
      have hne : differingCells prev curr ≠ [] := fun hnil => hw (fun _ => hnil)
      obtain ⟨k, hk⟩ := List.exists_mem_of_ne_nil _ hne
      unfold differingCells at hk
      obtain ⟨hk1, hk2⟩ := List.mem_filter.1 hk
      rw [List.mem_range] at hk1
      unfold computeDelta at h
      rw [foldlM_range_some _
        (fun c i => if decide (prev[i]? ≠ curr[i]?) = true then c + 1 else c) curr.length
        (fun i hi c => by rw [cellChanged_of_lt prev curr i hi (by omega)]; rfl)] at h
      simp only [Option.bind_eq_bind, Option.some_bind] at h
      rw [foldlM_range_none _ curr.length k hk1 (fun d => by
        rw [cellChanged_of_lt prev curr k hk1 (by omega)]
        simp only [Option.bind_eq_bind, Option.some_bind]
        rw [if_pos hk2]
        unfold deltaRecord
        rw [if_pos hw0]
        rfl)] at h
      cases h
    · unfold computeDelta at h
      rw [foldlM_range_none _ curr.length prev.length (by omega) (fun c => by
        rw [cellChanged_none prev curr prev.length (Nat.le_refl _)]
        rfl)] at h
      cases h

theorem deltaDefined_of_length (prev curr : List RGBA) (width : Nat)
    (hlen : curr.length ≤ prev.length) (hw : width ≠ 0) : DeltaDefined prev curr width :=
  ⟨hlen, fun h => absurd h hw⟩

end HMICB

namespace HMICB

/-! ## The frame loop of the writer -/

theorem length_frameBytes (frame : List RGBA) : (frameBytes frame).length = frame.length * 4 := by
  unfold frameBytes
  induction frame with
  | nil => rfl
  | cons c cs ih =>
    rw [List.flatMap_cons, List.length_append, ih, List.length_cons]
    simp only [List.length_cons, List.length_nil]
    omega

/-- The memory of a frame is its Full payload. -/
theorem frameBytes_eq (frame : List RGBA) : frameBytes frame = fullBytes frame := by
  unfold frameBytes
  induction frame with
  | nil => rfl
  | cons c cs ih =>
    rw [List.flatMap_cons, ih]
    rfl

theorem length_fullBytes (frame : List RGBA) : (fullBytes frame).length = frame.length * 4 := by
  rw [← frameBytes_eq, length_frameBytes]

/-- One round of the frame loop writes the payload of the frame and records its entry,
when the frame is a Full frame or its delta can be computed. -/
theorem writeFrame_some (frames : List (List RGBA)) (width : Int)
    (st : OStream × List FrameIndexEntry) (i : Nat)
    (hd : ¬ (i = 0 ∨ i % 10 = 0) →
      DeltaDefined (frames.getD (i - 1) []) (frames.getD i [])
        (width % 18446744073709551616).toNat) :
    writeFrame frames width st i =
      some (st.1.write (framePayload frames width i),
        st.2.set i ⟨st.1.pos % 4294967296,
          (framePayload frames width i).length % 4294967296, frameKind i⟩) := by
  unfold writeFrame framePayload frameKind OStream.tellp
  by_cases h : i = 0 ∨ i % 10 = 0
  · simp only [h, if_true, frameBytes_eq, length_fullBytes]
  · simp only [h, if_false]
    rw [computeDelta_of_defined _ _ _ (hd h)]
    rfl

/-- One round of the frame loop has no result when the delta cannot be computed. -/
theorem writeFrame_none (frames : List (List RGBA)) (width : Int)
    (st : OStream × List FrameIndexEntry) (i : Nat) (h : ¬ (i = 0 ∨ i % 10 = 0))
    (hd : ¬ DeltaDefined (frames.getD (i - 1) []) (frames.getD i [])
      (width % 18446744073709551616).toNat) :
    writeFrame frames width st i = none := by
  unfold writeFrame
  simp only [h, if_false]
  cases hc : computeDelta (frames.getD (i - 1) []) (frames.getD i [])
      (width % 18446744073709551616).toNat with
  | none => rfl
  | some d => exact absurd (computeDelta_some _ _ _ d hc).1 hd

theorem length_flatMap_range (f : Nat → List Byte) (n : Nat) :
    ((List.range n).flatMap f).length = ((List.range n).map (fun j => (f j).length)).sum := by
  induction n with
  | zero => rfl
  | succ n ih =>
    rw [List.range_succ, List.flatMap_append, List.length_append, ih, List.map_append,
      List.sum_append]
    simp

theorem payloadStart_eq (frames : List (List RGBA)) (width : Int) (i : Nat)
    (base : List Byte) (hbase : base.length = 32 + 9 * frames.length) :
    (base ++ (List.range i).flatMap (framePayload frames width)).length =
      payloadStart frames width i := by
  unfold payloadStart
  rw [List.length_append, hbase, length_flatMap_range]

/-- The state after `n` rounds that write the payloads and record the entries: the
payloads of the first `n` frames follow the header and the index table, and their
entries fill the first `n` slots. -/
theorem frameLoop_rounds (frames : List (List RGBA)) (width : Int) (base : List Byte)
    (hbase : base.length = 32 + 9 * frames.length) (n : Nat) (hn : n ≤ frames.length) :
    (List.range n).foldl
        (fun (st : OStream × List FrameIndexEntry) i =>
          (st.1.write (framePayload frames width i),
            st.2.set i ⟨st.1.pos % 4294967296,
              (framePayload frames width i).length % 4294967296, frameKind i⟩))
        (⟨base, base.length⟩, List.replicate frames.length ⟨0, 0, 0⟩) =
      (⟨base ++ (List.range n).flatMap (framePayload frames width),
          (base ++ (List.range n).flatMap (framePayload frames width)).length⟩,
        (List.range n).map (frameEntry frames width) ++
          List.replicate (frames.length - n) ⟨0, 0, 0⟩) := by
  induction n with
  | zero => simp
  | succ n ih =>
    rw [List.range_succ, List.foldl_append, ih (by omega), List.foldl_cons, List.foldl_nil]
    simp only []
    rw [write_at_end, payloadStart_eq frames width n base hbase]
    congr 1
    · rw [List.flatMap_append, List.append_assoc]
      simp
    · have hrep : List.replicate (frames.length - n) (⟨0, 0, 0⟩ : FrameIndexEntry) =
          ⟨0, 0, 0⟩ :: List.replicate (frames.length - (n + 1)) ⟨0, 0, 0⟩ := by
        rw [show frames.length - n = (frames.length - (n + 1)) + 1 by omega, List.replicate_succ]
      have hl : ((List.range n).map (frameEntry frames width)).length = n := by simp
      rw [hrep, List.set_append_right _ _ (by rw [hl]), hl, Nat.sub_self, List.set_cons_zero,
        List.map_append, List.append_assoc]
      rfl

/-- The state of the frame loop after `n` rounds, when the first `n` frames can be
encoded. -/
theorem frameLoop_state (frames : List (List RGBA)) (width : Int) (base : List Byte)
    (hbase : base.length = 32 + 9 * frames.length) (n : Nat) (hn : n ≤ frames.length)
    (hd : ∀ i, i < n → ¬ (i = 0 ∨ i % 10 = 0) →
      DeltaDefined (frames.getD (i - 1) []) (frames.getD i [])
        (width % 18446744073709551616).toNat) :
    (List.range n).foldlM (writeFrame frames width)
        (⟨base, base.length⟩, List.replicate frames.length ⟨0, 0, 0⟩) =
      some (⟨base ++ (List.range n).flatMap (framePayload frames width),
          (base ++ (List.range n).flatMap (framePayload frames width)).length⟩,
        (List.range n).map (frameEntry frames width) ++
          List.replicate (frames.length - n) ⟨0, 0, 0⟩) := by
  rw [foldlM_range_some _ _ n (fun i hi st => writeFrame_some frames width st i (hd i hi)),
    frameLoop_rounds frames width base hbase n hn]

/-- The frame loop has a result only when every frame can be encoded. -/
theorem frameLoop_defined (frames : List (List RGBA)) (width : Int) (n : Nat)
    (st0 st : OStream × List FrameIndexEntry)
    (h : (List.range n).foldlM (writeFrame frames width) st0 = some st) :
    ∀ i, i < n → ¬ (i = 0 ∨ i % 10 = 0) →
      DeltaDefined (frames.getD (i - 1) []) (frames.getD i [])
        (width % 18446744073709551616).toNat := by
  intro i hi hni
  by_contra hnd
  rw [foldlM_range_none _ n i hi (fun b => writeFrame_none frames width b i hni hnd)] at h
  cases h

end HMICB

namespace HMICB

/-- Backpatching: writing the entries one after the other is one write of all their
bytes. -/
theorem backpatch_eq (es : List FrameIndexEntry) :
    ∀ s : OStream, s.pos ≤ s.buf.length →
      es.foldl (fun s e => writeU8 (writeU32 (writeU32 s e.offset) e.size) e.type) s =
        s.write (es.flatMap entryBytes) := by
  induction es with
  | nil =>
    intro s hs
    obtain ⟨buf, pos⟩ := s
    simp only at hs
    simp [OStream.write, Nat.sub_eq_zero_of_le hs]
  | cons e es ih =>
    intro s hs
    have hstep : writeU8 (writeU32 (writeU32 s e.offset) e.size) e.type =
        s.write (entryBytes e) := by
      unfold writeU8
      rw [writeU32_eq, writeU32_eq, write_write s hs,
        write_write s hs]
      rfl
    rw [List.foldl_cons, hstep, ih _ (write_pos_le s hs _), write_write s hs,
      List.flatMap_cons]

/-- Overwriting the middle part of a stream by bytes of the same length. -/
theorem write_middle (a b c b1 : List Byte) (hb : b1.length = b.length) :
    (OStream.write ⟨a ++ b ++ c, a.length⟩ b1).buf = a ++ b1 ++ c := by
  unfold OStream.write
  simp only []
  have h1 : a.length - (a ++ b ++ c).length = 0 := by
    simp only [List.length_append]; omega
  rw [h1, List.replicate_zero, List.append_nil, List.append_assoc a b c, List.take_left,
    hb, ← List.append_assoc a b c]
  rw [show a.length + b.length = (a ++ b).length by simp, List.drop_left]

/-- The function `writeHMICB` after the header and the zero-filled index table: the
data-start check passes, and the frame loop starts behind `32 + 9 N` bytes. -/
theorem writeHMICB_unfold (width height fps totalFrames : Int) (loop : Bool)
    (frames : List (List RGBA)) :
    writeHMICB width height fps totalFrames loop frames =
      ((List.range frames.length).foldlM (writeFrame frames width)
        (⟨headerBytes width height fps totalFrames loop ++
            (List.replicate frames.length (entryBytes ⟨0, 0, 0⟩)).flatten,
          (headerBytes width height fps totalFrames loop ++
            (List.replicate frames.length (entryBytes ⟨0, 0, 0⟩)).flatten).length⟩,
          List.replicate frames.length ⟨0, 0, 0⟩)).bind (fun st =>
        if frames.length = 0 then none
        else some (st.2.foldl
          (fun s e => writeU8 (writeU32 (writeU32 s e.offset) e.size) e.type)
          ⟨st.1.buf, (headerBytes width height fps totalFrames loop).length⟩).buf) := by
  have hstep : ∀ buf : List Byte,
      writeU8 (writeU32 (writeU32 ⟨buf, buf.length⟩ 0) 0) 0 =
        ⟨buf ++ entryBytes ⟨0, 0, 0⟩, (buf ++ entryBytes ⟨0, 0, 0⟩).length⟩ := by
    intro buf
    unfold writeU8
    rw [writeU32_eq, writeU32_eq, write_at_end, write_at_end, write_at_end, List.append_assoc,
      List.append_assoc]
    rfl
  have hzl : ((List.replicate frames.length (entryBytes ⟨0, 0, 0⟩)).flatten).length =
      9 * frames.length := by
    rw [List.length_flatten, List.map_replicate, List.sum_replicate, length_entryBytes]
    simp [Nat.mul_comm]
  have hbase : (headerBytes width height fps totalFrames loop ++
      (List.replicate frames.length (entryBytes ⟨0, 0, 0⟩)).flatten).length =
      32 + 9 * frames.length := by
    rw [List.length_append, hzl, length_headerBytes]
  unfold writeHMICB
  simp only [OStream.tellp, OStream.seekp]
  rw [writeHeader_eq,
    foldl_append_const (fun s => writeU8 (writeU32 (writeU32 s 0) 0) 0) _ hstep]
  simp only []
  rw [if_neg (by rw [hbase]; omega)]

/-- The layout of the stream `writeHMICB` produces for a non-empty list of frames that
can be encoded: the 32 header bytes, the index entries of all frames, the payloads of all
frames. -/
theorem writeHMICB_eq (width height fps totalFrames : Int) (loop : Bool)
    (frames : List (List RGBA)) (hne : frames ≠ []) (hwr : Writable frames width) :
    writeHMICB width height fps totalFrames loop frames =
      some (headerBytes width height fps totalFrames loop ++
        (List.range frames.length).flatMap (fun i => entryBytes (frameEntry frames width i)) ++
        (List.range frames.length).flatMap (framePayload frames width)) := by
  have hlen0 : ¬ frames.length = 0 := fun h => hne (List.length_eq_zero.1 h)
  have hzl : ((List.replicate frames.length (entryBytes ⟨0, 0, 0⟩)).flatten).length =
      9 * frames.length := by
    rw [List.length_flatten, List.map_replicate, List.sum_replicate, length_entryBytes]
    simp [Nat.mul_comm]
  have hbase : (headerBytes width height fps totalFrames loop ++
      (List.replicate frames.length (entryBytes ⟨0, 0, 0⟩)).flatten).length =
      32 + 9 * frames.length := by
    rw [List.length_append, hzl, length_headerBytes]
  have hil : ((List.range frames.length).flatMap
      (fun i => entryBytes (frameEntry frames width i))).length =
      ((List.replicate frames.length (entryBytes ⟨0, 0, 0⟩)).flatten).length := by
    rw [hzl, length_flatMap_range]
    simp [length_entryBytes, Nat.mul_comm]
  rw [writeHMICB_unfold,
    frameLoop_state frames width _ hbase frames.length (Nat.le_refl _) hwr]
  simp only [Option.bind_eq_bind, Option.some_bind, if_neg hlen0, Nat.sub_self,
    List.replicate_zero, List.append_nil]
  rw [backpatch_eq _ _ (by
    simp only [List.length_append, length_headerBytes]; omega)]
  rw [List.flatMap_map]
  have := write_middle (headerBytes width height fps totalFrames loop)
    ((List.replicate frames.length (entryBytes ⟨0, 0, 0⟩)).flatten)
    ((List.range frames.length).flatMap (framePayload frames width))
    ((List.range frames.length).flatMap (fun i => entryBytes (frameEntry frames width i))) hil
  rw [this]

/-- The function `writeHMICB` has a result only for a non-empty list of frames that can be
encoded. -/
theorem writeHMICB_defined (width height fps totalFrames : Int) (loop : Bool)
    (frames : List (List RGBA)) (out : List Byte)
    (hout : writeHMICB width height fps totalFrames loop frames = some out) :
    frames ≠ [] ∧ Writable frames width := by
  rw [writeHMICB_unfold] at hout
  cases hloop : (List.range frames.length).foldlM (writeFrame frames width)
      (⟨headerBytes width height fps totalFrames loop ++
          (List.replicate frames.length (entryBytes ⟨0, 0, 0⟩)).flatten,
        (headerBytes width height fps totalFrames loop ++
          (List.replicate frames.length (entryBytes ⟨0, 0, 0⟩)).flatten).length⟩,
        List.replicate frames.length ⟨0, 0, 0⟩) with
  | none =>
    rw [hloop] at hout
    cases hout
  | some st =>
    rw [hloop] at hout
    simp only [Option.bind_eq_bind, Option.some_bind] at hout
    constructor
    · intro hnil
      rw [hnil] at hout
      simp at hout
    · exact frameLoop_defined frames width frames.length _ st hloop

/-- The layout of a stream that `writeHMICB` has written. -/
theorem writeHMICB_out (width height fps totalFrames : Int) (loop : Bool)
    (frames : List (List RGBA)) (out : List Byte)
    (hout : writeHMICB width height fps totalFrames loop frames = some out) :
    out = headerBytes width height fps totalFrames loop ++
        (List.range frames.length).flatMap (fun i => entryBytes (frameEntry frames width i)) ++
        (List.range frames.length).flatMap (framePayload frames width) := by
  obtain ⟨hne, hwr⟩ := writeHMICB_defined width height fps totalFrames loop frames out hout
  rw [writeHMICB_eq width height fps totalFrames loop frames hne hwr] at hout
  exact (Option.some.inj hout).symm

/-- Frames of one common length can be encoded at every width that is not 0. -/
theorem writable_of_uniform (frames : List (List RGBA)) (width : Int) (n : Nat)
    (hcells : ∀ f ∈ frames, f.length = n)
    (hw : (width % 18446744073709551616).toNat ≠ 0) : Writable frames width := by
  intro i hi hni
  apply deltaDefined_of_length _ _ _ _ hw
  have h1 : i - 1 < frames.length := by omega
  rw [List.getD_eq_getElem?_getD, List.getD_eq_getElem?_getD, List.getElem?_eq_getElem hi,
    List.getElem?_eq_getElem h1]
  simp only [Option.getD_some]
  rw [hcells _ (List.getElem_mem hi), hcells _ (List.getElem_mem h1)]

theorem width_ne_zero (width : Int) (h1 : 1 ≤ width) (h2 : width ≤ 2147483647) :
    (width % 18446744073709551616).toNat ≠ 0 := by
  omega

end HMICB

namespace HMICB

/-! ## Reading the stream back -/

theorem toByte_val (n : Nat) : (toByte n).val = n % 256 := rfl

theorem readU8_add (out : List Byte) (a t : Nat) : readU8 out (a + t) = readU8 (out.drop a) t := by
  unfold readU8
  rw [List.getD_eq_getElem?_getD, List.getD_eq_getElem?_getD, List.getElem?_drop]

theorem readU32_add (out : List Byte) (a t : Nat) :
    readU32 out (a + t) = readU32 (out.drop a) t := by
  have h : ∀ k, readU8 out (a + t + k) = readU8 (out.drop a) (t + k) := by
    intro k
    rw [Nat.add_assoc]
    exact readU8_add _ _ _
  unfold readU32
  rw [h 1, h 2, h 3, readU8_add]

theorem readU16_add (out : List Byte) (a t : Nat) :
    readU16 out (a + t) = readU16 (out.drop a) t := by
  have h : ∀ k, readU8 out (a + t + k) = readU8 (out.drop a) (t + k) := by
    intro k
    rw [Nat.add_assoc]
    exact readU8_add _ _ _
  unfold readU16
  rw [h 1, readU8_add]

/-- Reading back the three fields of an index entry. -/
theorem read_entryBytes (e : FrameIndexEntry) (rest : List Byte) :
    readU32 (entryBytes e ++ rest) 0 = e.offset % 4294967296 ∧
    readU32 (entryBytes e ++ rest) 4 = e.size % 4294967296 ∧
    readU8 (entryBytes e ++ rest) 8 = e.type % 256 := by
  unfold readU32 readU8 entryBytes u32Bytes
  simp only [List.cons_append, List.nil_append, List.getD_cons_zero, List.getD_cons_succ,
    toByte_val]
  refine ⟨by omega, by omega, trivial⟩

/-- The frames before `i`, frame `i`, and the frames after it. -/
theorem flatMap_range_split (f : Nat → List Byte) (n i : Nat) (hi : i < n) :
    (List.range n).flatMap f =
      (List.range i).flatMap f ++ (f i ++ ((List.range n).drop (i + 1)).flatMap f) := by
  have h1 : List.range n = (List.range n).take i ++ (List.range n).drop i :=
    (List.take_append_drop i _).symm
  have h2 : (List.range n).take i = List.range i := by
    rw [List.take_range, Nat.min_eq_left (Nat.le_of_lt hi)]
  have h3 : (List.range n).drop i = i :: (List.range n).drop (i + 1) := by
    rw [List.drop_eq_getElem_cons (by simpa using hi)]
    simp
  conv => lhs; rw [h1, h2, h3]
  rw [List.flatMap_append, List.flatMap_cons]

theorem length_index_before (frames : List (List RGBA)) (width : Int) (i : Nat) :
    ((List.range i).flatMap (fun j => entryBytes (frameEntry frames width j))).length = 9 * i := by
  rw [length_flatMap_range]
  simp [length_entryBytes, Nat.mul_comm]

/-- What the index table of the written stream holds for frame `i`. -/
theorem index_entry_read (width height fps totalFrames : Int) (loop : Bool)
    (frames : List (List RGBA)) (i : Nat) (hi : i < frames.length) (out : List Byte)
    (hout : writeHMICB width height fps totalFrames loop frames = some out) :
    indexOffset out i = payloadStart frames width i % 4294967296 ∧
    indexSize out i = (framePayload frames width i).length % 4294967296 ∧
    indexKind out i = frameKind i := by
  have hne : frames ≠ [] := by
    intro h; rw [h] at hi; exact Nat.not_lt_zero _ hi
  have hout := writeHMICB_out width height fps totalFrames loop frames out hout
  have hdrop : out.drop (32 + 9 * i) =
      entryBytes (frameEntry frames width i) ++
        (((List.range frames.length).drop (i + 1)).flatMap
            (fun j => entryBytes (frameEntry frames width j)) ++
          (List.range frames.length).flatMap (framePayload frames width)) := by
    rw [hout, flatMap_range_split (fun j => entryBytes (frameEntry frames width j)) _ i hi]
    have hl : (headerBytes width height fps totalFrames loop ++
        (List.range i).flatMap (fun j => entryBytes (frameEntry frames width j))).length =
        32 + 9 * i := by
      rw [List.length_append, length_headerBytes, length_index_before]
    rw [← hl]
    simp only [List.append_assoc]
    rw [← List.append_assoc, List.drop_left]
  have hk : frameKind i < 256 := by
    unfold frameKind; split <;> decide
  obtain ⟨r1, r2, r3⟩ := read_entryBytes (frameEntry frames width i)
    (((List.range frames.length).drop (i + 1)).flatMap
        (fun j => entryBytes (frameEntry frames width j)) ++
      (List.range frames.length).flatMap (framePayload frames width))
  rw [← hdrop] at r1 r2 r3
  refine ⟨?_, ?_, ?_⟩
  · unfold indexOffset
    rw [← Nat.add_zero (32 + 9 * i), readU32_add, r1]
    unfold frameEntry
    simp
  · unfold indexSize
    rw [readU32_add, r2]
    unfold frameEntry
    simp
  · unfold indexKind
    rw [readU8_add, r3]
    unfold frameEntry
    exact Nat.mod_eq_of_lt hk

end HMICB

namespace HMICB

/-- The payloads lie back to back behind the index table: the payload of frame `i` begins
at `payloadStart i`, and the stream ends behind the last payload. -/
theorem payload_slice (width height fps totalFrames : Int) (loop : Bool)
    (frames : List (List RGBA)) (i : Nat) (hi : i < frames.length) (out : List Byte)
    (hout : writeHMICB width height fps totalFrames loop frames = some out) :
    byteSlice out (payloadStart frames width i) (framePayload frames width i).length =
      framePayload frames width i ∧
    payloadStart frames width i + (framePayload frames width i).length ≤ out.length := by
  have hne : frames ≠ [] := by
    intro h; rw [h] at hi; exact Nat.not_lt_zero _ hi
  have hout := writeHMICB_out width height fps totalFrames loop frames out hout
  have hbase : (headerBytes width height fps totalFrames loop ++
      (List.range frames.length).flatMap
        (fun j => entryBytes (frameEntry frames width j))).length = 32 + 9 * frames.length := by
    rw [List.length_append, length_headerBytes, length_index_before]
  have hsplit := flatMap_range_split (framePayload frames width) frames.length i hi
  have hl := payloadStart_eq frames width i _ hbase
  have hform : out = (headerBytes width height fps totalFrames loop ++
      (List.range frames.length).flatMap (fun j => entryBytes (frameEntry frames width j)) ++
      (List.range i).flatMap (framePayload frames width)) ++
      (framePayload frames width i ++
        ((List.range frames.length).drop (i + 1)).flatMap (framePayload frames width)) := by
    rw [hout, hsplit, List.append_assoc, List.append_assoc, List.append_assoc]
  constructor
  · unfold byteSlice
    rw [hform, ← hl, List.drop_left, List.take_left]
  · rw [hform, List.length_append, hl, List.length_append]
    omega

theorem length_writeHMICB (width height fps totalFrames : Int) (loop : Bool)
    (frames : List (List RGBA)) (_ : frames ≠ []) (out : List Byte)
    (hout : writeHMICB width height fps totalFrames loop frames = some out) :
    out.length = payloadStart frames width frames.length := by
  have hout := writeHMICB_out width height fps totalFrames loop frames out hout
  have hbase : (headerBytes width height fps totalFrames loop ++
      (List.range frames.length).flatMap
        (fun j => entryBytes (frameEntry frames width j))).length = 32 + 9 * frames.length := by
    rw [List.length_append, length_headerBytes, length_index_before]
  rw [hout]
  exact payloadStart_eq frames width frames.length _ hbase

/-- C2, amended. For every frame list on which `writeHMICB` writes a stream (it does for
every non-empty list of frames of one common size when the width is at least 1), the
payloads lie back to back behind the index table, frame `i` at `32 + 9 N +` the sum of
the payload sizes of the frames before `i`, and index entry `i` stores that position and
the payload length reduced modulo `2^32`.  When the stream is shorter than `2^32` bytes,
entry `i` stores exactly the position and the length, and `out[offset .. offset + size)`
is the payload of frame `i`. -/
theorem writeHMICB_index (width height fps totalFrames : Int) (loop : Bool)
    (frames : List (List RGBA)) :
    (frames ≠ [] → 1 ≤ width → width ≤ 2147483647 → (∃ n, ∀ f ∈ frames, f.length = n) →
      ∃ out, writeHMICB width height fps totalFrames loop frames = some out) ∧
    ∀ out, writeHMICB width height fps totalFrames loop frames = some out →
      out.length = payloadStart frames width frames.length ∧
      ∀ i, i < frames.length →
        byteSlice out (payloadStart frames width i) (framePayload frames width i).length =
          framePayload frames width i ∧
        indexOffset out i = payloadStart frames width i % 4294967296 ∧
        indexSize out i = (framePayload frames width i).length % 4294967296 ∧
        (out.length < 4294967296 →
          indexOffset out i = payloadStart frames width i ∧
          indexSize out i = (framePayload frames width i).length ∧
          byteSlice out (indexOffset out i) (indexSize out i) = framePayload frames width i) := by
  constructor
  · rintro hne hw1 hw2 ⟨n, hcells⟩
    exact ⟨_, writeHMICB_eq width height fps totalFrames loop frames hne
      (writable_of_uniform frames width n hcells (width_ne_zero width hw1 hw2))⟩
  intro out hout
  have hne := (writeHMICB_defined width height fps totalFrames loop frames out hout).1
  refine ⟨length_writeHMICB width height fps totalFrames loop frames hne _ hout, ?_⟩
  intro i hi
  obtain ⟨h1, h2⟩ := payload_slice width height fps totalFrames loop frames i hi _ hout
  obtain ⟨h3, h4, _⟩ := index_entry_read width height fps totalFrames loop frames i hi _ hout
  refine ⟨h1, h3, h4, ?_⟩
  intro hsmall
  have e1 : payloadStart frames width i % 4294967296 = payloadStart frames width i :=
    Nat.mod_eq_of_lt (by omega)
  have e2 : (framePayload frames width i).length % 4294967296 =
      (framePayload frames width i).length := Nat.mod_eq_of_lt (by omega)
  rw [h3, h4, e1, e2]
  exact ⟨rfl, rfl, h1⟩

/-- C2 amended, at a concrete input: two 1x1 frames.  The stream has 32 + 18 + 4 + 12 bytes,
the Full payload of frame 0 lies at byte 50 and the Delta payload of frame 1 at byte 54. -/
theorem writeHMICB_index_witness :
    ∃ out, writeHMICB 1 1 2 2 true [[⟨255, 0, 0, 255⟩], [RGBA.clear]] = some out ∧
      out.length = 66 ∧
      (indexOffset out 0 = 50 ∧ indexSize out 0 = 4 ∧
        byteSlice out (indexOffset out 0) (indexSize out 0) = [255, 0, 0, 255]) ∧
      (indexOffset out 1 = 54 ∧ indexSize out 1 = 12 ∧
        byteSlice out (indexOffset out 1) (indexSize out 1) =
          [1, 0, 0, 0, 0, 0, 0, 0, 0, 0, 0, 0]) := by
  obtain ⟨out, hout⟩ := (writeHMICB_index 1 1 2 2 true [[⟨255, 0, 0, 255⟩], [RGBA.clear]]).1
    (by decide) (by decide) (by decide) ⟨1, by decide⟩
  obtain ⟨hlen, hall⟩ :=
    (writeHMICB_index 1 1 2 2 true [[⟨255, 0, 0, 255⟩], [RGBA.clear]]).2 out hout
  have hl : out.length = 66 := hlen.trans (by decide)
  obtain ⟨-, -, -, h0⟩ := hall 0 (by decide)
  obtain ⟨-, -, -, h1⟩ := hall 1 (by decide)
  obtain ⟨a0, b0, c0⟩ := h0 (by rw [hl]; decide)
  obtain ⟨a1, b1, c1⟩ := h1 (by rw [hl]; decide)
  exact ⟨out, hout, hl, ⟨a0.trans (by decide), b0.trans (by decide), c0.trans (by decide)⟩,
    ⟨a1.trans (by decide), b1.trans (by decide), c1.trans (by decide)⟩⟩

theorem sum_map_le_sum_map (l : List Nat) (f g : Nat → Nat) (h : ∀ j ∈ l, g j ≤ f j) :
    (l.map g).sum ≤ (l.map f).sum := by
  induction l with
  | nil => simp
  | cons a l ih =>
    simp only [List.map_cons, List.sum_cons]
    have := h a (List.mem_cons_self _ _)
    have := ih (fun j hj => h j (List.mem_cons_of_mem _ hj))
    omega

/-- A stream of 102 frames of 100000000 cells each: frame 101 begins past byte `2^32`. -/
theorem offset_wraps_of_large_frames (F : List RGBA) (hF : F.length = 100000000) :
    ∃ out,
      writeHMICB 10000 10000 2 102 true (List.replicate 102 F) = some out ∧
      indexOffset out 101 ≠ payloadStart (List.replicate 102 F) 10000 101 := by
  have hlen : (List.replicate 102 F).length = 102 := List.length_replicate _ _
  have hne : List.replicate 102 F ≠ [] := by
    intro h
    rw [h] at hlen
    cases hlen
  have hwr : Writable (List.replicate 102 F) 10000 :=
    writable_of_uniform _ 10000 100000000
      (fun f hf => by rw [List.eq_of_mem_replicate hf]; exact hF) (by decide)
  refine ⟨_, writeHMICB_eq 10000 10000 2 102 true _ hne hwr, ?_⟩
  obtain ⟨h3, _, _⟩ := index_entry_read 10000 10000 2 102 true
    (List.replicate 102 F) 101 (by rw [hlen]; decide) _
    (writeHMICB_eq 10000 10000 2 102 true _ hne hwr)
  rw [h3]
  have hbig : 4294967296 ≤ payloadStart (List.replicate 102 F) 10000 101 := by
    unfold payloadStart
    have hle := sum_map_le_sum_map (List.range 101)
      (fun j => (framePayload (List.replicate 102 F) 10000 j).length)
      (fun j => if j % 10 = 0 then 400000000 else 0)
      (by
        intro j hj
        rw [List.mem_range] at hj
        by_cases h10 : j % 10 = 0
        · simp only [h10, if_true]
          unfold framePayload
          rw [if_pos (Or.inr h10), length_fullBytes, List.getD_eq_getElem?_getD,
            List.getElem?_replicate, if_pos (by omega)]
          simp only [Option.getD_some]
          rw [hF]
        · simp only [h10, if_false]
          exact Nat.zero_le _)
    have hsum : ((List.range 101).map (fun j => if j % 10 = 0 then 400000000 else 0)).sum =
        4400000000 := by decide
    rw [hsum] at hle
    omega
  have hlt : payloadStart (List.replicate 102 F) 10000 101 % 4294967296 < 4294967296 :=
    Nat.mod_lt _ (by decide)
  omega

/-- C2, counterexample: 102 frames of a 10000 x 10000 canvas.  The payload of frame 101
begins behind eleven full frames of 400000000 bytes each, past byte `2^32`, and the 32-bit
offset field of its index entry holds a smaller number. -/
theorem writeHMICB_offset_wraps :
    ∃ out,
      writeHMICB 10000 10000 2 102 true
        (List.replicate 102 (List.replicate 100000000 RGBA.clear)) = some out ∧
      indexOffset out 101 ≠
        payloadStart (List.replicate 102 (List.replicate 100000000 RGBA.clear)) 10000 101 :=
  offset_wraps_of_large_frames (List.replicate 100000000 RGBA.clear) (List.length_replicate _ _)

end HMICB

namespace HMICB

/-- Reading the fixed header of the written stream: every field holds the argument
narrowed to the width of the field. -/
theorem header_read (width height fps totalFrames : Int) (loop : Bool)
    (frames : List (List RGBA)) (_ : frames ≠ []) (out : List Byte)
    (hout : writeHMICB width height fps totalFrames loop frames = some out) :
    readU16 out 6 = (width % 65536).toNat ∧ readU16 out 8 = (height % 65536).toNat ∧
    readU16 out 10 = (fps % 65536).toNat ∧
    readU32 out 12 = (totalFrames % 4294967296).toNat ∧
    readU8 out 16 = (if loop then 1 else 0) := by
  have hout := writeHMICB_out width height fps totalFrames loop frames out hout
  rw [hout]
  unfold readU32 readU16 readU8 headerBytes u32Bytes
  simp only [List.cons_append, List.nil_append, List.append_assoc, List.getD_cons_succ,
    List.getD_cons_zero, toByte_val]
  refine ⟨by omega, by omega, by omega, by omega, ?_⟩
  cases loop <;> rfl

/-- C3, amended. For every call of `writeHMICB` that writes a stream (every call with a
non-empty list of frames of one common size and a width of at least 1 does) with `width`,
`height`, `fps` in `[0, 2^16)`, `totalFrames` in `[0, 2^32)` and any loop flag, reading the
written bytes back by the fixed layout (16-bit little-endian at offsets 6, 8, 10, 32-bit
at offset 12, one byte at offset 16) returns exactly the `width`, `height`, `fps`,
`totalFrames` and `loop` passed in; outside these ranges a field holds its argument
reduced modulo `2^16`, `2^32`. -/
theorem writeHMICB_header_roundtrip (width height fps totalFrames : Int) (loop : Bool)
    (frames : List (List RGBA))
    (hw : 0 ≤ width ∧ width < 65536) (hh : 0 ≤ height ∧ height < 65536)
    (hf : 0 ≤ fps ∧ fps < 65536) (ht : 0 ≤ totalFrames ∧ totalFrames < 4294967296) :
    (frames ≠ [] → 1 ≤ width → (∃ n, ∀ f ∈ frames, f.length = n) →
      ∃ out, writeHMICB width height fps totalFrames loop frames = some out) ∧
    ∀ out, writeHMICB width height fps totalFrames loop frames = some out →
      (readU16 out 6 : Int) = width ∧ (readU16 out 8 : Int) = height ∧
      (readU16 out 10 : Int) = fps ∧ (readU32 out 12 : Int) = totalFrames ∧
      (readU8 out 16 = 1 ↔ loop = true) ∧ (readU8 out 16 = 0 ↔ loop = false) := by
  constructor
  · rintro hne hw1 ⟨n, hcells⟩
    exact ⟨_, writeHMICB_eq width height fps totalFrames loop frames hne
      (writable_of_uniform frames width n hcells (width_ne_zero width hw1 (by omega)))⟩
  intro out hout
  have hne := (writeHMICB_defined width height fps totalFrames loop frames out hout).1
  obtain ⟨h1, h2, h3, h4, h5⟩ := header_read width height fps totalFrames loop frames hne _ hout
  refine ⟨?_, ?_, ?_, ?_, ?_, ?_⟩
  · rw [h1]; omega
  · rw [h2]; omega
  · rw [h3]; omega
  · rw [h4]; omega
  · rw [h5]; cases loop <;> simp
  · rw [h5]; cases loop <;> simp

/-- C3 amended, at concrete inputs: 1 frame and 11 frames of a 1x1 canvas. -/
theorem writeHMICB_header_roundtrip_witness :
    (∃ out, writeHMICB 640 480 30 1 false [[RGBA.clear]] = some out ∧
      (readU16 out 6 : Int) = 640 ∧ (readU16 out 8 : Int) = 480 ∧
      (readU16 out 10 : Int) = 30 ∧ (readU32 out 12 : Int) = 1 ∧
      (readU8 out 16 = 1 ↔ false = true) ∧ (readU8 out 16 = 0 ↔ false = false)) ∧
    (∃ out, writeHMICB 1 1 2 11 true (List.replicate 11 [RGBA.clear]) = some out ∧
      (readU16 out 6 : Int) = 1 ∧ (readU16 out 8 : Int) = 1 ∧
      (readU16 out 10 : Int) = 2 ∧ (readU32 out 12 : Int) = 11 ∧
      (readU8 out 16 = 1 ↔ true = true) ∧ (readU8 out 16 = 0 ↔ true = false)) :=
  ⟨((writeHMICB_header_roundtrip 640 480 30 1 false [[RGBA.clear]] (by decide) (by decide)
      (by decide) (by decide)).1 (by decide) (by decide) ⟨1, by decide⟩).elim
      (fun out hout => ⟨out, hout,
        (writeHMICB_header_roundtrip 640 480 30 1 false [[RGBA.clear]] (by decide) (by decide)
          (by decide) (by decide)).2 out hout⟩),
    ((writeHMICB_header_roundtrip 1 1 2 11 true (List.replicate 11 [RGBA.clear]) (by decide)
      (by decide) (by decide) (by decide)).1 (by decide) (by decide) ⟨1, by decide⟩).elim
      (fun out hout => ⟨out, hout,
        (writeHMICB_header_roundtrip 1 1 2 11 true (List.replicate 11 [RGBA.clear]) (by decide)
          (by decide) (by decide) (by decide)).2 out hout⟩)⟩

/-- C3, counterexample: with `fps = 70000` the 16-bit field at offset 10 reads back as
4464, not as the value passed in; and for a frame count of 0 nothing is written that
could be read back. -/
theorem writeHMICB_fps_truncated :
    (writeHMICB 2 2 70000 1 true [[RGBA.clear, RGBA.clear, RGBA.clear, RGBA.clear]]).map
        (fun out => (readU16 out 10, decide ((readU16 out 10 : Int) = 70000))) =
      some (4464, false) ∧
    writeHMICB 2 2 2 0 true [] = none := by
  decide

end HMICB

namespace HMICB

/-! ## Reconstruction of frames -/

theorem decodeFull_fullBytes (frame : List RGBA) : decodeFull (fullBytes frame) = frame := by
  induction frame with
  | nil => rfl
  | cons c cs ih =>
    show decodeFull (c.r :: c.g :: c.b :: c.a :: fullBytes cs) = _
    rw [decodeFull, ih]

theorem deltaBytes_drop (prev curr : List RGBA) (width : Nat) :
    (deltaBytes prev curr width).drop 4 =
      (differingCells prev curr).flatMap (recordBytes curr width) := by
  rfl

theorem length_differingCells_le (prev curr : List RGBA) :
    (differingCells prev curr).length ≤ curr.length := by
  unfold differingCells
  have := List.length_filter_le (fun i => decide (prev[i]? ≠ curr[i]?)) (List.range curr.length)
  rwa [List.length_range] at this

theorem length_deltaBytes_le (prev curr : List RGBA) (width : Nat) :
    (deltaBytes prev curr width).length ≤ 4 + 8 * curr.length := by
  unfold deltaBytes
  simp only [List.length_append, length_u32Bytes]
  have h1 : ∀ L : List Nat, (L.flatMap (recordBytes curr width)).length = 8 * L.length := by
    intro L
    induction L with
    | nil => rfl
    | cons a L ih =>
      rw [List.flatMap_cons, List.length_append, ih, List.length_cons]
      have : (recordBytes curr width a).length = 8 := rfl
      omega
  rw [h1]
  have h2 := length_differingCells_le prev curr
  omega

/-- The record of cell `i` addresses cell `i` again, on a canvas of at most 10000 x 10000
cells. -/
theorem applyRecords_record (curr : List RGBA) (W H i : Nat) (hW : 1 ≤ W) (hW2 : W ≤ 10000)
    (hH : H ≤ 10000) (hi : i < W * H) (buf : List RGBA) (rest : List Byte) :
    applyRecords W buf (recordBytes curr W i ++ rest) =
      applyRecords W (buf.set i (curr.getD i RGBA.clear)) rest := by
  have hx : i % W < 10000 := Nat.lt_of_lt_of_le (Nat.mod_lt _ (by omega)) hW2
  have hy : i / W < H := Nat.div_lt_of_lt_mul hi
  have hsum : i / W * W + i % W = i := Nat.div_add_mod' i W
  unfold recordBytes
  simp only [List.cons_append, List.nil_append]
  rw [applyRecords]
  have e : ∀ q : Nat, q < 10000 →
      (toByte (q % 65536)).val + 256 * (toByte (q % 65536 / 256)).val = q := by
    intro q hq
    simp only [toByte_val]
    omega
  rw [e (i % W) hx, e (i / W) (by omega), hsum]

theorem applyRecords_flatMap (curr : List RGBA) (W H : Nat) (hW : 1 ≤ W) (hW2 : W ≤ 10000)
    (hH : H ≤ 10000) (L : List Nat) (hL : ∀ i ∈ L, i < W * H) :
    ∀ buf : List RGBA,
      applyRecords W buf (L.flatMap (recordBytes curr W)) =
        L.foldl (fun b i => b.set i (curr.getD i RGBA.clear)) buf := by
  induction L with
  | nil => intro buf; rfl
  | cons i L ih =>
    intro buf
    rw [List.flatMap_cons,
      applyRecords_record curr W H i hW hW2 hH (hL i (List.mem_cons_self _ _)),
      ih (fun j hj => hL j (List.mem_cons_of_mem _ hj)), List.foldl_cons]

/-- Setting the listed cells to their new values gives the new buffer when all other
cells agree already. -/
theorem foldl_set_eq (curr : List RGBA) (L : List Nat) :
    ∀ buf : List RGBA, buf.length = curr.length →
      (∀ j, j < curr.length → j ∉ L → buf[j]? = curr[j]?) →
      L.foldl (fun b i => b.set i (curr.getD i RGBA.clear)) buf = curr := by
  induction L with
  | nil =>
    intro buf hlen h
    rw [List.foldl_nil]
    apply List.ext_getElem?
    intro j
    by_cases hj : j < curr.length
    · exact h j hj (List.not_mem_nil _)
    · rw [List.getElem?_eq_none (by omega), List.getElem?_eq_none (by omega)]
  | cons i L ih =>
    intro buf hlen h
    rw [List.foldl_cons]
    apply ih _ (by rw [List.length_set]; exact hlen)
    intro j hj hnot
    by_cases hji : i = j
    · subst hji
      rw [List.getElem?_set_self (by omega), List.getD_eq_getElem?_getD,
        List.getElem?_eq_getElem hj]
      rfl
    · rw [List.getElem?_set_ne hji]
      apply h j hj
      intro hmem
      rcases List.mem_cons.1 hmem with h1 | h1
      · exact hji h1.symm
      · exact hnot h1

/-- Applying the delta of two buffers of one canvas to the first gives the second. -/
theorem applyDelta_deltaBytes (prev curr : List RGBA) (W H : Nat) (hW : 1 ≤ W)
    (hW2 : W ≤ 10000) (hH : H ≤ 10000) (hp : prev.length = W * H) (hc : curr.length = W * H) :
    applyDelta W prev (deltaBytes prev curr W) = curr := by
  unfold applyDelta
  rw [deltaBytes_drop, applyRecords_flatMap curr W H hW hW2 hH]
  · apply foldl_set_eq curr _ prev (by rw [hp, hc])
    intro j hj hnot
    by_contra hcon
    apply hnot
    unfold differingCells
    rw [List.mem_filter, List.mem_range]
    exact ⟨hj, by simpa using hcon⟩
  · intro i hi
    unfold differingCells at hi
    rw [List.mem_filter, List.mem_range] at hi
    omega

end HMICB

namespace HMICB

theorem length_framePayload_le (frames : List (List RGBA)) (width : Int) (j : Nat) :
    (framePayload frames width j).length ≤ 4 + 8 * (frames.getD j []).length := by
  unfold framePayload
  split
  · rw [length_fullBytes]; omega
  · exact length_deltaBytes_le _ _ _

theorem length_getD_of_mem (frames : List (List RGBA)) (n : Nat)
    (hcells : ∀ f ∈ frames, f.length = n) (j : Nat) (hj : j < frames.length) :
    (frames.getD j []).length = n := by
  rw [List.getD_eq_getElem?_getD, List.getElem?_eq_getElem hj]
  exact hcells _ (List.getElem_mem hj)

/-- On a canvas of at most 10000 x 10000 cells a reader that walks the size fields of the
index table finds the payload of every frame. -/
theorem payloadAt_eq (width height fps totalFrames : Int) (loop : Bool)
    (frames : List (List RGBA)) (n : Nat) (hn : n ≤ 100000000)
    (hcells : ∀ f ∈ frames, f.length = n) (out : List Byte)
    (hout : writeHMICB width height fps totalFrames loop frames = some out)
    (j : Nat) (hj : j < frames.length) :
    payloadAt out frames.length j = framePayload frames width j := by
  have hsize : ∀ m, m < frames.length →
      indexSize out m = (framePayload frames width m).length := by
    intro m hm
    obtain ⟨_, h2, _⟩ := index_entry_read width height fps totalFrames loop frames m hm out hout
    rw [h2]
    apply Nat.mod_eq_of_lt
    have := length_framePayload_le frames width m
    rw [length_getD_of_mem frames n hcells m hm] at this
    omega
  have hsum : ((List.range j).map (indexSize out)).sum =
      ((List.range j).map (fun m => (framePayload frames width m).length)).sum := by
    congr 1
    apply List.map_congr_left
    intro m hm
    rw [List.mem_range] at hm
    exact hsize m (by omega)
  unfold payloadAt
  rw [hsum, hsize j hj]
  exact (payload_slice width height fps totalFrames loop frames j hj out hout).1

/-- Reconstruction from a written stream, stated for the stream itself. -/
theorem reconstruct_eq (W H : Nat) (fps totalFrames : Int) (loop : Bool)
    (frames : List (List RGBA)) (hW1 : 1 ≤ W) (hW2 : W ≤ 10000) (hH2 : H ≤ 10000)
    (hcells2 : ∀ f ∈ frames, f.length = W * H) (out : List Byte)
    (hout : writeHMICB (W : Int) (H : Int) fps totalFrames loop frames = some out)
    (i : Nat) (hi : i < frames.length) :
    reconstruct out frames.length W i = frames.getD i [] := by
  have hWH : W * H ≤ 100000000 := by
    calc W * H ≤ 10000 * 10000 := Nat.mul_le_mul hW2 hH2
      _ = 100000000 := by decide
  have hconv : ((W : Int) % 18446744073709551616).toNat = W := by omega
  have hpay := payloadAt_eq (W : Int) (H : Int) fps totalFrames loop frames (W * H) hWH hcells2
    out hout
  unfold reconstruct
  have hk : i - i % 10 < frames.length := by omega
  have hfull : decodeFull (framePayload frames (W : Int) (i - i % 10)) =
      frames.getD (i - i % 10) [] := by
    unfold framePayload
    rw [if_pos (Or.inr (by omega)), decodeFull_fullBytes]
  have hstep : ∀ m, m ≤ i % 10 →
      (List.range' (i - i % 10 + 1) m).foldl
        (fun buf j => applyDelta W buf (payloadAt out frames.length j))
        (decodeFull (payloadAt out frames.length (i - i % 10))) =
      frames.getD (i - i % 10 + m) [] := by
    intro m
    induction m with
    | zero =>
      intro _
      rw [List.range'_zero, List.foldl_nil, hpay _ hk, hfull]
      rfl
    | succ m ih =>
      intro hm
      have hj : i - i % 10 + 1 + m < frames.length := by omega
      rw [List.range'_concat, List.foldl_append, ih (by omega), List.foldl_cons, List.foldl_nil,
        Nat.one_mul, hpay _ hj]
      unfold framePayload
      rw [if_neg (by omega), hconv]
      have e1 : i - i % 10 + 1 + m - 1 = i - i % 10 + m := by omega
      have e2 : i - i % 10 + 1 + m = i - i % 10 + (m + 1) := by omega
      rw [e1, e2]
      exact applyDelta_deltaBytes _ _ W H hW1 hW2 hH2
        (length_getD_of_mem frames _ hcells2 _ (by omega))
        (length_getD_of_mem frames _ hcells2 _ (by omega))
  rw [hstep (i % 10) (Nat.le_refl _)]
  have e3 : i - i % 10 + i % 10 = i := by omega
  rw [e3]

/-- C1. For every sequence of frames whose buffers all have `width * height` cells, with
`1 ≤ width, height ≤ 10000`, `writeHMICB` returns a stream, and reconstructing frame `i`
from that stream (the Full snapshot of the nearest frame `k ≤ i` with `k % 10 == 0`, then
the 8-byte records of the Delta payloads of the frames `k + 1 .. i`, each record setting
cell `y * width + x` to its four colour bytes) yields a buffer identical to frame `i`. -/
theorem reconstruct_frame (width height fps totalFrames : Int) (loop : Bool)
    (frames : List (List RGBA))
    (hw : 1 ≤ width ∧ width ≤ 10000) (hh : 1 ≤ height ∧ height ≤ 10000)
    (hcells : ∀ f ∈ frames, (f.length : Int) = width * height)
    (i : Nat) (hi : i < frames.length) :
    ∃ out, writeHMICB width height fps totalFrames loop frames = some out ∧
      some (reconstruct out frames.length width.toNat i) = frames[i]? := by
  have hne : frames ≠ [] := by
    intro h; rw [h] at hi; exact Nat.not_lt_zero _ hi
  obtain ⟨W, rfl⟩ : ∃ W : Nat, width = (W : Int) := ⟨width.toNat, by omega⟩
  obtain ⟨H, rfl⟩ : ∃ H : Nat, height = (H : Int) := ⟨height.toNat, by omega⟩
  have hcells2 : ∀ f ∈ frames, f.length = W * H := by
    intro f hf
    have := hcells f hf
    exact_mod_cast this
  have hwr : Writable frames (W : Int) :=
    writable_of_uniform frames (W : Int) (W * H) hcells2 (width_ne_zero _ hw.1 (by omega))
  refine ⟨_, writeHMICB_eq (W : Int) (H : Int) fps totalFrames loop frames hne hwr, ?_⟩
  rw [Int.toNat_ofNat,
    reconstruct_eq W H fps totalFrames loop frames (by omega) (by omega) (by omega) hcells2 _
      (writeHMICB_eq (W : Int) (H : Int) fps totalFrames loop frames hne hwr) i hi,
    List.getD_eq_getElem?_getD, List.getElem?_eq_getElem hi]
  rfl

/-- C1, at a concrete input: twelve frames of a 2x1 canvas, frame 11 rebuilt from the
key frame 10 and one delta. -/
theorem reconstruct_frame_witness :
    ∃ out,
      writeHMICB 2 1 2 12 true
        ((List.replicate 11 [⟨255, 0, 0, 255⟩, RGBA.clear]) ++ [[RGBA.clear, ⟨0, 0, 255, 255⟩]]) =
        some out ∧
      some (reconstruct out
        ((List.replicate 11 [⟨255, 0, 0, 255⟩, RGBA.clear]) ++
          [[RGBA.clear, ⟨0, 0, 255, 255⟩]]).length (2 : Int).toNat 11) =
        ((List.replicate 11 [⟨255, 0, 0, 255⟩, RGBA.clear]) ++
          [[RGBA.clear, ⟨0, 0, 255, 255⟩]])[11]? :=
  reconstruct_frame 2 1 2 12 true
    ((List.replicate 11 [⟨255, 0, 0, 255⟩, RGBA.clear]) ++ [[RGBA.clear, ⟨0, 0, 255, 255⟩]])
    (by decide) (by decide) (by decide) 11 (by decide)

end HMICB

namespace HMICX

/-! ## Adequacy of the fuel

Every loop with a fuel argument moves its position forward in each round, so the fuel the
callers pass is never used up: any larger amount gives the same result. -/

theorem digitLoop_pos_ge (l : List Char) :
    ∀ (num : Int) (pos : Nat) (found : Bool), pos ≤ (digitLoop l num pos found).2.1 := by
  induction l with
  | nil => intro num pos found; exact Nat.le_refl _
  | cons c cs ih =>
    intro num pos found
    unfold digitLoop
    split
    · exact Nat.le_trans (Nat.le_succ _) (ih _ _ _)
    · exact Nat.le_refl _

theorem fastExtractNumber_pos_ge (str : List Char) (pos : Nat) :
    pos ≤ (fastExtractNumber str pos).2 :=
  digitLoop_pos_ge _ _ _ _

theorem findMatchingBrace_ge (s : List Char) (start e : Nat)
    (h : findMatchingBrace s start = some e) : start ≤ e :=
  (findMatchingBraceFrom_eq_some _ _ _ _ h).1

theorem findParenFrom_ge (l : List Char) : ∀ p, p ≤ findParenFrom l p := by
  induction l with
  | nil => intro p; exact Nat.le_refl _
  | cons c cs ih =>
    intro p
    unfold findParenFrom
    split
    · exact Nat.le_refl _
    · exact Nat.le_trans (Nat.le_succ _) (ih (p + 1))

theorem detectColor_pos_gt (body : List Char) (pos : Nat) (color : List Char) (pos0 : Nat)
    (h : detectColor body pos = some (color, pos0)) : pos < pos0 := by
  unfold detectColor at h
  have h5 := findParenFrom_ge (body.drop (pos + 5)) (pos + 5)
  have h4 := findParenFrom_ge (body.drop (pos + 4)) (pos + 4)
  split at h
  · dsimp only at h
    split at h
    · simp only [Option.some.injEq, Prod.mk.injEq] at h
      omega
    · cases h
  · split at h
    · dsimp only at h
      split at h
      · simp only [Option.some.injEq, Prod.mk.injEq] at h
        omega
      · cases h
    · split at h
      · split at h
        · simp only [Option.some.injEq, Prod.mk.injEq] at h
          omega
        · cases h
      · cases h

theorem parsePItems_fuel (line : List Char) :
    ∀ (f1 f2 pos : Nat) (pixels : List Pixel), 1 ≤ f1 → 1 ≤ f2 →
      line.length + 1 ≤ pos + f1 → line.length + 1 ≤ pos + f2 →
      parsePItems line f1 pos pixels = parsePItems line f2 pos pixels := by
  intro f1
  induction f1 with
  | zero => intro f2 pos pixels h1; omega
  | succ k ih =>
    intro f2 pos pixels _ h2 hl1 hl2
    obtain ⟨m, rfl⟩ : ∃ m, f2 = m + 1 := ⟨f2 - 1, by omega⟩
    unfold parsePItems
    by_cases hp : pos < line.length
    · simp only [hp, if_true]
      have hx := digitLoop_pos_ge (line.drop pos) 0 pos false
      generalize digitLoop (line.drop pos) 0 pos false = rx at hx ⊢
      have hy : rx.2.1 ≤ (if rx.2.1 < line.length ∧
          (charAt line rx.2.1 = 'x' ∨ charAt line rx.2.1 = 'X') then
          digitLoop (line.drop (rx.2.1 + 1)) 0 (rx.2.1 + 1) false
        else (0, rx.2.1, false)).2.1 := by
        split
        · exact Nat.le_trans (Nat.le_succ _) (digitLoop_pos_ge _ _ _ _)
        · exact Nat.le_refl _
      generalize (if rx.2.1 < line.length ∧
          (charAt line rx.2.1 = 'x' ∨ charAt line rx.2.1 = 'X') then
          digitLoop (line.drop (rx.2.1 + 1)) 0 (rx.2.1 + 1) false
        else (0, rx.2.1, false)) = ry at hy ⊢
      have h1 : ry.2.1 ≤ (if ry.2.1 < line.length ∧ charAt line ry.2.1 = ',' then ry.2.1 + 1
          else ry.2.1) := by
        split <;> omega
      generalize (if ry.2.1 < line.length ∧ charAt line ry.2.1 = ',' then ry.2.1 + 1
          else ry.2.1) = pos1 at h1 ⊢
      have h2 := skipSpaces_ge line pos1
      by_cases hsame : skipSpaces line pos1 = pos
      · simp only [hsame, if_true]
      · simp only [hsame, if_false]
        exact ih m _ _ (by omega) (by omega) (by omega) (by omega)
    · simp only [hp, if_false]

theorem parseFrameBodyLoop_fuel (body : List Char) (start end_ : Int) :
    ∀ (f1 f2 pos : Nat) (commands : List Command), 1 ≤ f1 → 1 ≤ f2 →
      body.length + 1 ≤ pos + f1 → body.length + 1 ≤ pos + f2 →
      parseFrameBodyLoop body start end_ f1 pos commands =
        parseFrameBodyLoop body start end_ f2 pos commands := by
  intro f1
  induction f1 with
  | zero => intro f2 pos commands h1; omega
  | succ k ih =>
    intro f2 pos commands _ h2 hl1 hl2
    obtain ⟨m, rfl⟩ : ∃ m, f2 = m + 1 := ⟨f2 - 1, by omega⟩
    unfold parseFrameBodyLoop
    by_cases hp : pos < body.length
    · simp only [hp, if_true]
      cases hdc : detectColor body pos with
      | none => exact ih m _ _ (by omega) (by omega) (by omega) (by omega)
      | some r =>
        obtain ⟨color, pos0⟩ := r
        have hgt := detectColor_pos_gt body pos color pos0 hdc
        have hsk := skipSpaces_ge body pos0
        try dsimp only
        split
        · exact ih m _ _ (by omega) (by omega) (by omega) (by omega)
        · split
          · rfl
          · split
            · exact ih m _ _ (by omega) (by omega) (by omega) (by omega)
            · cases hfm : findMatchingBrace body (skipSpaces body pos0) with
              | none => rfl
              | some blockEnd =>
                have hge := findMatchingBrace_ge _ _ _ hfm
                try dsimp only
                cases parsePixels (slice body (skipSpaces body pos0 + 1) blockEnd) with
                | none => rfl
                | some pixels =>
                  simp only [Option.bind]
                  exact ih m _ _ (by omega) (by omega) (by omega) (by omega)
    · simp only [hp, if_false]

theorem parseFramesLoop_fuel (data : List Char) :
    ∀ (f1 f2 pos : Nat) (commands : List Command), 1 ≤ f1 → 1 ≤ f2 →
      data.length ≤ pos + f1 → data.length ≤ pos + f2 →
      parseFramesLoop data f1 pos commands = parseFramesLoop data f2 pos commands := by
  intro f1
  induction f1 with
  | zero => intro f2 pos commands h1; omega
  | succ k ih =>
    intro f2 pos commands _ h2 hl1 hl2
    obtain ⟨m, rfl⟩ : ∃ m, f2 = m + 1 := ⟨f2 - 1, by omega⟩
    unfold parseFramesLoop
    by_cases hp : pos + 1 < data.length
    · simp only [hp, if_true]
      split
      · have hrs := fastExtractNumber_pos_ge data (pos + 1)
        generalize fastExtractNumber data (pos + 1) = rs at hrs ⊢
        have hre : rs.2 ≤ (if rs.2 < data.length ∧ charAt data rs.2 = '-' then
            fastExtractNumber data (rs.2 + 1) else (rs.1, rs.2)).2 := by
          split
          · exact Nat.le_trans (Nat.le_succ _) (fastExtractNumber_pos_ge _ _)
          · exact Nat.le_refl _
        generalize (if rs.2 < data.length ∧ charAt data rs.2 = '-' then
            fastExtractNumber data (rs.2 + 1) else (rs.1, rs.2)) = re at hre ⊢
        have hsk := skipSpaces_ge data re.2
        try dsimp only
        split
        · exact ih m _ _ (by omega) (by omega) (by omega) (by omega)
        · split
          · exact ih m _ _ (by omega) (by omega) (by omega) (by omega)
          · cases hfm : findMatchingBrace data (skipSpaces data re.2) with
            | none => exact ih m _ _ (by omega) (by omega) (by omega) (by omega)
            | some frameEnd =>
              have hge := findMatchingBrace_ge _ _ _ hfm
              try dsimp only
              split
              · cases parseFrameBody (slice data (skipSpaces data re.2 + 1) frameEnd) rs.1 re.1
                    commands with
                | none => rfl
                | some commands1 =>
                  simp only [Option.bind]
                  exact ih m _ _ (by omega) (by omega) (by omega) (by omega)
              · exact ih m _ _ (by omega) (by omega) (by omega) (by omega)
      · exact ih m _ _ (by omega) (by omega) (by omega) (by omega)
    · simp only [hp, if_false]

end HMICX

namespace HMICX

/-! ## Pixel lines -/

/-- The loop of `parsePixels` runs `pixelLine` over the newline-separated lines, stopping
at the first line that gives no result. -/
theorem parsePixelsLoop_eq (rest : List Char) :
    ∀ (pre cur : List Char) (pixels : List Pixel),
      parsePixelsLoop (pre ++ cur ++ rest) rest (pre.length + cur.length) pre.length pixels =
        ((rest.splitOn '\n').modifyHead (fun l => cur ++ l)).foldlM
          (fun pixels l => pixelLine l pixels) pixels := by
  induction rest with
  | nil =>
    intro pre cur pixels
    have := slice_middle pre cur []
    simp only [parsePixelsLoop, this, List.splitOn_nil]
    simp
  | cons c rest ih =>
    intro pre cur pixels
    have hs := slice_middle pre cur (c :: rest)
    have hsplit : (c :: rest).splitOn '\n' =
        if (c == '\n') = true then [] :: rest.splitOn '\n'
        else (rest.splitOn '\n').modifyHead (List.cons c) :=
      List.splitOnP_cons _ c rest
    by_cases hc : c = '\n'
    · subst hc
      have hbody : pre ++ cur ++ '\n' :: rest = (pre ++ cur ++ ['\n']) ++ [] ++ rest := by simp
      have hlen : pre.length + cur.length + 1 =
          (pre ++ cur ++ ['\n']).length + ([] : List Char).length := by
        simp only [List.length_append, List.length_cons, List.length_nil]
      have hlen2 : pre.length + cur.length + 1 = (pre ++ cur ++ ['\n']).length := by
        simp only [List.length_append, List.length_cons, List.length_nil]
      simp only [parsePixelsLoop, if_true, hs]
      rw [hsplit]
      simp only [beq_self_eq_true, if_true, List.modifyHead_cons, List.append_nil,
        List.foldlM_cons]
      cases pixelLine cur pixels with
      | none => rfl
      | some pixels1 =>
        have := ih (pre ++ cur ++ ['\n']) [] pixels1
        rw [← hbody, ← hlen, ← hlen2] at this
        simp only [Option.bind, Option.bind_eq_bind]
        rw [this]
        congr 1
        cases rest.splitOn '\n' <;> simp
    · have hbody : pre ++ cur ++ c :: rest = pre ++ (cur ++ [c]) ++ rest := by simp
      have hlen : pre.length + cur.length + 1 = pre.length + (cur ++ [c]).length := by
        simp only [List.length_append, List.length_cons, List.length_nil]
        omega
      simp only [parsePixelsLoop, if_neg hc]
      rw [hsplit]
      have hb : ¬ ((c == '\n') = true) := by simpa using hc
      simp only [if_neg hb]
      have := ih pre (cur ++ [c]) pixels
      rw [← hbody, ← hlen] at this
      rw [this]
      congr 1
      cases rest.splitOn '\n' <;> simp

theorem parsePixels_eq_foldlM (body : List Char) :
    parsePixels body =
      (body.splitOn '\n').foldlM (fun pixels l => pixelLine l pixels) [] := by
  have := parsePixelsLoop_eq body [] [] []
  simp only [List.nil_append, List.length_nil, Nat.add_zero] at this
  unfold parsePixels
  rw [this]
  congr 1
  cases body.splitOn '\n' <;> simp

theorem splitOn_of_not_mem (body : List Char) (h : '\n' ∉ body) :
    body.splitOn '\n' = [body] := by
  induction body with
  | nil => rfl
  | cons c cs ih =>
    have hsplit : (c :: cs).splitOn '\n' =
        if (c == '\n') = true then [] :: cs.splitOn '\n'
        else (cs.splitOn '\n').modifyHead (List.cons c) :=
      List.splitOnP_cons _ c cs
    have hc : ¬ ((c == '\n') = true) := by
      intro hb
      apply h
      have : c = '\n' := by simpa using hb
      rw [this]
      exact List.mem_cons_self _ _
    rw [hsplit, if_neg hc, ih (fun hm => h (List.mem_cons_of_mem _ hm))]
    rfl

/-- A body of one line is handled by one call of `pixelLine`. -/
theorem parsePixels_single_line (body : List Char) (h : '\n' ∉ body) :
    parsePixels body = pixelLine body [] := by
  rw [parsePixels_eq_foldlM, splitOn_of_not_mem body h]
  simp [List.foldlM]

theorem fastTrim_eq_self (c : Char) (mid : List Char) (d : Char) (hc : isspace c = false)
    (hd : isspace d = false) : fastTrim (c :: (mid ++ [d])) = c :: (mid ++ [d]) := by
  unfold fastTrim
  rw [List.dropWhile_cons_of_neg (by simp [hc])]
  have : c :: (mid ++ [d]) = (c :: mid) ++ [d] := rfl
  rw [this, List.rdropWhile_concat_neg _ _ _ (by simp [hd])]

end HMICX

namespace HMICX

/-- The value the digit loops give to a run of digits. -/
theorem decimal_spec (a : Nat) :
    decimal a ≠ [] ∧ (∀ c ∈ decimal a, isdigit c = true) ∧
    (a < 2147483648 →
      (decimal a).foldl
        (fun (num : Int) c => wrapInt32 (num * 10 + ((c.toNat : Int) - 48))) 0 = a) :=
  toDigits_spec a

theorem isspace_of_isdigit (c : Char) (h : isdigit c = true) : isspace c = false := by
  unfold isdigit at h
  unfold isspace
  simp only [Bool.and_eq_true, decide_eq_true_eq] at h
  simp only [Bool.or_eq_false_iff, Bool.and_eq_false_iff, decide_eq_false_iff_not]
  omega

theorem skipSpaces_at_end (line : List Char) : skipSpaces line line.length = line.length := by
  unfold skipSpaces
  rw [List.drop_length]
  rfl

/-- One round of the `P=` loop on a pair that ends the line or is followed by a comma and
a character that is no whitespace. -/
theorem parsePItems_pair (pre A B tl : List Char) (s : Char) (acc : List Pixel) (k : Nat)
    (hA : ∀ c ∈ A, isdigit c = true) (hAne : A ≠ [])
    (hB : ∀ c ∈ B, isdigit c = true) (hBne : B ≠ [])
    (hs : s = 'x' ∨ s = 'X')
    (htl : tl = [] ∨ ∃ c tl1, tl = ',' :: c :: tl1 ∧ isspace c = false) :
    parsePItems (pre ++ (A ++ s :: (B ++ tl))) (k + 1) pre.length acc =
      parsePItems (pre ++ (A ++ s :: (B ++ tl))) k
        (pre.length + A.length + 1 + B.length + (if tl = [] then 0 else 1))
        (acc ++ [⟨A.foldl (fun (num : Int) c => wrapInt32 (num * 10 + ((c.toNat : Int) - 48))) 0,
          B.foldl (fun (num : Int) c => wrapInt32 (num * 10 + ((c.toNat : Int) - 48))) 0⟩]) := by
  have hAlen : 0 < A.length := List.length_pos.mpr hAne
  have hBlen : 0 < B.length := List.length_pos.mpr hBne
  have hsd : isdigit s = false := by rcases hs with h | h <;> subst h <;> decide
  have hlen : (pre ++ (A ++ s :: (B ++ tl))).length =
      pre.length + A.length + 1 + B.length + tl.length := by
    simp only [List.length_append, List.length_cons]
    omega
  have hrx : digitLoop ((pre ++ (A ++ s :: (B ++ tl))).drop pre.length) 0 pre.length false =
      (A.foldl (fun (num : Int) c => wrapInt32 (num * 10 + ((c.toNat : Int) - 48))) 0,
        pre.length + A.length, true) := by
    rw [List.drop_left, digitLoop_run A hA (s :: (B ++ tl))
      (by intro c hc; simp only [List.head?_cons, Option.some.injEq] at hc; rw [← hc]; exact hsd)]
    cases A with
    | nil => exact absurd rfl hAne
    | cons a as => rfl
  have hcs : charAt (pre ++ (A ++ s :: (B ++ tl))) (pre.length + A.length) = s := by
    have := charAt_append_cons (pre ++ A) (B ++ tl) s
    rw [List.length_append, List.append_assoc] at this
    exact this
  have hdrop : (pre ++ (A ++ s :: (B ++ tl))).drop (pre.length + A.length + 1) = B ++ tl := by
    have h1 : pre ++ (A ++ s :: (B ++ tl)) = (pre ++ A ++ [s]) ++ (B ++ tl) := by simp
    have h2 : pre.length + A.length + 1 = (pre ++ A ++ [s]).length := by
      simp only [List.length_append, List.length_cons, List.length_nil]
    rw [h1, h2, List.drop_left]
  have htld : ∀ c, tl.head? = some c → isdigit c = false := by
    intro c hc
    rcases htl with h | ⟨c1, tl1, h, _⟩
    · rw [h] at hc; cases hc
    · rw [h] at hc
      simp only [List.head?_cons, Option.some.injEq] at hc
      rw [← hc]
      decide
  have hry : digitLoop ((pre ++ (A ++ s :: (B ++ tl))).drop (pre.length + A.length + 1)) 0
      (pre.length + A.length + 1) false =
      (B.foldl (fun (num : Int) c => wrapInt32 (num * 10 + ((c.toNat : Int) - 48))) 0,
        pre.length + A.length + 1 + B.length, true) := by
    rw [hdrop, digitLoop_run B hB tl htld]
    cases B with
    | nil => exact absurd rfl hBne
    | cons b bs => rfl
  have hpos : pre.length < (pre ++ (A ++ s :: (B ++ tl))).length := by omega
  have hxlt : pre.length + A.length < (pre ++ (A ++ s :: (B ++ tl))).length := by omega
  rw [parsePItems]
  simp only [hpos, if_true, hrx, hxlt, hcs, hs, true_and, hry, and_self]
  rcases htl with h | ⟨c1, tl1, h, hc1⟩
  · subst h
    have hend : pre.length + A.length + 1 + B.length =
        (pre ++ (A ++ s :: (B ++ []))).length := by
      rw [hlen]; rfl
    have hnlt : ¬ (pre.length + A.length + 1 + B.length <
        (pre ++ (A ++ s :: (B ++ []))).length) := by omega
    simp only [hnlt, false_and, if_false, if_true, Nat.add_zero]
    rw [hend, skipSpaces_at_end]
    rw [if_neg (by rw [hlen]; omega)]
  · subst h
    have hlt : pre.length + A.length + 1 + B.length <
        (pre ++ (A ++ s :: (B ++ ',' :: c1 :: tl1))).length := by
      rw [hlen]; simp
    have hcomma : charAt (pre ++ (A ++ s :: (B ++ ',' :: c1 :: tl1)))
        (pre.length + A.length + 1 + B.length) = ',' := by
      have hl : pre ++ (A ++ s :: (B ++ ',' :: c1 :: tl1)) =
          (pre ++ A ++ [s] ++ B) ++ ',' :: c1 :: tl1 := by simp
      have hn : pre.length + A.length + 1 + B.length = (pre ++ A ++ [s] ++ B).length := by
        simp only [List.length_append, List.length_cons, List.length_nil]
      rw [hl, hn]
      exact charAt_append_cons _ _ _
    have hskip : skipSpaces (pre ++ (A ++ s :: (B ++ ',' :: c1 :: tl1)))
        (pre.length + A.length + 1 + B.length + 1) =
        pre.length + A.length + 1 + B.length + 1 := by
      have hl : pre ++ (A ++ s :: (B ++ ',' :: c1 :: tl1)) =
          (pre ++ A ++ [s] ++ B ++ [',']) ++ c1 :: tl1 := by simp
      have hn : pre.length + A.length + 1 + B.length + 1 =
          (pre ++ A ++ [s] ++ B ++ [',']).length := by
        simp only [List.length_append, List.length_cons, List.length_nil]
      rw [hl, hn]
      exact skipSpaces_of_not_space _ _ _ hc1
    simp only [hlt, hcomma, and_self, if_true, hskip]
    rw [if_neg (by omega), if_neg (by simp)]

end HMICX

namespace HMICX

theorem pairsText_cons (item : Nat × Char × Nat) (rest : List (Nat × Char × Nat)) :
    pairsText (item :: rest) =
      decimal item.1 ++ item.2.1 ::
        (decimal item.2.2 ++ (if rest = [] then [] else ',' :: pairsText rest)) := by
  cases rest with
  | nil => simp [pairsText, pairText]
  | cons next rest => simp [pairsText, pairText]

theorem pairsText_head (item : Nat × Char × Nat) (rest : List (Nat × Char × Nat)) :
    ∃ c tl, pairsText (item :: rest) = c :: tl ∧ isdigit c = true := by
  rw [pairsText_cons]
  obtain ⟨hne, hdig, _⟩ := decimal_spec item.1
  cases h : decimal item.1 with
  | nil => exact absurd h hne
  | cons c tl =>
    exact ⟨c, _, rfl, hdig c (by rw [h]; exact List.mem_cons_self _ _)⟩

theorem pairsText_chars (items : List (Nat × Char × Nat))
    (hitems : ∀ it ∈ items, it.2.1 = 'x' ∨ it.2.1 = 'X') :
    ∀ c ∈ pairsText items, isdigit c = true ∨ c = 'x' ∨ c = 'X' ∨ c = ',' := by
  induction items with
  | nil => intro c hc; simp [pairsText] at hc
  | cons item rest ih =>
    intro c hc
    rw [pairsText_cons] at hc
    have hrest := ih (fun it hit => hitems it (List.mem_cons_of_mem _ hit))
    simp only [List.mem_append, List.mem_cons] at hc
    rcases hc with h | h | h | h
    · exact Or.inl ((decimal_spec item.1).2.1 c h)
    · rw [h]
      rcases hitems item (List.mem_cons_self _ _) with h1 | h1
      · exact Or.inr (Or.inl h1)
      · exact Or.inr (Or.inr (Or.inl h1))
    · exact Or.inl ((decimal_spec item.2.2).2.1 c h)
    · split at h
      · simp at h
      · simp only [List.mem_cons] at h
        rcases h with h | h
        · exact Or.inr (Or.inr (Or.inr h))
        · exact hrest c h

theorem fastTrim_of_no_space (l : List Char) (h : ∀ c ∈ l, isspace c = false) :
    fastTrim l = l := by
  unfold fastTrim
  have h1 : l.dropWhile isspace = l := by
    rw [List.dropWhile_eq_self_iff]
    intro hl
    rw [h _ (List.get_mem _ _ _)]
    simp
  rw [h1, List.rdropWhile_eq_self_iff]
  intro hl
  rw [h _ (List.getLast_mem hl)]
  simp

/-- The `P=` loop on a list of well-formed pairs. -/
theorem parsePItems_pairs (items : List (Nat × Char × Nat))
    (hitems : ∀ it ∈ items,
      (it.2.1 = 'x' ∨ it.2.1 = 'X') ∧ it.1 < 2147483648 ∧ it.2.2 < 2147483648) :
    ∀ (pre : List Char) (acc : List Pixel) (fuel : Nat),
      (pre ++ pairsText items).length + 1 ≤ pre.length + fuel →
      parsePItems (pre ++ pairsText items) fuel pre.length acc =
        some (acc ++ items.map (fun it => (⟨(it.1 : Int), (it.2.2 : Int)⟩ : Pixel))) := by
  induction items with
  | nil =>
    intro pre acc fuel hfuel
    obtain ⟨k, rfl⟩ : ∃ k, fuel = k + 1 := ⟨fuel - 1, by
      simp only [pairsText, List.append_nil] at hfuel; omega⟩
    rw [parsePItems]
    simp [pairsText]
  | cons item rest ih =>
    intro pre acc fuel hfuel
    obtain ⟨hs, hx, hy⟩ := hitems item (List.mem_cons_self _ _)
    obtain ⟨hAne, hA, hAval⟩ := decimal_spec item.1
    obtain ⟨hBne, hB, hBval⟩ := decimal_spec item.2.2
    have hAlen : 0 < (decimal item.1).length := List.length_pos.mpr hAne
    have hBlen : 0 < (decimal item.2.2).length := List.length_pos.mpr hBne
    rw [pairsText_cons] at hfuel ⊢
    have hlen : (pre ++ (decimal item.1 ++ item.2.1 ::
        (decimal item.2.2 ++ (if rest = [] then [] else ',' :: pairsText rest)))).length =
        pre.length + (decimal item.1).length + 1 + (decimal item.2.2).length +
          (if rest = [] then ([] : List Char) else ',' :: pairsText rest).length := by
      simp only [List.length_append, List.length_cons]
      omega
    obtain ⟨k, rfl⟩ : ∃ k, fuel = k + 1 := ⟨fuel - 1, by omega⟩
    have htl : (if rest = [] then ([] : List Char) else ',' :: pairsText rest) = [] ∨
        ∃ c tl1, (if rest = [] then ([] : List Char) else ',' :: pairsText rest) =
          ',' :: c :: tl1 ∧ isspace c = false := by
      cases rest with
      | nil => exact Or.inl rfl
      | cons next rest1 =>
        obtain ⟨c, tl, hc, hd⟩ := pairsText_head next rest1
        exact Or.inr ⟨c, tl, by simp [hc], isspace_of_isdigit c hd⟩
    rw [parsePItems_pair pre _ _ _ _ acc k hA hAne hB hBne hs htl, hAval hx, hBval hy]
    cases rest with
    | nil =>
      simp only [if_true, Nat.add_zero, List.map_cons, List.map_nil] at hlen hfuel ⊢
      obtain ⟨m, rfl⟩ : ∃ m, k = m + 1 := ⟨k - 1, by
        simp only [List.length_nil] at hlen; omega⟩
      rw [parsePItems, if_neg (by rw [hlen]; simp)]
    | cons next rest1 =>
      have hne : ¬ (next :: rest1 = []) := by simp
      simp only [if_neg hne] at hlen hfuel ⊢
      have hl : pre ++ (decimal item.1 ++ item.2.1 ::
          (decimal item.2.2 ++ ',' :: pairsText (next :: rest1))) =
          (pre ++ decimal item.1 ++ [item.2.1] ++ decimal item.2.2 ++ [',']) ++
            pairsText (next :: rest1) := by simp
      have hn : pre.length + (decimal item.1).length + 1 + (decimal item.2.2).length + 1 =
          (pre ++ decimal item.1 ++ [item.2.1] ++ decimal item.2.2 ++ [',']).length := by
        simp only [List.length_append, List.length_cons, List.length_nil]
      have hc : ¬ (',' :: pairsText (next :: rest1) = []) := by simp
      rw [if_neg hc, hl, hn, ih (fun it hit => hitems it (List.mem_cons_of_mem _ hit))]
      · simp
      · rw [← hl, ← hn, hlen]
        simp only [List.length_cons] at hlen hfuel ⊢
        omega

/-- C11: for every list of pairs of naturals below 2^31, `parsePixels` on the one line
made of `P=` or `p=` and the pairs written as decimal numerals around `x` or `X` and
separated by commas returns exactly these pixels, in the order of the line. -/
theorem parsePixels_pairs (p : Char) (items : List (Nat × Char × Nat))
    (hp : p = 'P' ∨ p = 'p')
    (hitems : ∀ it ∈ items,
      (it.2.1 = 'x' ∨ it.2.1 = 'X') ∧ it.1 < 2147483648 ∧ it.2.2 < 2147483648) :
    parsePixels (p :: '=' :: pairsText items) =
      some (items.map (fun it => (⟨(it.1 : Int), (it.2.2 : Int)⟩ : Pixel))) := by
  have hchars := pairsText_chars items (fun it hit => (hitems it hit).1)
  have hall : ∀ c ∈ p :: '=' :: pairsText items, isspace c = false := by
    intro c hc
    simp only [List.mem_cons] at hc
    rcases hc with h | h | h
    · rcases hp with h1 | h1 <;> rw [h, h1] <;> decide
    · rw [h]; decide
    · rcases hchars c h with h1 | h1 | h1 | h1
      · exact isspace_of_isdigit c h1
      · rw [h1]; decide
      · rw [h1]; decide
      · rw [h1]; decide
  have hnl : '\n' ∉ p :: '=' :: pairsText items := by
    intro hmem
    have := hall _ hmem
    revert this
    decide
  rw [parsePixels_single_line _ hnl]
  unfold pixelLine
  rw [fastTrim_of_no_space _ hall]
  have hp0 : charAt (p :: '=' :: pairsText items) 0 = p := rfl
  have hp1 : charAt (p :: '=' :: pairsText items) 1 = '=' := rfl
  cases items with
  | nil =>
    simp [pairsText]
  | cons item rest =>
    obtain ⟨c, tl, hc, _⟩ := pairsText_head item rest
    have hlen : (p :: '=' :: pairsText (item :: rest)).length > 2 := by
      rw [hc]; simp
    have hpos : (p :: '=' :: pairsText (item :: rest)).length > 0 := by omega
    have hp0 : charAt (p :: '=' :: pairsText (item :: rest)) 0 = 'p' ∨
        charAt (p :: '=' :: pairsText (item :: rest)) 0 = 'P' := by
      rcases hp with h | h
      · exact Or.inr h
      · exact Or.inl h
    simp only [hpos, hlen, hp0, hp1, and_self, if_true]
    have := parsePItems_pairs (item :: rest) hitems [p, '='] []
      ((p :: '=' :: pairsText (item :: rest)).length + 1) (by simp)
    simpa using this

/-- C11, at a concrete input: three pairs with both separators. -/
theorem parsePixels_pairs_witness :
    parsePixels "P=1x2,30X4,5x60".toList = some [⟨1, 2⟩, ⟨30, 4⟩, ⟨5, 60⟩] :=
  parsePixels_pairs 'P' [(1, 'x', 2), (30, 'X', 4), (5, 'x', 60)] (by decide) (by decide)

end HMICX

namespace HMICX

/-- C12: on the line `P=a,1x1` a round of the `P=` loop that starts at the `a` ends at
the `a`, so the loop has no result however many rounds it is given, and `parsePixels`
has none. -/
theorem parsePixels_malformed_item_stalls :
    (∀ fuel, parsePItems "P=a,1x1".toList fuel 2 [] = none) ∧
      parsePixels "P=a,1x1".toList = none := by
  refine ⟨?_, by decide⟩
  intro fuel
  cases fuel with
  | zero => rfl
  | succ k => rfl

theorem parsePLChars_digits (ds : List Char) (hds : ∀ c ∈ ds, isdigit c = true)
    (rest : List Char) :
    ∀ s : PLState, parsePLChars (ds ++ rest) s =
      parsePLChars rest (ds.foldl (fun s c => s.pushDigit ((c.toNat : Int) - 48)) s) := by
  induction ds with
  | nil => intro s; rfl
  | cons c cs ih =>
    intro s
    have hc := hds c (List.mem_cons_self _ _)
    rw [List.cons_append, parsePLChars, if_pos hc,
      ih (fun d hd => hds d (List.mem_cons_of_mem _ hd))]
    rfl

theorem pushDigits_eq (ds : List Char) :
    ∀ s : PLState, ds.foldl (fun s c => s.pushDigit ((c.toNat : Int) - 48)) s =
      match s.current with
      | .x1 => ⟨digitsValue ds s.x1, s.y1, s.x2, s.y2, s.current⟩
      | .y1 => ⟨s.x1, digitsValue ds s.y1, s.x2, s.y2, s.current⟩
      | .x2 => ⟨s.x1, s.y1, digitsValue ds s.x2, s.y2, s.current⟩
      | .y2 => ⟨s.x1, s.y1, s.x2, digitsValue ds s.y2, s.current⟩ := by
  induction ds with
  | nil => intro s; obtain ⟨a, b, c, d, cur⟩ := s; cases cur <;> rfl
  | cons c cs ih =>
    intro s
    obtain ⟨a, b, c1, d, cur⟩ := s
    rw [List.foldl_cons, ih]
    cases cur <;> rfl

theorem intRange_cast (m n : Nat) :
    intRange (m : Int) (n : Int) = (List.range' m (n + 1 - m)).map (fun (k : Nat) => (k : Int)) := by
  unfold intRange
  have h : ((n : Int) + 1 - (m : Int)).toNat = n + 1 - m := by omega
  rw [h]
  apply List.ext_getElem
  · simp
  · intro i h1 h2
    simp

end HMICX

namespace HMICX

theorem digitsValue_decimal (a : Nat) (h : a < 2147483648) : digitsValue (decimal a) 0 = a :=
  (decimal_spec a).2.2 h

theorem isdigit_sep (s : Char) (hs : s = 'x' ∨ s = 'X') : isdigit s = false := by
  rcases hs with h | h <;> subst h <;> decide

/-- The loop of a `PL=` line on the text of two end points. -/
theorem parsePLChars_plText (x1 y1 x2 y2 : Nat) (s1 s2 : Char)
    (hs1 : s1 = 'x' ∨ s1 = 'X') (hs2 : s2 = 'x' ∨ s2 = 'X')
    (hx1 : x1 < 2147483648) (hy1 : y1 < 2147483648)
    (hx2 : x2 < 2147483648) (hy2 : y2 < 2147483648) :
    parsePLChars (plText x1 y1 x2 y2 s1 s2) ⟨0, 0, 0, 0, .x1⟩ =
      ⟨(x1 : Int), (y1 : Int), (x2 : Int), (y2 : Int), .y2⟩ := by
  have hd1 : isdigit s1 = false := isdigit_sep s1 hs1
  have hd2 : isdigit s2 = false := isdigit_sep s2 hs2
  have hm : isdigit '-' = false := by decide
  have hmx : ¬ ('-' = 'x' ∨ '-' = 'X') := by decide
  unfold plText
  rw [parsePLChars_digits _ (decimal_spec x1).2.1, pushDigits_eq]
  simp only [digitsValue_decimal x1 hx1]
  rw [parsePLChars]
  simp only [hd1, hs1, if_true, Bool.false_eq_true, if_false]
  rw [parsePLChars_digits _ (decimal_spec y1).2.1, pushDigits_eq]
  simp only [digitsValue_decimal y1 hy1]
  rw [parsePLChars]
  simp only [hm, hmx, if_true, Bool.false_eq_true, if_false]
  rw [parsePLChars_digits _ (decimal_spec x2).2.1, pushDigits_eq]
  simp only [digitsValue_decimal x2 hx2]
  rw [parsePLChars]
  simp only [hd2, hs2, if_true, Bool.false_eq_true, if_false, reduceCtorEq]
  have := parsePLChars_digits (decimal y2) (decimal_spec y2).2.1 []
    ⟨(x1 : Int), (y1 : Int), (x2 : Int), 0, .y2⟩
  rw [List.append_nil] at this
  rw [this, pushDigits_eq]
  simp only [digitsValue_decimal y2 hy2]
  rfl

theorem plRun_eq_runPixels (x1 y1 x2 y2 : Nat) (cur : PLSlot) :
    plRun ⟨(x1 : Int), (y1 : Int), (x2 : Int), (y2 : Int), cur⟩ = runPixels x1 y1 x2 y2 := by
  unfold plRun runPixels
  simp only [Nat.cast_inj, ← Nat.cast_min, ← Nat.cast_max, intRange_cast, List.map_map]
  rfl

theorem plText_chars (x1 y1 x2 y2 : Nat) (s1 s2 : Char)
    (hs1 : s1 = 'x' ∨ s1 = 'X') (hs2 : s2 = 'x' ∨ s2 = 'X') :
    ∀ c ∈ plText x1 y1 x2 y2 s1 s2, isspace c = false := by
  intro c hc
  unfold plText at hc
  simp only [List.mem_append, List.mem_cons] at hc
  rcases hc with h | h | h | h | h | h | h
  · exact isspace_of_isdigit c ((decimal_spec x1).2.1 c h)
  · rcases hs1 with h1 | h1 <;> rw [h, h1] <;> decide
  · exact isspace_of_isdigit c ((decimal_spec y1).2.1 c h)
  · rw [h]; decide
  · exact isspace_of_isdigit c ((decimal_spec x2).2.1 c h)
  · rcases hs2 with h1 | h1 <;> rw [h, h1] <;> decide
  · exact isspace_of_isdigit c ((decimal_spec y2).2.1 c h)

/-- C13: for naturals x1, y1, x2, y2 below 2^31 - 1, `parsePixels` on the one line
`PL=<x1>x<y1>-<x2>x<y2>` (either case of the letters) returns the pixels (x, y1) for x
from min(x1, x2) to max(x1, x2) when y1 = y2, else the pixels (x1, y) for y from
min(y1, y2) to max(y1, y2) when x1 = x2, else no pixels. -/
theorem parsePixels_run (p l s1 s2 : Char) (x1 y1 x2 y2 : Nat)
    (hp : p = 'P' ∨ p = 'p') (hl : l = 'L' ∨ l = 'l')
    (hs1 : s1 = 'x' ∨ s1 = 'X') (hs2 : s2 = 'x' ∨ s2 = 'X')
    (hx1 : x1 < 2147483647) (hy1 : y1 < 2147483647)
    (hx2 : x2 < 2147483647) (hy2 : y2 < 2147483647) :
    parsePixels (p :: l :: '=' :: plText x1 y1 x2 y2 s1 s2) =
      some (runPixels x1 y1 x2 y2) := by
  have hchars := plText_chars x1 y1 x2 y2 s1 s2 hs1 hs2
  have hall : ∀ c ∈ p :: l :: '=' :: plText x1 y1 x2 y2 s1 s2, isspace c = false := by
    intro c hc
    simp only [List.mem_cons] at hc
    rcases hc with h | h | h | h
    · rcases hp with h1 | h1 <;> rw [h, h1] <;> decide
    · rcases hl with h1 | h1 <;> rw [h, h1] <;> decide
    · rw [h]; decide
    · exact hchars c h
  have hnl : '\n' ∉ p :: l :: '=' :: plText x1 y1 x2 y2 s1 s2 := by
    intro hmem
    have := hall _ hmem
    revert this
    decide
  rw [parsePixels_single_line _ hnl]
  unfold pixelLine
  rw [fastTrim_of_no_space _ hall]
  have hp0 : charAt (p :: l :: '=' :: plText x1 y1 x2 y2 s1 s2) 0 = 'p' ∨
      charAt (p :: l :: '=' :: plText x1 y1 x2 y2 s1 s2) 0 = 'P' := by
    rcases hp with h | h
    · exact Or.inr h
    · exact Or.inl h
  have hp1 : charAt (p :: l :: '=' :: plText x1 y1 x2 y2 s1 s2) 1 = 'l' ∨
      charAt (p :: l :: '=' :: plText x1 y1 x2 y2 s1 s2) 1 = 'L' := by
    rcases hl with h | h
    · exact Or.inr h
    · exact Or.inl h
  have hp1ne : ¬ (charAt (p :: l :: '=' :: plText x1 y1 x2 y2 s1 s2) 1 = '=') := by
    have h1 : charAt (p :: l :: '=' :: plText x1 y1 x2 y2 s1 s2) 1 = l := rfl
    rw [h1]
    rcases hl with h | h <;> rw [h] <;> decide
  have hp2 : charAt (p :: l :: '=' :: plText x1 y1 x2 y2 s1 s2) 2 = '=' := rfl
  have hlen : (p :: l :: '=' :: plText x1 y1 x2 y2 s1 s2).length > 3 := by
    have := List.length_pos.mpr (decimal_spec x1).1
    unfold plText
    simp only [List.length_cons, List.length_append]
    omega
  have hpos : (p :: l :: '=' :: plText x1 y1 x2 y2 s1 s2).length > 0 := by omega
  simp only [hpos, hlen, hp0, hp1, hp1ne, hp2, and_self, and_false, if_true, if_false]
  have hdrop : (p :: l :: '=' :: plText x1 y1 x2 y2 s1 s2).drop 3 =
      plText x1 y1 x2 y2 s1 s2 := rfl
  rw [hdrop, parsePLChars_plText x1 y1 x2 y2 s1 s2 hs1 hs2 (by omega) (by omega) (by omega)
    (by omega), plRun_eq_runPixels]
  rfl

/-- C13, at concrete inputs: a vertical run, end points that share no coordinate, and a
horizontal run written from right to left. -/
theorem parsePixels_run_witness :
    parsePixels "PL=1x1-1x3".toList = some [⟨1, 1⟩, ⟨1, 2⟩, ⟨1, 3⟩] ∧
      parsePixels "PL=1x1-3x2".toList = some [] ∧
      parsePixels "pl=4X2-2x2".toList = some [⟨2, 2⟩, ⟨3, 2⟩, ⟨4, 2⟩] :=
  ⟨parsePixels_run 'P' 'L' 'x' 'x' 1 1 1 3 (by decide) (by decide) (by decide) (by decide)
      (by decide) (by decide) (by decide) (by decide),
    parsePixels_run 'P' 'L' 'x' 'x' 1 1 3 2 (by decide) (by decide) (by decide) (by decide)
      (by decide) (by decide) (by decide) (by decide),
    parsePixels_run 'p' 'l' 'X' 'x' 4 2 2 2 (by decide) (by decide) (by decide) (by decide)
      (by decide) (by decide) (by decide) (by decide)⟩

end HMICX

namespace HMICB

open HMICX

/-! ## Colour specifiers -/

theorem hexChar_facts (u : Bool) (a : Nat) (ha : a < 16) :
    (tolower (hexChar u a) != Char.ofNat 0) = true ∧
    isspace (tolower (hexChar u a)) = false ∧
    tolower (hexChar u a) ≠ '-' ∧ tolower (hexChar u a) ≠ '+' ∧
    tolower (hexChar u a) ≠ 'x' ∧ tolower (hexChar u a) ≠ 'X' ∧
    isxdigit (tolower (hexChar u a)) = true ∧
    hexDigitValue (tolower (hexChar u a)) = a := by
  interval_cases a <;> cases u <;> decide

theorem stoiHex_pair (u v : Bool) (a b : Nat) (ha : a < 16) (hb : b < 16) :
    stoiHex [tolower (hexChar u a), tolower (hexChar v b)] = some ((16 * a + b : Nat) : Int) := by
  obtain ⟨a1, a2, a3, a4, a5, a6, a7, a8⟩ := hexChar_facts u a ha
  obtain ⟨b1, b2, b3, b4, b5, b6, b7, b8⟩ := hexChar_facts v b hb
  generalize tolower (hexChar u a) = c at *
  generalize tolower (hexChar v b) = d at *
  have hv : ((16 * a + b : Nat) : Int) ≤ 2147483647 := by omega
  simp only [stoiHex, cstr, List.takeWhile, a1, b1, List.dropWhile, a2, List.head?_cons,
    Option.some.injEq, a3, a4, or_self, if_false, decide_False, List.tail_cons, b5, b6,
    and_false, false_and, a7, b7, List.isEmpty_cons, Bool.false_eq_true, List.foldl_cons,
    List.foldl_nil, a8, b8, Int.zero_mul, Int.zero_add]
  have h2 : ((a : Int) * 16 + (b : Int)) = ((16 * a + b : Nat) : Int) := by push_cast; ring
  rw [h2, if_pos hv]

theorem intToByte_of_lt (n : Nat) (h : n < 256) : intToByte (n : Int) = ⟨n, h⟩ := by
  unfold intToByte toByte
  apply Fin.ext
  simp only
  omega

end HMICB

namespace HMICB

open HMICX

theorem parseColor_hex (u : Nat → Bool) (r g b : Nat) (hr : r < 256) (hg : g < 256)
    (hb : b < 256) :
    parseColor ('#' :: (hexPair (u 0) (u 1) r ++ hexPair (u 2) (u 3) g ++
      hexPair (u 4) (u 5) b)) = some ⟨⟨r, hr⟩, ⟨g, hg⟩, ⟨b, hb⟩, 255⟩ := by
  have h1 := stoiHex_pair (u 0) (u 1) (r / 16) (r % 16) (by omega) (by omega)
  have h2 := stoiHex_pair (u 2) (u 3) (g / 16) (g % 16) (by omega) (by omega)
  have h3 := stoiHex_pair (u 4) (u 5) (b / 16) (b % 16) (by omega) (by omega)
  have e1 : 16 * (r / 16) + r % 16 = r := by omega
  have e2 : 16 * (g / 16) + g % 16 = g := by omega
  have e3 : 16 * (b / 16) + b % 16 = b := by omega
  rw [e1] at h1
  rw [e2] at h2
  rw [e3] at h3
  have ht : tolower '#' = '#' := by decide
  simp only [parseColor, hexPair, List.map_cons, List.map_append, List.map_nil, ht,
    List.cons_append, List.nil_append, List.head?_cons, List.length_cons, List.length_nil,
    true_and, if_true, List.drop_succ_cons, List.drop_zero, List.take_succ_cons, List.take_zero,
    h1, h2, h3, Option.bind, Option.some_bind, Nat.reduceAdd,
    intToByte_of_lt r hr, intToByte_of_lt g hg, intToByte_of_lt b hb]

/-- The digits `Nat.toDigitsCore` puts in front of `ds`, read back as a decimal numeral
without any bound, give `n`. -/
theorem toDigitsCore_exact (n : Nat) :
    ∀ (fuel : Nat) (ds : List Char), n < fuel →
      ∃ xs, Nat.toDigitsCore 10 fuel n ds = xs ++ ds ∧
        xs.foldl (fun (num : Int) c => num * 10 + ((c.toNat : Int) - 48)) 0 = n := by
  induction n using Nat.strong_induction_on with
  | _ n ih =>
    intro fuel ds hf
    obtain ⟨f, rfl⟩ : ∃ f, fuel = f + 1 := ⟨fuel - 1, by omega⟩
    obtain ⟨-, hd2⟩ := digitChar_spec (n % 10) (Nat.mod_lt _ (by decide))
    rw [toDigitsCore_succ]
    generalize Nat.digitChar (n % 10) = d at hd2 ⊢
    by_cases hq : n / 10 = 0
    · rw [if_pos hq]
      refine ⟨[d], rfl, ?_⟩
      show (0 : Int) * 10 + ((d.toNat : Int) - 48) = n
      rw [hd2]
      omega
    · rw [if_neg hq]
      obtain ⟨xs, hxs, hval⟩ := ih (n / 10) (by omega) f (d :: ds) (by omega)
      refine ⟨xs ++ [d], by rw [hxs, List.append_assoc]; rfl, ?_⟩
      rw [List.foldl_append, hval]
      show ((n / 10 : Nat) : Int) * 10 + ((d.toNat : Int) - 48) = n
      rw [hd2]
      omega

/-- Reading the decimal numeral of `a` back gives `a`. -/
theorem decimal_exact (a : Nat) :
    (decimal a).foldl (fun (num : Int) c => num * 10 + ((c.toNat : Int) - 48)) 0 = a := by
  obtain ⟨xs, hxs, hval⟩ := toDigitsCore_exact a (a + 1) [] (by omega)
  have : decimal a = xs := by
    unfold decimal Nat.toDigits
    rw [hxs, List.append_nil]
  rw [this]
  exact hval

theorem scanInt_decimal (n : Nat) (hn : n < 2147483648) (c : Char) (t : List Char)
    (hc : isdigit c = false) :
    scanInt (decimal n ++ c :: t) = some ((n : Int), c :: t) := by
  obtain ⟨hne, hdig, -⟩ := decimal_spec n
  have hv := decimal_exact n
  have htake : (decimal n ++ c :: t).takeWhile isdigit = decimal n := by
    rw [List.takeWhile_append_of_pos hdig, List.takeWhile_cons_of_neg (by simp [hc]),
      List.append_nil]
  have hdrop : (decimal n ++ c :: t).dropWhile isdigit = c :: t := by
    rw [List.dropWhile_append_of_pos hdig, List.dropWhile_cons_of_neg (by simp [hc])]
  have hwrap : wrapInt32 (min (n : Int) 9223372036854775807) = n := by
    rw [min_eq_left (by omega)]
    exact wrapInt32_of_lt _ (by omega) (by omega)
  cases hd : decimal n with
  | nil => exact absurd hd hne
  | cons d ds =>
    have hdd : isdigit d = true := hdig d (by rw [hd]; exact List.mem_cons_self _ _)
    have hsp : isspace d = false := isspace_of_isdigit d hdd
    have hm : d ≠ '-' := by intro h; rw [h] at hdd; revert hdd; decide
    have hp : d ≠ '+' := by intro h; rw [h] at hdd; revert hdd; decide
    rw [hd] at htake hdrop hv
    have hs1 : (d :: (ds ++ c :: t)).dropWhile isspace = d :: (ds ++ c :: t) := by
      rw [List.dropWhile_cons_of_neg (by simp [hsp])]
    rw [List.cons_append] at htake hdrop
    simp only [scanInt, List.cons_append, hs1, List.head?_cons, Option.some.injEq, hm, hp,
      or_self, if_false, decide_False, Bool.false_eq_true, htake, hdrop, hv,
      List.isEmpty_cons, hwrap]

end HMICB

namespace HMICB

open HMICX

theorem plain_of_isdigit (c : Char) (h : isdigit c = true) :
    tolower c = c ∧ (c != Char.ofNat 0) = true := by
  unfold isdigit at h
  simp only [Bool.and_eq_true, decide_eq_true_eq] at h
  constructor
  · unfold tolower
    rw [if_neg (by omega)]
  · simp only [bne_iff_ne, ne_eq]
    intro hc
    rw [hc] at h
    revert h
    decide

theorem map_tolower_of_plain (l : List Char)
    (h : ∀ c ∈ l, tolower c = c ∧ (c != Char.ofNat 0) = true) : l.map tolower = l := by
  induction l with
  | nil => rfl
  | cons c cs ih =>
    rw [List.map_cons, (h c (List.mem_cons_self _ _)).1,
      ih (fun d hd => h d (List.mem_cons_of_mem _ hd))]

theorem cstr_of_plain (l : List Char)
    (h : ∀ c ∈ l, tolower c = c ∧ (c != Char.ofNat 0) = true) : cstr l = l := by
  unfold cstr
  induction l with
  | nil => rfl
  | cons c cs ih =>
    rw [List.takeWhile_cons]
    simp only [(h c (List.mem_cons_self _ _)).2, if_true]
    rw [ih (fun d hd => h d (List.mem_cons_of_mem _ hd))]


theorem parseColor_rgb (r g b : Nat) (hr : r < 256) (hg : g < 256) (hb : b < 256) :
    parseColor ("rgb(".toList ++ (decimal r ++ ',' :: (decimal g ++ ',' ::
      (decimal b ++ [')'])))) = some ⟨⟨r, hr⟩, ⟨g, hg⟩, ⟨b, hb⟩, 255⟩ := by
  have hplain : ∀ c ∈ "rgb(".toList ++ (decimal r ++ ',' :: (decimal g ++ ',' ::
      (decimal b ++ [')']))), tolower c = c ∧ (c != Char.ofNat 0) = true := by
    intro c hc
    simp only [List.mem_append, List.mem_cons, List.mem_singleton] at hc
    rcases hc with h | h | h | h | h | h
    · revert c; decide
    · exact plain_of_isdigit c ((decimal_spec r).2.1 c h)
    · rw [h]; decide
    · exact plain_of_isdigit c ((decimal_spec g).2.1 c h)
    · rw [h]; decide
    · rcases h with h | h
      · exact plain_of_isdigit c ((decimal_spec b).2.1 c h)
      · simp only [List.not_mem_nil, or_false] at h
        rw [h]; decide
  have hc1 : isdigit ',' = false := by decide
  have hc2 : isdigit ')' = false := by decide
  unfold parseColor
  simp only [map_tolower_of_plain _ hplain, cstr_of_plain _ hplain]
  have hshape : "rgb(".toList ++ (decimal r ++ ',' :: (decimal g ++ ',' ::
      (decimal b ++ [')']))) = 'r' :: 'g' :: 'b' :: '(' :: (decimal r ++ ',' ::
      (decimal g ++ ',' :: (decimal b ++ [')']))) := rfl
  rw [hshape]
  have h5 : ("rgba(".toList.isPrefixOf ('r' :: 'g' :: 'b' :: '(' :: (decimal r ++ ',' ::
      (decimal g ++ ',' :: (decimal b ++ [')']))))) = false := by
    simp [List.isPrefixOf]
  have h4 : ("rgb(".toList.isPrefixOf ('r' :: 'g' :: 'b' :: '(' :: (decimal r ++ ',' ::
      (decimal g ++ ',' :: (decimal b ++ [')']))))) = true := by
    simp [List.isPrefixOf]
  have hhead : ¬ ((('r' :: 'g' :: 'b' :: '(' :: (decimal r ++ ',' ::
      (decimal g ++ ',' :: (decimal b ++ [')'])))).head? = some '#') ∧
      ('r' :: 'g' :: 'b' :: '(' :: (decimal r ++ ',' ::
      (decimal g ++ ',' :: (decimal b ++ [')'])))).length = 7) := by
    simp
  have hscan : scanInts 3 (decimal r ++ ',' :: (decimal g ++ ',' :: (decimal b ++ [')']))) =
      [(r : Int), (g : Int), (b : Int)] := by
    simp only [scanInts, scanInt_decimal r (by omega) ',' _ hc1,
      scanInt_decimal g (by omega) ',' _ hc1, scanInt_decimal b (by omega) ')' _ hc2]
    rfl
  rw [if_neg hhead]
  simp only [h5, h4, Bool.false_eq_true, if_false, if_true, List.drop_succ_cons, List.drop_zero,
    hscan, intToByte_of_lt r hr, intToByte_of_lt g hg, intToByte_of_lt b hb]

theorem parseColor_rgba (r g b a : Nat) (hr : r < 256) (hg : g < 256) (hb : b < 256)
    (ha : a < 256) :
    parseColor ("rgba(".toList ++ (decimal r ++ ',' :: (decimal g ++ ',' ::
      (decimal b ++ ',' :: (decimal a ++ [')']))))) =
      some ⟨⟨r, hr⟩, ⟨g, hg⟩, ⟨b, hb⟩, ⟨a, ha⟩⟩ := by
  have hplain : ∀ c ∈ "rgba(".toList ++ (decimal r ++ ',' :: (decimal g ++ ',' ::
      (decimal b ++ ',' :: (decimal a ++ [')'])))),
      tolower c = c ∧ (c != Char.ofNat 0) = true := by
    intro c hc
    simp only [List.mem_append, List.mem_cons, List.mem_singleton] at hc
    rcases hc with h | h | h | h | h | h | h | h
    · revert c; decide
    · exact plain_of_isdigit c ((decimal_spec r).2.1 c h)
    · rw [h]; decide
    · exact plain_of_isdigit c ((decimal_spec g).2.1 c h)
    · rw [h]; decide
    · exact plain_of_isdigit c ((decimal_spec b).2.1 c h)
    · rw [h]; decide
    · rcases h with h | h
      · exact plain_of_isdigit c ((decimal_spec a).2.1 c h)
      · simp only [List.not_mem_nil, or_false] at h
        rw [h]; decide
  have hc1 : isdigit ',' = false := by decide
  have hc2 : isdigit ')' = false := by decide
  unfold parseColor
  simp only [map_tolower_of_plain _ hplain, cstr_of_plain _ hplain]
  have hshape : "rgba(".toList ++ (decimal r ++ ',' :: (decimal g ++ ',' ::
      (decimal b ++ ',' :: (decimal a ++ [')'])))) = 'r' :: 'g' :: 'b' :: 'a' :: '(' ::
      (decimal r ++ ',' :: (decimal g ++ ',' :: (decimal b ++ ',' :: (decimal a ++ [')'])))) :=
    rfl
  rw [hshape]
  have h5 : ("rgba(".toList.isPrefixOf ('r' :: 'g' :: 'b' :: 'a' :: '(' ::
      (decimal r ++ ',' :: (decimal g ++ ',' :: (decimal b ++ ',' :: (decimal a ++ [')'])))))) =
      true := by
    simp [List.isPrefixOf]
  have hhead : ¬ ((('r' :: 'g' :: 'b' :: 'a' :: '(' ::
      (decimal r ++ ',' :: (decimal g ++ ',' :: (decimal b ++ ',' ::
        (decimal a ++ [')']))))).head? = some '#') ∧
      ('r' :: 'g' :: 'b' :: 'a' :: '(' ::
      (decimal r ++ ',' :: (decimal g ++ ',' :: (decimal b ++ ',' ::
        (decimal a ++ [')']))))).length = 7) := by
    simp
  have hscan : scanInts 4 (decimal r ++ ',' :: (decimal g ++ ',' :: (decimal b ++ ',' ::
      (decimal a ++ [')'])))) = [(r : Int), (g : Int), (b : Int), (a : Int)] := by
    simp only [scanInts, scanInt_decimal r (by omega) ',' _ hc1,
      scanInt_decimal g (by omega) ',' _ hc1, scanInt_decimal b (by omega) ',' _ hc1,
      scanInt_decimal a (by omega) ')' _ hc2]
    rfl
  rw [if_neg hhead]
  simp only [h5, if_true, List.drop_succ_cons, List.drop_zero,
    hscan, intToByte_of_lt r hr, intToByte_of_lt g hg, intToByte_of_lt b hb,
    intToByte_of_lt a ha]

/-- C14: for components r, g, b, a in 0..255, `parseColor` returns (r, g, b, 255) on
`#RRGGBB` written with two hexadecimal digits per component in either case, (r, g, b, 255)
on `rgb(r,g,b)` and (r, g, b, a) on `rgba(r,g,b,a)` written with decimal numerals. -/
theorem parseColor_roundtrip (u : Nat → Bool) (r g b a : Nat) (hr : r < 256) (hg : g < 256)
    (hb : b < 256) (ha : a < 256) :
    parseColor ('#' :: (hexPair (u 0) (u 1) r ++ hexPair (u 2) (u 3) g ++
      hexPair (u 4) (u 5) b)) = some ⟨⟨r, hr⟩, ⟨g, hg⟩, ⟨b, hb⟩, 255⟩ ∧
    parseColor ("rgb(".toList ++ (decimal r ++ ',' :: (decimal g ++ ',' ::
      (decimal b ++ [')'])))) = some ⟨⟨r, hr⟩, ⟨g, hg⟩, ⟨b, hb⟩, 255⟩ ∧
    parseColor ("rgba(".toList ++ (decimal r ++ ',' :: (decimal g ++ ',' ::
      (decimal b ++ ',' :: (decimal a ++ [')']))))) =
      some ⟨⟨r, hr⟩, ⟨g, hg⟩, ⟨b, hb⟩, ⟨a, ha⟩⟩ :=
  ⟨parseColor_hex u r g b hr hg hb, parseColor_rgb r g b hr hg hb,
    parseColor_rgba r g b a hr hg hb ha⟩

/-- C14, at a concrete input: the colour (255, 128, 0) in the three notations. -/
theorem parseColor_roundtrip_witness :
    parseColor "#fF8000".toList = some ⟨255, 128, 0, 255⟩ ∧
    parseColor "rgb(255,128,0)".toList = some ⟨255, 128, 0, 255⟩ ∧
    parseColor "rgba(255,128,0,7)".toList = some ⟨255, 128, 0, 7⟩ :=
  parseColor_roundtrip (fun i => decide (i = 1)) 255 128 0 7 (by decide) (by decide)
    (by decide) (by decide)

end HMICB

namespace HMICB

open HMICX

theorem scanInt_text (s : List Char) (v : Int) (rest : List Char)
    (h : scanInt s = some (v, rest)) : ∃ t, IntegerText t ∧ s = t ++ rest := by
  unfold scanInt at h
  dsimp only at h
  have hs : s = s.takeWhile isspace ++ s.dropWhile isspace :=
    (List.takeWhile_append_dropWhile _ _).symm
  have hws : ∀ c ∈ s.takeWhile isspace, isspace c = true :=
    fun c hc => List.mem_takeWhile_imp hc
  generalize s.dropWhile isspace = s1 at hs h
  generalize s.takeWhile isspace = ws at hs hws
  have key : ∀ (sg s2 : List Char) (w : Int), (sg = [] ∨ sg = ['-'] ∨ sg = ['+']) →
      s1 = sg ++ s2 →
      (if (s2.takeWhile isdigit).isEmpty = true then none
        else some (w, s2.dropWhile isdigit)) = some (v, rest) →
      ∃ t, IntegerText t ∧ s = t ++ rest := by
    intro sg s2 w hsg hs1 hres
    by_cases hne : (s2.takeWhile isdigit).isEmpty = true
    · rw [if_pos hne] at hres
      cases hres
    · rw [if_neg hne] at hres
      simp only [Option.some.injEq, Prod.mk.injEq] at hres
      obtain ⟨-, hrest2⟩ := hres
      refine ⟨ws ++ sg ++ s2.takeWhile isdigit, ⟨ws, sg, _, rfl, hws, hsg, ?_, ?_⟩, ?_⟩
      · intro hnil
        rw [hnil] at hne
        exact hne rfl
      · exact fun c hc => List.mem_takeWhile_imp hc
      · rw [hs, hs1, ← hrest2, List.append_assoc, List.append_assoc,
          List.takeWhile_append_dropWhile]
  by_cases hsign : s1.head? = some '-' ∨ s1.head? = some '+'
  · simp only [if_pos hsign] at h
    cases s1 with
    | nil => rcases hsign with h1 | h1 <;> cases h1
    | cons c t =>
      simp only [List.head?_cons, Option.some.injEq] at hsign
      rw [List.tail_cons] at h
      rcases hsign with h1 | h1
      · exact key ['-'] t _ (Or.inr (Or.inl rfl)) (by rw [h1]; rfl) h
      · exact key ['+'] t _ (Or.inr (Or.inr rfl)) (by rw [h1]; rfl) h
  · simp only [if_neg hsign] at h
    exact key [] s1 _ (Or.inl rfl) rfl h

theorem scanInts_length_le : ∀ (n : Nat) (s : List Char), (scanInts n s).length ≤ n := by
  intro n
  induction n with
  | zero => intro s; simp [scanInts]
  | succ k ih =>
    intro s
    unfold scanInts
    split
    · simp
    · split
      · simp only [List.length_cons]
        exact Nat.succ_le_succ (ih _)
      · simp

/-- A scan that makes all its `n` conversions has read `n` integers separated by commas. -/
theorem scanInts_text : ∀ (n : Nat) (s : List Char), 0 < n → (scanInts n s).length = n →
    ∃ (ts : List (List Char)) (rest : List Char), ts.length = n ∧
      (∀ t ∈ ts, IntegerText t) ∧ s = commaSeparated ts ++ rest := by
  intro n
  induction n with
  | zero => intro s h; omega
  | succ k ih =>
    intro s _ hlen
    unfold scanInts at hlen
    split at hlen
    · simp at hlen
    · rename_i v rest hscan
      obtain ⟨t, ht, hs⟩ := scanInt_text s v rest hscan
      by_cases hk : k = 0
      · subst hk
        exact ⟨[t], rest, rfl, by simpa using ht, by simpa [commaSeparated] using hs⟩
      · split at hlen
        · rename_i t1
          simp only [List.length_cons, Nat.add_right_cancel_iff] at hlen
          obtain ⟨ts, rest1, hts, hall, hs1⟩ := ih t1 (by omega) hlen
          cases ts with
          | nil => simp at hts; omega
          | cons u us =>
            refine ⟨t :: u :: us, rest1, by simp [← hts], ?_, ?_⟩
            · intro x hx
              rcases List.mem_cons.mp hx with h | h
              · rw [h]; exact ht
              · exact hall x h
            · rw [hs, hs1]
              simp [commaSeparated]
        · simp at hlen
          omega

theorem cstr_append_dropWhile (l : List Char) :
    l = cstr l ++ l.dropWhile (fun c => c != Char.ofNat 0) :=
  (List.takeWhile_append_dropWhile _ _).symm

/-- C15, the counterexample: `rgb(1,2,3,4)` is no well-formed specifier, and `parseColor`
resolves it to (1, 2, 3, 255), not to opaque white. -/
theorem parseColor_trailing_text_accepted :
    parseColor "rgb(1,2,3,4)".toList = some ⟨1, 2, 3, 255⟩ ∧
      parseColor "rgb(1,2,3,4)".toList ≠ some RGBA.white := by
  decide

/-- C15, amended: for every string that, once lower-cased, neither is a `#` with six more
characters nor begins with `rgba(` and four, or `rgb(` and three, integers separated by
commas, `parseColor` raises no error and returns opaque white (255, 255, 255, 255). -/
theorem parseColor_white (s : List Char)
    (h7 : ¬ ((s.map tolower).head? = some '#' ∧ s.length = 7))
    (h4 : ¬ BeginsWithIntegers "rgba(".toList 4 (s.map tolower))
    (h3 : ¬ BeginsWithIntegers "rgb(".toList 3 (s.map tolower)) :
    parseColor s = some RGBA.white := by
  unfold parseColor
  dsimp only
  have h7b : ¬ ((s.map tolower).head? = some '#' ∧ (s.map tolower).length = 7) := by
    rw [List.length_map]; exact h7
  rw [if_neg h7b]
  generalize s.map tolower = str at h4 h3
  by_cases hp4 : "rgba(".toList.isPrefixOf str = true
  · rw [if_pos hp4]
    split
    · rename_i r g b a hscan
      exfalso
      apply h4
      obtain ⟨tl, htl⟩ := List.isPrefixOf_iff_prefix.mp hp4
      subst htl
      have hc : (cstr ("rgba(".toList ++ tl)).drop 5 = cstr tl := by
        simp [cstr, List.takeWhile]
      rw [hc] at hscan
      obtain ⟨ts, rest, hts, hall, hs⟩ := scanInts_text 4 (cstr tl) (by decide)
        (by rw [hscan]; rfl)
      refine ⟨ts, rest ++ tl.dropWhile (fun c => c != Char.ofNat 0), hts, hall, ?_⟩
      rw [← List.append_assoc (commaSeparated ts), ← hs, ← cstr_append_dropWhile]
    · rfl
  · rw [if_neg hp4]
    by_cases hp3 : "rgb(".toList.isPrefixOf str = true
    · rw [if_pos hp3]
      split
      · rename_i r g b hscan
        exfalso
        apply h3
        obtain ⟨tl, htl⟩ := List.isPrefixOf_iff_prefix.mp hp3
        subst htl
        have hc : (cstr ("rgb(".toList ++ tl)).drop 4 = cstr tl := by
          simp [cstr, List.takeWhile]
        rw [hc] at hscan
        obtain ⟨ts, rest, hts, hall, hs⟩ := scanInts_text 3 (cstr tl) (by decide)
          (by rw [hscan]; rfl)
        refine ⟨ts, rest ++ tl.dropWhile (fun c => c != Char.ofNat 0), hts, hall, ?_⟩
        rw [← List.append_assoc (commaSeparated ts), ← hs, ← cstr_append_dropWhile]
      · rfl
    · rw [if_neg hp3]

/-- C15, amended, at a concrete input: a colour name. -/
theorem parseColor_white_witness :
    parseColor "Red".toList = some RGBA.white :=
  parseColor_white "Red".toList (by decide)
    (by
      rintro ⟨ts, rest, -, -, h⟩
      have h1 : (List.map tolower "Red".toList).getD 1 'g' = 'e' := by decide
      have h2 : ("rgba(".toList ++ (commaSeparated ts ++ rest)).getD 1 'g' = 'g' := rfl
      rw [h, h2] at h1
      revert h1
      decide)
    (by
      rintro ⟨ts, rest, -, -, h⟩
      have h1 : (List.map tolower "Red".toList).getD 1 'g' = 'e' := by decide
      have h2 : ("rgb(".toList ++ (commaSeparated ts ++ rest)).getD 1 'g' = 'g' := rfl
      rw [h, h2] at h1
      revert h1
      decide)

end HMICB

namespace HMICB

open HMICX

/-! ## Properties of the rendered buffers -/

theorem set_getD_self (l : List (List RGBA)) (n : Nat) : l.set n (l.getD n []) = l := by
  apply List.ext_getElem?
  intro m
  rw [List.getElem?_set]
  by_cases h : n = m
  · subst h
    rw [if_pos rfl]
    by_cases hn : n < l.length
    · rw [if_pos hn, List.getD_eq_getElem?_getD, List.getElem?_eq_getElem hn]
      rfl
    · rw [if_neg hn, List.getElem?_eq_none (by omega)]
  · rw [if_neg h]

theorem drawPixel_alpha_zero (blend : Byte → Byte → Byte → Byte) (color : RGBA)
    (ha : color.a = 0) (width height : Int) (buf : List RGBA) (px : Pixel) :
    drawPixel blend color width height buf px = buf := by
  unfold drawPixel
  dsimp only
  have h1 : ¬ (color.a = 255) := by rw [ha]; decide
  have h2 : ¬ (color.a > 0) := by rw [ha]; decide
  rw [if_neg h1, if_neg h2]
  split <;> rfl

theorem foldl_drawPixel_alpha_zero (blend : Byte → Byte → Byte → Byte) (color : RGBA)
    (ha : color.a = 0) (width height : Int) (pixels : List Pixel) :
    ∀ buf : List RGBA, pixels.foldl (drawPixel blend color width height) buf = buf := by
  induction pixels with
  | nil => intro buf; rfl
  | cons px pixels ih =>
    intro buf
    rw [List.foldl_cons, drawPixel_alpha_zero blend color ha, ih]

/-- A frame loop whose drawing changes no buffer changes no frame. -/
theorem frameLoop_id (draw : List RGBA → List RGBA) (hdraw : ∀ buf, draw buf = buf)
    (totalFrames : Int) (L : List Int) :
    ∀ frames : List (List RGBA),
      L.foldl
        (fun frames f =>
          if f - 1 < 0 ∨ f - 1 ≥ totalFrames then frames
          else frames.set (f - 1).toNat (draw (frames.getD (f - 1).toNat []))) frames =
        frames := by
  induction L with
  | nil => intro frames; rfl
  | cons f L ih =>
    intro frames
    rw [List.foldl_cons]
    by_cases hf : f - 1 < 0 ∨ f - 1 ≥ totalFrames
    · rw [if_pos hf, ih]
    · rw [if_neg hf, hdraw, set_getD_self, ih]

theorem renderCommand_alpha_zero (blend : Byte → Byte → Byte → Byte)
    (width height totalFrames : Int) (color : RGBA)
    (frames : List (List RGBA)) (cmd : Command) (ha : color.a = 0) :
    renderCommand blend width height totalFrames color frames cmd = frames :=
  frameLoop_id _ (foldl_drawPixel_alpha_zero blend _ ha width height cmd.pixels) totalFrames _
    frames

/-- What `renderAllFrames` returns: the guard on the sizes passes, every colour resolves,
and the buffers are those of the command loop with the resolved colours. -/
theorem renderAllFrames_some (parseColor : List Char → Option RGBA)
    (blend : Byte → Byte → Byte → Byte) (commands : List Command)
    (width height totalFrames : Int) (frames : List (List RGBA))
    (h : renderAllFrames parseColor blend commands width height totalFrames = some frames) :
    ¬ (totalFrames ≤ 0 ∨ width * height < 0 ∨ width * height > 2147483647) ∧
    (∀ cmd ∈ commands, (parseColor cmd.color).isSome = true) ∧
    frames = commands.foldl
      (fun frames cmd => renderCommand blend width height totalFrames
        ((fun s => (parseColor s).getD RGBA.clear) cmd.color) frames cmd)
      (List.replicate totalFrames.toNat
        (List.replicate (width * height).toNat RGBA.clear)) := by
  rw [renderAllFrames_eq] at h
  by_cases hc : (totalFrames ≤ 0 ∨ width * height < 0 ∨ width * height > 2147483647) ∨
      ¬ ∀ cmd ∈ commands, (parseColor cmd.color).isSome = true
  · rw [if_pos hc] at h
    cases h
  · rw [if_neg hc] at h
    refine ⟨fun hg => hc (Or.inl hg), ?_, (Option.some.inj h).symm⟩
    by_contra hn
    exact hc (Or.inr hn)

/-- C17: for every command list and canvas, `renderAllFrames` gives the same result as on
the list without the commands whose colour resolves to an alpha of 0. -/
theorem renderAllFrames_alpha_zero_removed (parseColor : List Char → Option RGBA)
    (blend : Byte → Byte → Byte → Byte) (commands : List Command)
    (width height totalFrames : Int) :
    renderAllFrames parseColor blend commands width height totalFrames =
      renderAllFrames parseColor blend
        (commands.filter
          (fun cmd => decide ((parseColor cmd.color).map (fun c => c.a) ≠ some 0)))
        width height totalFrames := by
  unfold renderAllFrames
  split
  · rfl
  · generalize List.replicate totalFrames.toNat
      (List.replicate (width * height).toNat RGBA.clear) = frames
    induction commands generalizing frames with
    | nil => rfl
    | cons cmd commands ih =>
      cases hc : parseColor cmd.color with
      | none =>
        rw [List.filter_cons_of_pos (by rw [hc]; decide), List.foldlM_cons, List.foldlM_cons,
          hc]
        rfl
      | some c =>
        by_cases ha : c.a = 0
        · rw [List.filter_cons_of_neg (by rw [hc]; simp [ha]), List.foldlM_cons, hc]
          simp only [Option.map_some', Option.bind_eq_bind, Option.some_bind]
          rw [renderCommand_alpha_zero blend width height totalFrames c frames cmd ha]
          exact ih frames
        · rw [List.filter_cons_of_pos (by rw [hc]; simp [ha]), List.foldlM_cons,
            List.foldlM_cons, hc]
          simp only [Option.map_some', Option.bind_eq_bind, Option.some_bind]
          exact ih _

theorem foldl_drawPixel_filter (blend : Byte → Byte → Byte → Byte) (color : RGBA)
    (width height : Int) (pixels : List Pixel) :
    ∀ buf : List RGBA,
      pixels.foldl (drawPixel blend color width height) buf =
        (pixels.filter
          (fun px => decide (1 ≤ px.x ∧ px.x ≤ width ∧ 1 ≤ px.y ∧ px.y ≤ height))).foldl
          (drawPixel blend color width height) buf := by
  induction pixels with
  | nil => intro buf; rfl
  | cons px pixels ih =>
    intro buf
    by_cases hin : 1 ≤ px.x ∧ px.x ≤ width ∧ 1 ≤ px.y ∧ px.y ≤ height
    · rw [List.filter_cons_of_pos (by simpa using hin), List.foldl_cons, List.foldl_cons, ih]
    · rw [List.filter_cons_of_neg (by simpa using hin), List.foldl_cons, drawPixel_eq,
        if_neg hin, ih]

theorem renderCommand_clip (blend : Byte → Byte → Byte → Byte)
    (width height totalFrames : Int) (color : RGBA)
    (frames : List (List RGBA)) (cmd : Command) :
    renderCommand blend width height totalFrames color frames cmd =
      renderCommand blend width height totalFrames color frames
        (clipCommand width height cmd) := by
  unfold renderCommand clipCommand
  simp only [← foldl_drawPixel_filter]

/-- C20: for every command list and canvas, `renderAllFrames` gives the same result as on
the commands with every pixel outside `1 ≤ x ≤ width`, `1 ≤ y ≤ height` removed; on a
5x5 canvas the pixel (6, 1) changes no buffer and the pixel (1, 1) sets cell 0. -/
theorem renderAllFrames_clip (parseColor : List Char → Option RGBA)
    (blend : Byte → Byte → Byte → Byte) (commands : List Command)
    (width height totalFrames : Int) :
    renderAllFrames parseColor blend commands width height totalFrames =
      renderAllFrames parseColor blend (commands.map (clipCommand width height))
        width height totalFrames ∧
    (∀ (color : RGBA) (buf : List RGBA), drawPixel blend color 5 5 buf ⟨6, 1⟩ = buf) ∧
    drawPixel blend ⟨255, 0, 0, 255⟩ 5 5 (List.replicate 25 RGBA.clear) ⟨1, 1⟩ =
      (List.replicate 25 RGBA.clear).set 0 ⟨255, 0, 0, 255⟩ := by
  refine ⟨?_, ?_, rfl⟩
  · unfold renderAllFrames
    split
    · rfl
    · generalize List.replicate totalFrames.toNat
        (List.replicate (width * height).toNat RGBA.clear) = frames
      induction commands generalizing frames with
      | nil => rfl
      | cons cmd commands ih =>
        rw [List.map_cons, List.foldlM_cons, List.foldlM_cons]
        have hcol : (clipCommand width height cmd).color = cmd.color := rfl
        rw [hcol]
        cases hc : parseColor cmd.color with
        | none => rfl
        | some c =>
          simp only [Option.map_some', Option.bind_eq_bind, Option.some_bind]
          rw [← renderCommand_clip blend width height totalFrames c frames cmd]
          exact ih _
  · intro color buf
    rw [drawPixel_eq, if_neg (by decide)]

/-- C18: when a colour with alpha strictly between 0 and 255 is drawn on a pixel inside
the canvas, the alpha of the cell becomes the maximum of its alpha before and the alpha of
the colour. -/
theorem drawPixel_alpha_max (blend : Byte → Byte → Byte → Byte) (color bg : RGBA)
    (width height : Int) (buf : List RGBA) (px : Pixel)
    (hin : 1 ≤ px.x ∧ px.x ≤ width ∧ 1 ≤ px.y ∧ px.y ≤ height)
    (ha0 : 0 < color.a) (ha255 : color.a < 255)
    (hbg : buf[((px.y - 1) * width + (px.x - 1)).toNat]? = some bg) :
    ∃ cell, (drawPixel blend color width height buf px)[
        ((px.y - 1) * width + (px.x - 1)).toNat]? = some cell ∧
      cell.a = max bg.a color.a ∧ cell.a.val = max bg.a.val color.a.val := by
  have hout : ¬ (px.x - 1 < 0 ∨ px.x - 1 ≥ width ∨ px.y - 1 < 0 ∨ px.y - 1 ≥ height) := by
    omega
  have h255 : ¬ (color.a = 255) := fun h => by rw [h] at ha255; exact absurd ha255 (by decide)
  have hlt : ((px.y - 1) * width + (px.x - 1)).toNat < buf.length := by
    by_contra hge
    rw [List.getElem?_eq_none (by omega)] at hbg
    cases hbg
  have hget : buf.getD ((px.y - 1) * width + (px.x - 1)).toNat RGBA.clear = bg := by
    rw [List.getD_eq_getElem?_getD, hbg]
    rfl
  unfold drawPixel
  dsimp only
  rw [if_neg hout, if_neg h255, if_pos ha0, hget, List.getElem?_set_self hlt]
  refine ⟨_, rfl, rfl, ?_⟩
  show (max bg.a color.a).val = max bg.a.val color.a.val
  rcases le_total bg.a color.a with h | h
  · rw [max_eq_right h, max_eq_right (Fin.le_def.mp h)]
  · rw [max_eq_left h, max_eq_left (Fin.le_def.mp h)]

/-- C18, at a concrete input: alpha 100 drawn over alpha 200 on a 2x2 canvas. -/
theorem drawPixel_alpha_max_witness :
    ∃ cell, (drawPixel (fun c _ _ => c) ⟨10, 20, 30, 100⟩ 2 2
        [⟨1, 2, 3, 50⟩, ⟨4, 5, 6, 200⟩, RGBA.clear, RGBA.clear] ⟨2, 1⟩)[
        (((⟨2, 1⟩ : Pixel).y - 1) * 2 + ((⟨2, 1⟩ : Pixel).x - 1)).toNat]? = some cell ∧
      cell.a = max (⟨4, 5, 6, 200⟩ : RGBA).a (⟨10, 20, 30, 100⟩ : RGBA).a ∧
      cell.a.val = max (⟨4, 5, 6, 200⟩ : RGBA).a.val (⟨10, 20, 30, 100⟩ : RGBA).a.val :=
  drawPixel_alpha_max (fun c _ _ => c) ⟨10, 20, 30, 100⟩ ⟨4, 5, 6, 200⟩ 2 2
    [⟨1, 2, 3, 50⟩, ⟨4, 5, 6, 200⟩, RGBA.clear, RGBA.clear] ⟨2, 1⟩ (by decide) (by decide)
    (by decide) (by decide)

end HMICB

namespace HMICB

open HMICX

theorem blendInto_getElem?_ne (blend : Byte → Byte → Byte → Byte) (color : RGBA)
    (buf : List RGBA) (j i : Nat) (h : j ≠ i) :
    (blendInto blend color buf j)[i]? = buf[i]? := by
  unfold blendInto
  split
  · rw [List.getElem?_set_ne h]
  · split
    · rfl
    · rw [List.getElem?_set_ne h]

theorem blendInto_alpha_zero (blend : Byte → Byte → Byte → Byte) (color : RGBA)
    (ha : color.a = 0) (buf : List RGBA) (j : Nat) : blendInto blend color buf j = buf := by
  unfold blendInto
  rw [if_neg (by rw [ha]; decide), if_pos ha]

/-- Pixels that lie on other cells, or a colour of alpha 0, leave cell `i` as it is. -/
theorem foldl_blendInto_other (blend : Byte → Byte → Byte → Byte) (color : RGBA)
    (f : Pixel → Nat) (i : Nat) (pixels : List Pixel)
    (h : color.a = 0 ∨ ∀ px ∈ pixels, f px ≠ i) :
    ∀ buf : List RGBA,
      (pixels.foldl (fun buf px => blendInto blend color buf (f px)) buf)[i]? = buf[i]? := by
  induction pixels with
  | nil => intro buf; rfl
  | cons px pixels ih =>
    intro buf
    rw [List.foldl_cons, ih (h.imp id (fun h1 q hq => h1 q (List.mem_cons_of_mem _ hq)))]
    rcases h with h | h
    · rw [blendInto_alpha_zero blend color h]
    · exact blendInto_getElem?_ne blend color buf _ i (h px (List.mem_cons_self _ _))

/-- An opaque colour with a pixel on cell `i` leaves its own value in cell `i`. -/
theorem foldl_blendInto_solid (blend : Byte → Byte → Byte → Byte) (color : RGBA)
    (ha : color.a = 255) (f : Pixel → Nat) (i : Nat) (pixels : List Pixel) :
    ∀ buf : List RGBA, i < buf.length →
      ((∃ px ∈ pixels, f px = i) ∨ buf[i]? = some color) →
      (pixels.foldl (fun buf px => blendInto blend color buf (f px)) buf)[i]? =
        some color := by
  induction pixels with
  | nil =>
    intro buf _ h
    rcases h with ⟨px, hpx, _⟩ | h
    · cases hpx
    · exact h
  | cons px pixels ih =>
    intro buf hi h
    rw [List.foldl_cons]
    have hb : blendInto blend color buf (f px) = buf.set (f px) color := by
      unfold blendInto
      rw [if_pos ha]
    apply ih _ (by rw [length_blendInto]; exact hi)
    by_cases hpx : f px = i
    · right
      rw [hb, hpx, List.getElem?_set_self hi]
    · rcases h with ⟨q, hq, hqi⟩ | h
      · rcases List.mem_cons.mp hq with h1 | h1
        · rw [h1] at hqi; exact absurd hqi hpx
        · exact Or.inl ⟨q, h1, hqi⟩
      · right
        rw [hb, List.getElem?_set_ne hpx]
        exact h

theorem length_foldl_commands (parseColor : List Char → RGBA)
    (blend : Byte → Byte → Byte → Byte) (width height : Int) (cs : List Command) :
    ∀ buf : List RGBA,
      (cs.foldl
        (fun buf cmd =>
          (cmd.pixels.filter
            (fun px => decide (1 ≤ px.x ∧ px.x ≤ width ∧ 1 ≤ px.y ∧ px.y ≤ height))).foldl
            (fun buf px =>
              blendInto blend (parseColor cmd.color) buf
                ((px.y - 1) * width + (px.x - 1)).toNat)
            buf) buf).length = buf.length := by
  induction cs with
  | nil => intro buf; rfl
  | cons c cs ih =>
    intro buf
    rw [List.foldl_cons, ih, length_foldl_blendInto]

/-- Commands that have alpha 0 whenever they cover frame `k + 1` and cell `i` leave cell
`i` of buffer `k` as it is. -/
theorem foldl_commands_other (parseColor : List Char → RGBA)
    (blend : Byte → Byte → Byte → Byte) (width height : Int) (k i : Nat) (cs : List Command)
    (h : ∀ c ∈ cs, coversCell c width height k i → (parseColor c.color).a = 0) :
    ∀ buf : List RGBA,
      ((cs.filter
          (fun cmd => decide (cmd.start ≤ (k : Int) + 1 ∧ (k : Int) + 1 ≤ cmd.end_))).foldl
        (fun buf cmd =>
          (cmd.pixels.filter
            (fun px => decide (1 ≤ px.x ∧ px.x ≤ width ∧ 1 ≤ px.y ∧ px.y ≤ height))).foldl
            (fun buf px =>
              blendInto blend (parseColor cmd.color) buf
                ((px.y - 1) * width + (px.x - 1)).toNat)
            buf) buf)[i]? = buf[i]? := by
  induction cs with
  | nil => intro buf; rfl
  | cons c cs ih =>
    intro buf
    have ih1 := ih (fun d hd => h d (List.mem_cons_of_mem _ hd))
    by_cases hc : c.start ≤ (k : Int) + 1 ∧ (k : Int) + 1 ≤ c.end_
    · rw [List.filter_cons_of_pos (by simpa using hc), List.foldl_cons, ih1]
      apply foldl_blendInto_other blend (parseColor c.color)
        (fun px => ((px.y - 1) * width + (px.x - 1)).toNat) i
      by_cases hcov : ∃ px ∈ c.pixels, 1 ≤ px.x ∧ px.x ≤ width ∧ 1 ≤ px.y ∧ px.y ≤ height ∧
          ((px.y - 1) * width + (px.x - 1)).toNat = i
      · exact Or.inl (h c (List.mem_cons_self _ _) ⟨hc.1, hc.2, hcov⟩)
      · right
        intro px hpx hi
        apply hcov
        rw [List.mem_filter] at hpx
        have hin : 1 ≤ px.x ∧ px.x ≤ width ∧ 1 ≤ px.y ∧ px.y ≤ height := by
          simpa using hpx.2
        exact ⟨px, hpx.1, hin.1, hin.2.1, hin.2.2.1, hin.2.2.2, hi⟩
    · rw [List.filter_cons_of_neg (by simpa using hc)]
      exact ih1 buf

theorem cell_lt (width height : Int) (px : Pixel)
    (hin : 1 ≤ px.x ∧ px.x ≤ width ∧ 1 ≤ px.y ∧ px.y ≤ height) :
    ((px.y - 1) * width + (px.x - 1)).toNat < (width * height).toNat := by
  have h1 : (px.y - 1) * width ≤ (height - 1) * width :=
    Int.mul_le_mul_of_nonneg_right (by omega) (by omega)
  have h2 : 0 ≤ (px.y - 1) * width := Int.mul_nonneg (by omega) (by omega)
  have h3 : (height - 1) * width = width * height - width := by ring
  omega

/-- C16: when the last command of the list that covers frame `k + 1`, has a pixel inside
the canvas on cell `i` and resolves to a colour of alpha other than 0 has alpha 255, then
in the buffers `renderAllFrames` returns cell `i` of buffer `k` is exactly the resolved
colour of that command; and `renderAllFrames` returns buffers when every colour of the
list resolves and the cell count of the canvas is an `int`. -/
theorem renderAllFrames_last_solid (parseColor : List Char → Option RGBA)
    (blend : Byte → Byte → Byte → Byte) (before after : List Command) (cmd : Command)
    (width height totalFrames : Int) (k i : Nat) (color : RGBA)
    (hk : (k : Int) < totalFrames)
    (hcov : coversCell cmd width height k i)
    (hcolor : parseColor cmd.color = some color)
    (ha : color.a = 255)
    (hafter : ∀ c ∈ after, coversCell c width height k i →
      ∀ col, parseColor c.color = some col → col.a = 0) :
    ((∀ c ∈ before ++ cmd :: after, (parseColor c.color).isSome = true) →
      width * height ≤ 2147483647 →
      ∃ frames, renderAllFrames parseColor blend (before ++ cmd :: after) width height
        totalFrames = some frames) ∧
    ∀ frames, renderAllFrames parseColor blend (before ++ cmd :: after) width height
        totalFrames = some frames →
      ∃ buf, frames[k]? = some buf ∧ buf[i]? = some color := by
  obtain ⟨hs, he, px, hpx, hx1, hx2, hy1, hy2, hi⟩ := hcov
  have hlt := cell_lt width height px ⟨hx1, hx2, hy1, hy2⟩
  rw [hi] at hlt
  constructor
  · intro hall hcells
    have hpos : 0 < width * height := Int.mul_pos (by omega) (by omega)
    have hguard : ¬ ((totalFrames ≤ 0 ∨ width * height < 0 ∨ width * height > 2147483647) ∨
        ¬ ∀ c ∈ before ++ cmd :: after, (parseColor c.color).isSome = true) := by
      intro h
      rcases h with h | h
      · omega
      · exact h hall
    exact ⟨_, by rw [renderAllFrames_eq, if_neg hguard]⟩
  intro frames hrender
  obtain ⟨hguard, hall, hframes⟩ := renderAllFrames_some parseColor blend _ width height
    totalFrames frames hrender
  have hres : (fun s => (parseColor s).getD RGBA.clear) cmd.color = color := by
    simp only [hcolor, Option.getD_some]
  have hafter2 : ∀ c ∈ after, coversCell c width height k i →
      ((fun s => (parseColor s).getD RGBA.clear) c.color).a = 0 := by
    intro c hc hcov
    have hsome := hall c (List.mem_append_right _ (List.mem_cons_of_mem _ hc))
    obtain ⟨col, hcol⟩ := Option.isSome_iff_exists.1 hsome
    simp only [hcol, Option.getD_some]
    exact hafter c hc hcov col hcol
  have hlen : k < (List.replicate totalFrames.toNat
      (List.replicate (width * height).toNat RGBA.clear)).length := by
    rw [List.length_replicate]; omega
  obtain ⟨h1, h2⟩ := foldl_renderCommand_getD (fun s => (parseColor s).getD RGBA.clear) blend
    width height totalFrames k hk (before ++ cmd :: after) _ hlen
  rw [← hframes] at h1 h2
  have hk2 : k < frames.length := by rw [h1]; exact hlen
  refine ⟨_, List.getElem?_eq_getElem hk2, ?_⟩
  rw [List.getD_eq_getElem?_getD, List.getElem?_eq_getElem hk2] at h2
  simp only [Option.getD_some] at h2
  rw [h2]
  have hrep : (List.replicate totalFrames.toNat
      (List.replicate (width * height).toNat RGBA.clear)).getD k [] =
      List.replicate (width * height).toNat RGBA.clear := by
    rw [List.getD_eq_getElem?_getD, List.getElem?_eq_getElem hlen]
    simp
  rw [hrep, List.filter_append, List.filter_cons_of_pos (by simpa using ⟨hs, he⟩),
    List.foldl_append, List.foldl_cons,
    foldl_commands_other (fun s => (parseColor s).getD RGBA.clear) blend width height k i after
      hafter2]
  rw [← hres]
  apply foldl_blendInto_solid blend ((fun s => (parseColor s).getD RGBA.clear) cmd.color)
    (by rw [hres]; exact ha)
    (fun px => ((px.y - 1) * width + (px.x - 1)).toNat) i
  · rw [length_foldl_commands (fun s => (parseColor s).getD RGBA.clear) blend width height,
      List.length_replicate]
    exact hlt
  · left
    exact ⟨px, List.mem_filter.mpr ⟨hpx, by simpa using ⟨hx1, hx2, hy1, hy2⟩⟩, hi⟩

/-- C16, at a concrete input: of three commands on a 2x2 canvas the second, of colour
`#090909`, is the last on cell 0 of frame 1; the first, of colour `rgba(1,2,3,4)`, drew on
the cell before, and the third draws on cell 3. -/
theorem renderAllFrames_last_solid_witness :
    ∃ frames buf,
      renderAllFrames parseColor (fun c _ _ => c)
        ([⟨1, 2, [⟨1, 1⟩], "rgba(1,2,3,4)".toList⟩] ++
          ⟨1, 1, [⟨2, 1⟩, ⟨1, 1⟩], "#090909".toList⟩ ::
          [⟨1, 1, [⟨2, 2⟩], "rgba(1,2,3,5)".toList⟩]) 2 2 2 = some frames ∧
      frames[0]? = some buf ∧ buf[0]? = some ⟨9, 9, 9, 255⟩ := by
  have h := renderAllFrames_last_solid parseColor (fun c _ _ => c)
    [⟨1, 2, [⟨1, 1⟩], "rgba(1,2,3,4)".toList⟩] [⟨1, 1, [⟨2, 2⟩], "rgba(1,2,3,5)".toList⟩]
    ⟨1, 1, [⟨2, 1⟩, ⟨1, 1⟩], "#090909".toList⟩ 2 2 2 0 0 ⟨9, 9, 9, 255⟩
    (by decide)
    ⟨by decide, by decide, ⟨1, 1⟩, by decide, by decide, by decide, by decide, by decide,
      by decide⟩
    (by decide) (by decide)
    (by
      intro c hc hcov
      rw [List.mem_singleton] at hc
      subst hc
      obtain ⟨-, -, px, hpx, -, -, -, -, hi⟩ := hcov
      rw [List.mem_singleton] at hpx
      subst hpx
      revert hi
      decide)
  obtain ⟨frames, hframes⟩ := h.1 (by decide) (by decide)
  obtain ⟨buf, h1, h2⟩ := h.2 frames hframes
  exact ⟨frames, buf, hframes, h1, h2⟩

end HMICB

namespace HMICB

open HMICX

/-! ## The fixed layout of the container -/

/-- The stream after the header and the zero-filled index table. -/
theorem index_zero_fill (width height fps totalFrames : Int) (loop : Bool) (n : Nat) :
    (List.range n).foldl (fun s _ => writeU8 (writeU32 (writeU32 s 0) 0) 0)
        (writeHeader ⟨[], 0⟩ width height fps totalFrames loop) =
      ⟨headerBytes width height fps totalFrames loop ++
          (List.replicate n (entryBytes ⟨0, 0, 0⟩)).flatten,
        32 + 9 * n⟩ := by
  have hstep : ∀ buf : List Byte,
      writeU8 (writeU32 (writeU32 ⟨buf, buf.length⟩ 0) 0) 0 =
        ⟨buf ++ entryBytes ⟨0, 0, 0⟩, (buf ++ entryBytes ⟨0, 0, 0⟩).length⟩ := by
    intro buf
    unfold writeU8
    rw [writeU32_eq, writeU32_eq, write_at_end, write_at_end, write_at_end, List.append_assoc,
      List.append_assoc]
    rfl
  have hzl : ((List.replicate n (entryBytes ⟨0, 0, 0⟩)).flatten).length = 9 * n := by
    rw [List.length_flatten, List.map_replicate, List.sum_replicate, length_entryBytes]
    simp [Nat.mul_comm]
  rw [writeHeader_eq,
    foldl_append_const (fun s => writeU8 (writeU32 (writeU32 s 0) 0) 0) _ hstep,
    List.length_append, hzl, length_headerBytes]

/-- C30: for every frame list of N frames the write position after the fixed header and
the zero-filled index table is 32 + 9 * N, which equals the expected data start in the
32-bit unsigned arithmetic of the check; the check never fires: `writeHMICB` is the frame
loop and the backpatching of the index that follow the check. -/
theorem writeHMICB_data_start (width height fps totalFrames : Int) (loop : Bool)
    (frames : List (List RGBA)) :
    ((List.range frames.length).foldl (fun s _ => writeU8 (writeU32 (writeU32 s 0) 0) 0)
        (writeHeader ⟨[], 0⟩ width height fps totalFrames loop)).tellp =
      32 + 9 * frames.length ∧
    ((List.range frames.length).foldl (fun s _ => writeU8 (writeU32 (writeU32 s 0) 0) 0)
        (writeHeader ⟨[], 0⟩ width height fps totalFrames loop)).tellp % 4294967296 =
      (32 + (frames.length * 9) % 4294967296) % 4294967296 ∧
    writeHMICB width height fps totalFrames loop frames =
      ((List.range frames.length).foldlM (writeFrame frames width)
        ((List.range frames.length).foldl (fun s _ => writeU8 (writeU32 (writeU32 s 0) 0) 0)
            (writeHeader ⟨[], 0⟩ width height fps totalFrames loop),
          List.replicate frames.length ⟨0, 0, 0⟩)).bind (fun st =>
        if frames.length = 0 then none
        else some (st.2.foldl
          (fun s e => writeU8 (writeU32 (writeU32 s e.offset) e.size) e.type)
          (st.1.seekp (writeHeader ⟨[], 0⟩ width height fps totalFrames loop).tellp)).buf) := by
  have h1 : ((List.range frames.length).foldl
      (fun s _ => writeU8 (writeU32 (writeU32 s 0) 0) 0)
      (writeHeader ⟨[], 0⟩ width height fps totalFrames loop)).tellp =
      32 + 9 * frames.length := by
    rw [index_zero_fill]
    rfl
  have h2 : ((List.range frames.length).foldl
      (fun s _ => writeU8 (writeU32 (writeU32 s 0) 0) 0)
      (writeHeader ⟨[], 0⟩ width height fps totalFrames loop)).tellp % 4294967296 =
      (32 + (frames.length * 9) % 4294967296) % 4294967296 := by
    rw [h1]
    omega
  refine ⟨h1, h2, ?_⟩
  unfold writeHMICB
  simp only []
  rw [if_neg (fun h => h h2)]

/-- C23, the counterexample: for the empty frame list `writeHMICB` evaluates `index[0]` of
an empty vector after the header has been written, and has no output.  Nor has it for two
different frames and a width of 0, where `computeDelta` divides by zero. -/
theorem writeHMICB_no_frames :
    writeHMICB 5 5 2 0 true [] = none ∧
      writeHMICB 0 1 2 2 true [[⟨1, 1, 1, 1⟩], [⟨2, 2, 2, 2⟩]] = none := by
  decide

theorem headerBytes_explicit (width height fps totalFrames : Int) (loop : Bool) :
    headerBytes width height fps totalFrames loop =
      [72, 77, 73, 67, 66, 1,
        toByte (width % 65536).toNat, toByte ((width % 65536).toNat / 256),
        toByte (height % 65536).toNat, toByte ((height % 65536).toNat / 256),
        toByte (fps % 65536).toNat, toByte ((fps % 65536).toNat / 256),
        toByte (totalFrames % 4294967296).toNat,
        toByte ((totalFrames % 4294967296).toNat / 256),
        toByte ((totalFrames % 4294967296).toNat / 65536),
        toByte ((totalFrames % 4294967296).toNat / 16777216),
        toByte (if loop then 1 else 0), 1, 0, 0, 0, 0, 0, 0, 0, 0, 0, 0, 0, 0, 0, 0] :=
  rfl

/-- C23, amended: for every input with N ≥ 1 frames on which `writeHMICB` writes a stream
(every non-empty list of frames of one common size with a width of at least 1 is one),
the output begins with the 32 header bytes: the tag `HMICB`, the version byte 1 at offset
5, the loop flag 0 or 1 at offset 16, the flags byte at offset 17 and 14 zero bytes at
offsets 18 to 31 (the 2-byte fields lie at 6, 8, 10 and the 4-byte field at 12); index
entry i occupies the nine bytes from 32 + 9 * i, the first payload begins at 32 + 9 * N,
and the length of the output is 32 + 9 * N plus the sum of the payload sizes. -/
theorem writeHMICB_layout (width height fps totalFrames : Int) (loop : Bool)
    (frames : List (List RGBA)) :
    (frames ≠ [] → 1 ≤ width → width ≤ 2147483647 → (∃ n, ∀ f ∈ frames, f.length = n) →
      ∃ out, writeHMICB width height fps totalFrames loop frames = some out) ∧
    ∀ out, writeHMICB width height fps totalFrames loop frames = some out →
      1 ≤ frames.length ∧
      out.take 5 = [72, 77, 73, 67, 66] ∧
      readU8 out 5 = 1 ∧
      readU16 out 6 = (width % 65536).toNat ∧
      readU16 out 8 = (height % 65536).toNat ∧
      readU16 out 10 = (fps % 65536).toNat ∧
      readU32 out 12 = (totalFrames % 4294967296).toNat ∧
      readU8 out 16 = (if loop then 1 else 0) ∧
      readU8 out 17 = 1 ∧
      (out.drop 18).take 14 = List.replicate 14 0 ∧
      (∀ i, i < frames.length →
        byteSlice out (32 + 9 * i) 9 = entryBytes (frameEntry frames width i)) ∧
      byteSlice out (32 + 9 * frames.length) (framePayload frames width 0).length =
        framePayload frames width 0 ∧
      out.length = 32 + 9 * frames.length +
        ((List.range frames.length).map (fun i => (framePayload frames width i).length)).sum := by
  constructor
  · rintro hne hw1 hw2 ⟨n, hcells⟩
    exact ⟨_, writeHMICB_eq width height fps totalFrames loop frames hne
      (writable_of_uniform frames width n hcells (width_ne_zero width hw1 hw2))⟩
  intro out hout
  have hne := (writeHMICB_defined width height fps totalFrames loop frames out hout).1
  have hform := writeHMICB_out width height fps totalFrames loop frames out hout
  have hpos : 0 < frames.length := List.length_pos.mpr hne
  obtain ⟨hr1, hr2, hr3, hr4, hr5⟩ :=
    header_read width height fps totalFrames loop frames hne _ hout
  refine ⟨hpos, ?_, ?_, hr1, hr2, hr3, hr4, hr5, ?_, ?_, ?_, ?_, ?_⟩
  · rw [hform, headerBytes_explicit]; rfl
  · rw [hform, headerBytes_explicit]; rfl
  · rw [hform, headerBytes_explicit]; rfl
  · rw [hform, headerBytes_explicit]; rfl
  · intro i hi
    rw [hform]
    unfold byteSlice
    have h32 : (headerBytes width height fps totalFrames loop).length = 32 :=
      length_headerBytes _ _ _ _ _
    rw [List.append_assoc, flatMap_range_split _ frames.length i hi]
    have hpre : (headerBytes width height fps totalFrames loop ++
        (List.range i).flatMap (fun j => entryBytes (frameEntry frames width j))).length =
        32 + 9 * i := by
      rw [List.length_append, h32, length_index_before]
    rw [List.append_assoc, ← List.append_assoc (headerBytes width height fps totalFrames loop),
      ← hpre, List.drop_left]
    have h9 : (entryBytes (frameEntry frames width i)).length = 9 := length_entryBytes _
    rw [List.append_assoc, ← h9, List.take_left]
  · have h := (payload_slice width height fps totalFrames loop frames 0 hpos _ hout).1
    have h0 : payloadStart frames width 0 = 32 + 9 * frames.length := by
      unfold payloadStart
      simp
    rw [h0] at h
    exact h
  · exact length_writeHMICB width height fps totalFrames loop frames hne _ hout

/-- C23, amended, at a concrete input: one frame of one cell gives 32 + 9 + 4 bytes, the
index entry (41, 4, Full) and the payload 1, 2, 3, 4. -/
theorem writeHMICB_layout_witness :
    ∃ out, writeHMICB 1 1 2 1 true [[⟨1, 2, 3, 4⟩]] = some out ∧
      out.take 5 = [72, 77, 73, 67, 66] ∧
      readU8 out 5 = 1 ∧
      readU16 out 6 = 1 ∧ readU16 out 8 = 1 ∧ readU16 out 10 = 2 ∧ readU32 out 12 = 1 ∧
      readU8 out 16 = 1 ∧ readU8 out 17 = 1 ∧
      (out.drop 18).take 14 = List.replicate 14 0 ∧
      byteSlice out 32 9 = [41, 0, 0, 0, 4, 0, 0, 0, 0] ∧
      byteSlice out 41 4 = [1, 2, 3, 4] ∧
      out.length = 45 := by
  obtain ⟨out, hout⟩ := (writeHMICB_layout 1 1 2 1 true [[⟨1, 2, 3, 4⟩]]).1
    (by decide) (by decide) (by decide) ⟨1, by decide⟩
  obtain ⟨-, h1, h2, h3, h4, h5, h6, h7, h8, h9, h10, h11, h12⟩ :=
    (writeHMICB_layout 1 1 2 1 true [[⟨1, 2, 3, 4⟩]]).2 out hout
  exact ⟨out, hout, h1, h2, h3.trans (by decide), h4.trans (by decide), h5.trans (by decide),
    h6.trans (by decide), h7.trans (by decide), h8, h9, (h10 0 (by decide)).trans (by decide),
    h11.trans (by decide), h12.trans (by decide)⟩

/-- C22, the counterexample: one frame of one cell written with width 2 and height 2.  The
stream has 32 + 9 + 4 bytes: the Full payload is the four bytes of the one cell, not
4 * 2 * 2 bytes. -/
theorem writeHMICB_full_payload_size :
    ∃ out, writeHMICB 2 2 2 1 true [[⟨1, 2, 3, 4⟩]] = some out ∧
      out.length = 32 + 9 + 4 ∧ indexKind out 0 = 0 ∧ indexSize out 0 = 4 ∧
      byteSlice out 41 4 = [1, 2, 3, 4] ∧ (4 : Nat) ≠ 4 * 2 * 2 := by
  have hne : [[(⟨1, 2, 3, 4⟩ : RGBA)]] ≠ [] := by decide
  have hwr : Writable [[(⟨1, 2, 3, 4⟩ : RGBA)]] 2 :=
    writable_of_uniform _ 2 1 (by decide) (by decide)
  have hout := writeHMICB_eq 2 2 2 1 true [[(⟨1, 2, 3, 4⟩ : RGBA)]] hne hwr
  obtain ⟨-, h2, h3⟩ := index_entry_read 2 2 2 1 true [[(⟨1, 2, 3, 4⟩ : RGBA)]] 0 (by decide)
    _ hout
  have h4 := (payload_slice 2 2 2 1 true [[(⟨1, 2, 3, 4⟩ : RGBA)]] 0 (by decide) _ hout).1
  exact ⟨_, hout,
    (length_writeHMICB 2 2 2 1 true [[(⟨1, 2, 3, 4⟩ : RGBA)]] hne _ hout).trans (by decide),
    h3.trans (by decide), h2.trans (by decide), h4, by decide⟩

/-- C22, amended: for every frame list whose frames have width * height cells and on
which `writeHMICB` writes a stream (it does when the list is not empty and the width is at
least 1), frame i is recorded with kind 0 (Full) exactly when i mod 10 = 0 and with kind 1
(Delta) otherwise; the payload of a Full frame is the 4 * width * height bytes r, g, b, a
of its cells in order, and the payload of a Delta frame is what `computeDelta` returns for
frame i - 1 and frame i, the Delta payload of the two frames. -/
theorem writeHMICB_kinds (width height fps totalFrames : Int) (loop : Bool)
    (frames : List (List RGBA))
    (hcells : ∀ f ∈ frames, (f.length : Int) = width * height) :
    (frames ≠ [] → 1 ≤ width → width ≤ 2147483647 →
      ∃ out, writeHMICB width height fps totalFrames loop frames = some out) ∧
    ∀ out, writeHMICB width height fps totalFrames loop frames = some out →
      ∀ i, i < frames.length →
        (indexKind out i = 0 ↔ i % 10 = 0) ∧ (indexKind out i = 1 ↔ i % 10 ≠ 0) ∧
        (i % 10 = 0 →
          byteSlice out (payloadStart frames width i) (4 * (width * height).toNat) =
            fullBytes (frames.getD i []) ∧
          (fullBytes (frames.getD i [])).length = 4 * (width * height).toNat ∧
          decodeFull (byteSlice out (payloadStart frames width i) (4 * (width * height).toNat)) =
            frames.getD i []) ∧
        (i % 10 ≠ 0 →
          computeDelta (frames.getD (i - 1) []) (frames.getD i [])
              (width % 18446744073709551616).toNat =
            some (deltaBytes (frames.getD (i - 1) []) (frames.getD i [])
              (width % 18446744073709551616).toNat) ∧
          byteSlice out (payloadStart frames width i)
              (deltaBytes (frames.getD (i - 1) []) (frames.getD i [])
                (width % 18446744073709551616).toNat).length =
            deltaBytes (frames.getD (i - 1) []) (frames.getD i [])
              (width % 18446744073709551616).toNat) := by
  have hcells2 : ∀ f ∈ frames, f.length = (width * height).toNat := by
    intro f hf
    have := hcells f hf
    omega
  constructor
  · intro hne hw1 hw2
    exact ⟨_, writeHMICB_eq width height fps totalFrames loop frames hne
      (writable_of_uniform frames width _ hcells2 (width_ne_zero width hw1 hw2))⟩
  intro out hout i hi
  obtain ⟨-, hwr⟩ := writeHMICB_defined width height fps totalFrames loop frames out hout
  obtain ⟨-, -, hkind⟩ := index_entry_read width height fps totalFrames loop frames i hi _ hout
  have hpay := (payload_slice width height fps totalFrames loop frames i hi out hout).1
  rw [hkind]
  unfold frameKind
  unfold framePayload at hpay
  by_cases h10 : i % 10 = 0
  · have hor : i = 0 ∨ i % 10 = 0 := Or.inr h10
    rw [if_pos hor]
    rw [if_pos hor] at hpay
    have hmem : frames.getD i [] ∈ frames := by
      rw [List.getD_eq_getElem?_getD, List.getElem?_eq_getElem hi]
      exact List.getElem_mem _
    have hlen : (fullBytes (frames.getD i [])).length = 4 * (width * height).toNat := by
      rw [length_fullBytes, hcells2 _ hmem]
      omega
    rw [hlen] at hpay
    refine ⟨by simp [h10], by simp [h10], fun _ => ⟨hpay, hlen, ?_⟩, fun h => absurd h10 h⟩
    rw [hpay, decodeFull_fullBytes]
  · have hor : ¬ (i = 0 ∨ i % 10 = 0) := by omega
    rw [if_neg hor]
    rw [if_neg hor] at hpay
    exact ⟨by simp [h10], by simp [h10], fun h => absurd h h10,
      fun _ => ⟨computeDelta_of_defined _ _ _ (hwr i hi hor), hpay⟩⟩

/-- C22, amended, at a concrete input: two frames of a 1x1 canvas.  Frame 0 is Full with
the payload 1, 2, 3, 4 at byte 50; frame 1 is Delta with one record for cell (0, 0) at
byte 54. -/
theorem writeHMICB_kinds_witness :
    ∃ out, writeHMICB 1 1 2 2 true [[⟨1, 2, 3, 4⟩], [⟨5, 6, 7, 8⟩]] = some out ∧
      indexKind out 0 = 0 ∧ indexKind out 1 = 1 ∧
      byteSlice out 50 4 = [1, 2, 3, 4] ∧
      computeDelta [⟨1, 2, 3, 4⟩] [⟨5, 6, 7, 8⟩] 1 = some [1, 0, 0, 0, 0, 0, 0, 0, 5, 6, 7, 8] ∧
      byteSlice out 54 12 = [1, 0, 0, 0, 0, 0, 0, 0, 5, 6, 7, 8] := by
  obtain ⟨out, hout⟩ :=
    (writeHMICB_kinds 1 1 2 2 true [[⟨1, 2, 3, 4⟩], [⟨5, 6, 7, 8⟩]] (by decide)).1
      (by decide) (by decide) (by decide)
  have h := (writeHMICB_kinds 1 1 2 2 true [[⟨1, 2, 3, 4⟩], [⟨5, 6, 7, 8⟩]] (by decide)).2
    out hout
  obtain ⟨k0, -, f0, -⟩ := h 0 (by decide)
  obtain ⟨-, k1, -, d1⟩ := h 1 (by decide)
  obtain ⟨p0, -, -⟩ := f0 (by decide)
  obtain ⟨c1, p1⟩ := d1 (by decide)
  exact ⟨out, hout, k0.2 (by decide), k1.2 (by decide), p0, c1, p1⟩

end HMICB

namespace HMICB

open HMICX

/-! ## The delta payload -/

theorem readU32_bytes (k : Nat) (rest : List Byte) :
    readU32 ([toByte k, toByte (k / 256), toByte (k / 65536), toByte (k / 16777216)] ++ rest) 0 =
      k % 4294967296 := by
  unfold readU32 readU8
  simp only [List.cons_append, List.getD_cons_zero, List.getD_cons_succ, toByte_val]
  omega

theorem readU16_bytes (x : Nat) (rest : List Byte) :
    readU16 (toByte x :: toByte (x / 256) :: rest) 0 = x % 65536 := by
  unfold readU16 readU8
  simp only [List.getD_cons_zero, List.getD_cons_succ, toByte_val]
  omega

theorem length_recordBytes (curr : List RGBA) (width i : Nat) :
    (recordBytes curr width i).length = 8 := rfl

theorem length_flatMap_recordBytes (curr : List RGBA) (width : Nat) (L : List Nat) :
    (L.flatMap (recordBytes curr width)).length = 8 * L.length := by
  induction L with
  | nil => rfl
  | cons i L ih =>
    rw [List.flatMap_cons, List.length_append, ih, length_recordBytes, List.length_cons]
    omega

/-- The record of the `j`-th cell of the list begins at byte `8 * j` of the records. -/
theorem drop_flatMap_recordBytes (curr : List RGBA) (width : Nat) :
    ∀ (L : List Nat) (j : Nat) (hj : j < L.length),
      ∃ rest, (L.flatMap (recordBytes curr width)).drop (8 * j) =
        recordBytes curr width (L.get ⟨j, hj⟩) ++ rest := by
  intro L
  induction L with
  | nil => intro j hj; cases hj
  | cons i L ih =>
    intro j hj
    cases j with
    | zero => exact ⟨_, rfl⟩
    | succ j =>
      obtain ⟨rest, hrest⟩ := ih j (by simpa using hj)
      refine ⟨rest, ?_⟩
      rw [List.flatMap_cons, show 8 * (j + 1) = (recordBytes curr width i).length + 8 * j by
        rw [length_recordBytes]; omega, List.drop_append, hrest]
      rfl

theorem deltaBytes_eq (prev curr : List RGBA) (width : Nat) :
    deltaBytes prev curr width =
      [toByte (differingCells prev curr).length, toByte ((differingCells prev curr).length / 256),
        toByte ((differingCells prev curr).length / 65536),
        toByte ((differingCells prev curr).length / 16777216)] ++
      (differingCells prev curr).flatMap (recordBytes curr width) :=
  rfl

theorem differingCells_lt (prev curr : List RGBA) :
    ∀ i ∈ differingCells prev curr, i < curr.length := by
  intro i hi
  unfold differingCells at hi
  exact List.mem_range.mp (List.mem_filter.mp hi).1

theorem differingCells_eq_nil (prev curr : List RGBA) (hlen : prev.length = curr.length) :
    differingCells prev curr = [] ↔ prev = curr := by
  unfold differingCells
  rw [List.filter_eq_nil_iff]
  constructor
  · intro h
    apply List.ext_getElem? 
    intro i
    by_cases hi : i < curr.length
    · have := h i (List.mem_range.mpr hi)
      simpa using this
    · rw [List.getElem?_eq_none (by omega), List.getElem?_eq_none (by omega)]
  · intro h i _
    rw [h]
    simp

end HMICB

namespace HMICB

open HMICX

theorem differingCells_last (n : Nat) (c d : RGBA) (hcd : c ≠ d) :
    differingCells (List.replicate (n + 1) c) (List.replicate n c ++ [d]) = [n] := by
  unfold differingCells
  have hl : (List.replicate n c ++ [d]).length = n + 1 := by simp
  rw [hl, List.range_succ, List.filter_append]
  have h1 : (List.range n).filter
      (fun i => decide ((List.replicate (n + 1) c)[i]? ≠ (List.replicate n c ++ [d])[i]?)) =
      [] := by
    rw [List.filter_eq_nil_iff]
    intro i hi
    rw [List.mem_range] at hi
    have ha : (List.replicate (n + 1) c)[i]? = some c := by
      rw [List.getElem?_replicate]
      simp
      omega
    have hb : (List.replicate n c ++ [d])[i]? = some c := by
      rw [List.getElem?_append_left (by simpa using hi), List.getElem?_replicate]
      simp [hi]
    rw [ha, hb]
    simp
  have h2 : [n].filter
      (fun i => decide ((List.replicate (n + 1) c)[i]? ≠ (List.replicate n c ++ [d])[i]?)) =
      [n] := by
    have ha : (List.replicate (n + 1) c)[n]? = some c := by
      rw [List.getElem?_replicate]
      simp
    have hb : (List.replicate n c ++ [d])[n]? = some d := by
      rw [List.getElem?_append_right (by simp)]
      simp
    simp [ha, hb, hcd]
  rw [h1, h2]
  rfl

theorem deltaBytes_last (n : Nat) (c d : RGBA) (hcd : c ≠ d) (width : Nat) :
    deltaBytes (List.replicate (n + 1) c) (List.replicate n c ++ [d]) width =
      [1, 0, 0, 0] ++ recordBytes (List.replicate n c ++ [d]) width n := by
  rw [deltaBytes_eq, differingCells_last n c d hcd]
  simp only [List.flatMap_cons, List.flatMap_nil, List.append_nil, List.length_singleton]
  rfl

/-- Reading back a record that begins at byte `off` of a payload. -/
theorem read_recordBytes (out rest : List Byte) (off : Nat) (curr : List RGBA) (width i : Nat)
    (h : out.drop off = recordBytes curr width i ++ rest) :
    readU16 out off = (i % width) % 65536 ∧ readU16 out (off + 2) = (i / width) % 65536 ∧
    byteSlice out (off + 4) 4 =
      [(curr.getD i RGBA.clear).r, (curr.getD i RGBA.clear).g, (curr.getD i RGBA.clear).b,
        (curr.getD i RGBA.clear).a] := by
  refine ⟨?_, ?_, ?_⟩
  · have := readU16_add out off 0
    rw [Nat.add_zero] at this
    rw [this, h]
    unfold recordBytes
    simp only [List.cons_append]
    rw [readU16_bytes]
    omega
  · rw [readU16_add out off 2, h]
    unfold recordBytes
    simp only [List.cons_append]
    have := readU16_add (toByte (i % width % 65536) :: toByte (i % width % 65536 / 256) ::
      toByte (i / width % 65536) :: toByte (i / width % 65536 / 256) ::
      (curr.getD i RGBA.clear).r :: (curr.getD i RGBA.clear).g :: (curr.getD i RGBA.clear).b ::
      (curr.getD i RGBA.clear).a :: ([] ++ rest)) 2 0
    rw [Nat.add_zero] at this
    rw [this]
    simp only [List.drop_succ_cons, List.drop_zero]
    rw [readU16_bytes]
    omega
  · unfold byteSlice
    rw [← List.drop_drop, h]
    rfl

/-- C21, the counterexample: in two buffers of 65537 cells and width 1 that differ in the
last cell only, the differing cell has linear index 65536, so its row is 65536; the record
stores the row in two bytes, and what is read back is 0. -/
theorem computeDelta_row_truncated :
    differingCells (List.replicate (65536 + 1) RGBA.clear)
        (List.replicate 65536 RGBA.clear ++ [RGBA.white]) = [65536] ∧
      (computeDelta (List.replicate (65536 + 1) RGBA.clear)
        (List.replicate 65536 RGBA.clear ++ [RGBA.white]) 1).map
          (fun out => readU16 out (4 + 8 * 0 + 2)) = some 0 ∧
      65536 / 1 ≠ 0 := by
  refine ⟨differingCells_last 65536 _ _ (by decide), ?_, by decide⟩
  rw [computeDelta_of_defined _ _ 1 (deltaDefined_of_length _ _ 1
      (by rw [List.length_append, List.length_replicate, List.length_replicate,
        List.length_singleton])
      (by decide)),
    deltaBytes_last 65536 _ _ (by decide) 1]
  have h := (read_recordBytes
    ([1, 0, 0, 0] ++ recordBytes (List.replicate 65536 RGBA.clear ++ [RGBA.white]) 1 65536) []
    4 (List.replicate 65536 RGBA.clear ++ [RGBA.white]) 1 65536
    (by rw [List.append_nil]; rfl)).2.1
  exact congrArg some h

/-- C21, amended: for buffers of equal length below 2^32 cells and a width from 1 to
65536 with at most 65536 rows, `computeDelta` produces 4 + 8 * k bytes, k the number of
differing cells; the first four bytes are k, low byte first, and the j-th record holds for
the j-th differing cell i, in increasing order of i, the column i mod width and the row
i div width in two bytes each, low byte first, then the bytes r, g, b, a of the cell
in `curr`; k is 0 exactly when the buffers are equal. -/
theorem computeDelta_spec (prev curr : List RGBA) (width : Nat)
    (hlen : prev.length = curr.length) (hw : 1 ≤ width) (hx : width ≤ 65536)
    (hy : curr.length ≤ 65536 * width) (hk : curr.length < 4294967296) :
    ∃ out, computeDelta prev curr width = some out ∧
    out.length = 4 + 8 * (differingCells prev curr).length ∧
    readU32 out 0 = (differingCells prev curr).length ∧
    (∀ (j : Nat) (hj : j < (differingCells prev curr).length),
      readU16 out (4 + 8 * j) = (differingCells prev curr).get ⟨j, hj⟩ % width ∧
      readU16 out (4 + 8 * j + 2) = (differingCells prev curr).get ⟨j, hj⟩ / width ∧
      ∃ c, curr[(differingCells prev curr).get ⟨j, hj⟩]? = some c ∧
        byteSlice out (4 + 8 * j + 4) 4 = [c.r, c.g, c.b, c.a]) ∧
    (differingCells prev curr).Pairwise (fun a b => a < b) ∧
    ((differingCells prev curr).length = 0 ↔ prev = curr) := by
  have hD := differingCells_lt prev curr
  have hDlen := length_differingCells_le prev curr
  refine ⟨_, computeDelta_of_defined prev curr width
    (deltaDefined_of_length prev curr width (by omega) (by omega)), ?_, ?_, ?_, ?_, ?_⟩
  · rw [deltaBytes_eq prev curr width, List.length_append, length_flatMap_recordBytes]
    rfl
  · rw [deltaBytes_eq prev curr width, readU32_bytes]
    omega
  · intro j hj
    have hi := hD _ (List.get_mem (differingCells prev curr) j hj)
    obtain ⟨rest, hrest⟩ := drop_flatMap_recordBytes curr width (differingCells prev curr) j hj
    have hdrop : (deltaBytes prev curr width).drop (4 + 8 * j) =
        recordBytes curr width ((differingCells prev curr).get ⟨j, hj⟩) ++ rest := by
      rw [← hrest, ← List.drop_drop, deltaBytes_drop]
    obtain ⟨h1, h2, h3⟩ := read_recordBytes _ _ _ _ _ _ hdrop
    generalize (differingCells prev curr).get ⟨j, hj⟩ = i at hi h1 h2 h3
    have hxi : i % width < 65536 := Nat.lt_of_lt_of_le (Nat.mod_lt _ (by omega)) hx
    have hyi : i / width < 65536 :=
      Nat.div_lt_of_lt_mul (by rw [Nat.mul_comm]; omega)
    refine ⟨by rw [h1]; exact Nat.mod_eq_of_lt hxi, by rw [h2]; exact Nat.mod_eq_of_lt hyi,
      curr.getD i RGBA.clear, ?_, h3⟩
    rw [List.getD_eq_getElem?_getD, List.getElem?_eq_getElem hi]
    rfl
  · unfold differingCells
    exact List.Pairwise.filter _ (List.pairwise_lt_range _)
  · rw [List.length_eq_zero]
    exact differingCells_eq_nil prev curr hlen

/-- C21, amended, at a concrete input: two buffers of a 2x2 canvas that differ in cells 1
and 3. -/
theorem computeDelta_spec_witness :
    ∃ out, computeDelta [⟨1, 1, 1, 1⟩, ⟨2, 2, 2, 2⟩, ⟨3, 3, 3, 3⟩, ⟨4, 4, 4, 4⟩]
        [⟨1, 1, 1, 1⟩, ⟨9, 2, 2, 2⟩, ⟨3, 3, 3, 3⟩, ⟨4, 4, 4, 9⟩] 2 = some out ∧
      out.length =
        4 + 8 * (differingCells [⟨1, 1, 1, 1⟩, ⟨2, 2, 2, 2⟩, ⟨3, 3, 3, 3⟩, ⟨4, 4, 4, 4⟩]
          [⟨1, 1, 1, 1⟩, ⟨9, 2, 2, 2⟩, ⟨3, 3, 3, 3⟩, ⟨4, 4, 4, 9⟩]).length ∧
      differingCells [⟨1, 1, 1, 1⟩, ⟨2, 2, 2, 2⟩, ⟨3, 3, 3, 3⟩, ⟨4, 4, 4, 4⟩]
        [⟨1, 1, 1, 1⟩, ⟨9, 2, 2, 2⟩, ⟨3, 3, 3, 3⟩, ⟨4, 4, 4, 9⟩] = [1, 3] ∧
      out = [2, 0, 0, 0, 1, 0, 0, 0, 9, 2, 2, 2, 1, 0, 1, 0, 4, 4, 4, 9] :=
  (computeDelta_spec [⟨1, 1, 1, 1⟩, ⟨2, 2, 2, 2⟩, ⟨3, 3, 3, 3⟩, ⟨4, 4, 4, 4⟩]
      [⟨1, 1, 1, 1⟩, ⟨9, 2, 2, 2⟩, ⟨3, 3, 3, 3⟩, ⟨4, 4, 4, 9⟩] 2 (by decide) (by decide)
      (by decide) (by decide) (by decide)).elim
    (fun out h => ⟨out, h.1, h.2.1, by decide,
      Option.some.inj (h.1.symm.trans (by decide))⟩)

end HMICB

namespace HMICB

open HMICX

/-! ## The order of the pixels of a command -/

theorem getD_set_ne (buf : List RGBA) (i j : Nat) (v : RGBA) (h : i ≠ j) :
    (buf.set i v).getD j RGBA.clear = buf.getD j RGBA.clear := by
  rw [List.getD_eq_getElem?_getD, List.getD_eq_getElem?_getD, List.getElem?_set_ne h]

/-- Blending one colour into two cells gives the same buffer in either order. -/
theorem blendInto_comm (blend : Byte → Byte → Byte → Byte) (color : RGBA) (buf : List RGBA)
    (i j : Nat) :
    blendInto blend color (blendInto blend color buf i) j =
      blendInto blend color (blendInto blend color buf j) i := by
  by_cases hij : i = j
  · rw [hij]
  · have hji : j ≠ i := fun h => hij h.symm
    unfold blendInto
    by_cases h255 : color.a = 255
    · simp only [if_pos h255]
      exact List.set_comm _ _ _ hij
    · by_cases h0 : color.a = 0
      · simp only [if_neg h255, if_pos h0]
      · simp only [if_neg h255, if_neg h0, getD_set_ne _ _ _ _ hij, getD_set_ne _ _ _ _ hji]
        exact List.set_comm _ _ _ hij

theorem drawPixel_comm (blend : Byte → Byte → Byte → Byte) (color : RGBA) (width height : Int)
    (buf : List RGBA) (p q : Pixel) :
    drawPixel blend color width height (drawPixel blend color width height buf p) q =
      drawPixel blend color width height (drawPixel blend color width height buf q) p := by
  simp only [drawPixel_eq]
  by_cases hp : 1 ≤ p.x ∧ p.x ≤ width ∧ 1 ≤ p.y ∧ p.y ≤ height
  · by_cases hq : 1 ≤ q.x ∧ q.x ≤ width ∧ 1 ≤ q.y ∧ q.y ≤ height
    · simp only [if_pos hp, if_pos hq]
      exact blendInto_comm blend color buf _ _
    · simp only [if_pos hp, if_neg hq]
  · by_cases hq : 1 ≤ q.x ∧ q.x ≤ width ∧ 1 ≤ q.y ∧ q.y ≤ height
    · simp only [if_neg hp, if_pos hq]
    · simp only [if_neg hp, if_neg hq]

theorem renderCommand_perm (blend : Byte → Byte → Byte → Byte)
    (width height totalFrames : Int) (color : RGBA) (frames : List (List RGBA)) (cmd : Command)
    (pixels : List Pixel) (hperm : cmd.pixels.Perm pixels) :
    renderCommand blend width height totalFrames color frames cmd =
      renderCommand blend width height totalFrames color frames
        ⟨cmd.start, cmd.end_, pixels, cmd.color⟩ := by
  unfold renderCommand
  have h : ∀ buf : List RGBA,
      cmd.pixels.foldl (drawPixel blend color width height) buf =
        pixels.foldl (drawPixel blend color width height) buf :=
    fun buf => List.Perm.foldl_eq' hperm
      (fun p _ q _ b => drawPixel_comm blend color width height b p q) buf
  simp only [h]

/-- C29: for every command list, replacing the pixel list of one command by a permutation
of itself leaves the result of `renderAllFrames` unchanged, for every colour and every
channel-mixing function. -/
theorem renderAllFrames_pixel_order (parseColor : List Char → Option RGBA)
    (blend : Byte → Byte → Byte → Byte) (before after : List Command) (cmd : Command)
    (pixels : List Pixel) (hperm : cmd.pixels.Perm pixels)
    (width height totalFrames : Int) :
    renderAllFrames parseColor blend (before ++ cmd :: after) width height totalFrames =
      renderAllFrames parseColor blend
        (before ++ ⟨cmd.start, cmd.end_, pixels, cmd.color⟩ :: after)
        width height totalFrames := by
  unfold renderAllFrames
  split
  · rfl
  · rw [List.foldlM_append, List.foldlM_append]
    congr 1
    funext frames
    rw [List.foldlM_cons, List.foldlM_cons]
    cases hc : parseColor cmd.color with
    | none => rfl
    | some c =>
      simp only [Option.map_some', Option.bind_eq_bind, Option.some_bind]
      rw [renderCommand_perm blend width height totalFrames c frames cmd pixels hperm]

/-- C29, at a concrete input: two pixels of a half-transparent command exchanged, one of
them drawn twice. -/
theorem renderAllFrames_pixel_order_witness :
    renderAllFrames parseColor (fun c a bg => c + a + bg)
        ([] ++ ⟨1, 1, [⟨1, 1⟩, ⟨2, 1⟩, ⟨1, 1⟩], "rgba(10,20,30,128)".toList⟩ :: []) 2 1 1 =
      renderAllFrames parseColor (fun c a bg => c + a + bg)
        ([] ++ ⟨(⟨1, 1, [⟨1, 1⟩, ⟨2, 1⟩, ⟨1, 1⟩], "rgba(10,20,30,128)".toList⟩ : Command).start,
          (⟨1, 1, [⟨1, 1⟩, ⟨2, 1⟩, ⟨1, 1⟩], "rgba(10,20,30,128)".toList⟩ : Command).end_,
          [⟨2, 1⟩, ⟨1, 1⟩, ⟨1, 1⟩],
          (⟨1, 1, [⟨1, 1⟩, ⟨2, 1⟩, ⟨1, 1⟩], "rgba(10,20,30,128)".toList⟩ : Command).color⟩ ::
          []) 2 1 1 :=
  renderAllFrames_pixel_order parseColor (fun c a bg => c + a + bg) []
    [] ⟨1, 1, [⟨1, 1⟩, ⟨2, 1⟩, ⟨1, 1⟩], "rgba(10,20,30,128)".toList⟩ [⟨2, 1⟩, ⟨1, 1⟩, ⟨1, 1⟩]
    (List.Perm.swap _ _ _) 2 1 1

end HMICB

namespace HMICX

/-! ## Commands without pixels -/

theorem parseFrameBodyLoop_pixels (body : List Char) (start end_ : Int) :
    ∀ (fuel pos : Nat) (commands result : List Command),
      (∀ c ∈ commands, c.pixels ≠ []) →
      parseFrameBodyLoop body start end_ fuel pos commands = some result →
      ∀ c ∈ result, c.pixels ≠ [] := by
  intro fuel
  induction fuel with
  | zero =>
    intro pos commands result _ h
    simp [parseFrameBodyLoop] at h
  | succ k ih =>
    intro pos commands result hc h
    unfold parseFrameBodyLoop at h
    by_cases hp : pos < body.length
    · rw [if_pos hp] at h
      cases hd : detectColor body pos with
      | none =>
        rw [hd] at h
        exact ih _ _ _ hc h
      | some cp =>
        obtain ⟨color, pos0⟩ := cp
        rw [hd] at h
        dsimp only at h
        by_cases he : color.isEmpty = true
        · rw [if_pos he] at h
          exact ih _ _ _ hc h
        · rw [if_neg he] at h
          by_cases h1 : skipSpaces body pos0 ≥ body.length
          · rw [if_pos h1] at h
            cases h
            exact hc
          · rw [if_neg h1] at h
            by_cases h2 : charAt body (skipSpaces body pos0) ≠ '{'
            · rw [if_pos h2] at h
              exact ih _ _ _ hc h
            · rw [if_neg h2] at h
              cases hb : findMatchingBrace body (skipSpaces body pos0) with
              | none =>
                rw [hb] at h
                cases h
                exact hc
              | some blockEnd =>
                rw [hb] at h
                dsimp only at h
                cases hpx : parsePixels (slice body (skipSpaces body pos0 + 1) blockEnd) with
                | none =>
                  rw [hpx] at h
                  cases h
                | some pixels =>
                  rw [hpx] at h
                  simp only [Option.some_bind, Option.bind] at h
                  refine ih _ _ _ ?_ h
                  by_cases hpe : pixels.isEmpty = true
                  · rw [if_pos hpe]
                    exact hc
                  · rw [if_neg hpe]
                    intro c hmem
                    rcases List.mem_append.mp hmem with hm | hm
                    · exact hc c hm
                    · rw [List.mem_singleton] at hm
                      rw [hm]
                      intro hnil
                      apply hpe
                      show pixels.isEmpty = true
                      have : pixels = [] := hnil
                      rw [this]
                      rfl
    · rw [if_neg hp] at h
      cases h
      exact hc

theorem parseFramesLoop_pixels (data : List Char) :
    ∀ (fuel pos : Nat) (commands result : List Command),
      (∀ c ∈ commands, c.pixels ≠ []) →
      parseFramesLoop data fuel pos commands = some result →
      ∀ c ∈ result, c.pixels ≠ [] := by
  intro fuel
  induction fuel with
  | zero =>
    intro pos commands result _ h
    simp [parseFramesLoop] at h
  | succ k ih =>
    intro pos commands result hc h
    unfold parseFramesLoop at h
    by_cases hp : pos + 1 < data.length
    · rw [if_pos hp] at h
      by_cases hm : (charAt data pos = 'F' ∨ charAt data pos = 'f') ∧
          isdigit (charAt data (pos + 1)) = true
      · rw [if_pos hm] at h
        dsimp only at h
        generalize (if (fastExtractNumber data (pos + 1)).2 < data.length ∧
            charAt data (fastExtractNumber data (pos + 1)).2 = '-' then
            fastExtractNumber data ((fastExtractNumber data (pos + 1)).2 + 1)
          else ((fastExtractNumber data (pos + 1)).1, (fastExtractNumber data (pos + 1)).2)) =
          re at h
        by_cases h1 : skipSpaces data re.2 ≥ data.length
        · rw [if_pos h1] at h
          exact ih _ _ _ hc h
        · rw [if_neg h1] at h
          by_cases h2 : charAt data (skipSpaces data re.2) ≠ '{'
          · rw [if_pos h2] at h
            exact ih _ _ _ hc h
          · rw [if_neg h2] at h
            cases hb : findMatchingBrace data (skipSpaces data re.2) with
            | none =>
              rw [hb] at h
              exact ih _ _ _ hc h
            | some frameEnd =>
              rw [hb] at h
              dsimp only at h
              by_cases h3 : frameEnd - skipSpaces data re.2 - 1 > 0
              · rw [if_pos h3] at h
                cases hfb : parseFrameBody (slice data (skipSpaces data re.2 + 1) frameEnd)
                    (fastExtractNumber data (pos + 1)).1 re.1 commands with
                | none =>
                  rw [hfb] at h
                  cases h
                | some commands1 =>
                  rw [hfb] at h
                  simp only [Option.some_bind, Option.bind] at h
                  exact ih _ _ _ (parseFrameBodyLoop_pixels _ _ _ _ _ _ _ hc hfb) h
              · rw [if_neg h3] at h
                exact ih _ _ _ hc h
      · rw [if_neg hm] at h
        exact ih _ _ _ hc h
    · rw [if_neg hp] at h
      cases h
      exact hc

/-- C28: every command of the list `parse` returns has a pixel list that is not empty, so
filtering out the commands without pixels returns the list unchanged. -/
theorem parse_commands_have_pixels (content : List Char) (header : HeaderMap)
    (commands : List Command) (h : parse content = some (header, commands)) :
    (∀ c ∈ commands, c.pixels ≠ []) ∧
      commands.filter (fun cmd => !cmd.pixels.isEmpty) = commands := by
  have hall : ∀ c ∈ commands, c.pixels ≠ [] := by
    unfold parse at h
    cases hh : parseHeader content [] with
    | none => rw [hh] at h; cases h
    | some hd =>
      rw [hh] at h
      cases hf : parseFrames content [] with
      | none => rw [hf] at h; simp at h
      | some cs =>
        rw [hf] at h
        simp only [Option.some_bind, Option.bind, Option.some.injEq, Prod.mk.injEq] at h
        rw [← h.2]
        unfold parseFrames at hf
        split at hf
        · cases hf
        · exact parseFramesLoop_pixels content _ _ _ _ (by intro c hc; cases hc) hf
  refine ⟨hall, ?_⟩
  rw [List.filter_eq_self]
  intro c hc
  have := hall c hc
  cases hpx : c.pixels with
  | nil => exact absurd hpx this
  | cons p ps => rfl

/-- C28, at a concrete input: a frame with one colour block that has pixels and one that
has none. -/
theorem parse_commands_have_pixels_witness :
    (∀ c ∈ [(⟨1, 1, [⟨1, 1⟩], "#FF0000".toList⟩ : Command)], c.pixels ≠ []) ∧
      [(⟨1, 1, [⟨1, 1⟩], "#FF0000".toList⟩ : Command)].filter
        (fun cmd => !cmd.pixels.isEmpty) = [⟨1, 1, [⟨1, 1⟩], "#FF0000".toList⟩] :=
  parse_commands_have_pixels "F1\x7b#00FF00\x7b\x7d#FF0000\x7bP=1x1\x7d\x7d".toList []
    [⟨1, 1, [⟨1, 1⟩], "#FF0000".toList⟩] (by decide)

/-- C25: on the script `F1{#FF0000{P=a}}` the `P=` loop of `parsePixels` reaches the
character `a`, where a round of the loop ends at the position at which it began; the loop
has no result however many rounds it is given, and `parse` has none. -/
theorem parse_stalls_on_stray_character :
    (∀ fuel, parsePItems "P=a".toList fuel 2 [] = none) ∧
      parsePixels "P=a".toList = none ∧ parse "F1\x7b#FF0000\x7bP=a\x7d\x7d".toList = none := by
  refine ⟨?_, by decide, by decide⟩
  intro fuel
  cases fuel with
  | zero => rfl
  | succ k => rfl

end HMICX

namespace HMICB

open HMICX

/-! ## The conversion -/

theorem renderAndWrite_failed (blend : Byte → Byte → Byte → Byte) (cmds : List Command)
    (p : Props) (f : Failure) (h : renderAndWrite blend cmds p = some (.failed f)) :
    f = .libraryException := by
  unfold renderAndWrite at h
  split at h
  · cases h; rfl
  · split at h
    · cases h; rfl
    · cases hr : renderAllFrames parseColor blend cmds p.width p.height p.frames with
      | none => rw [hr] at h; cases h
      | some fr =>
        rw [hr] at h
        simp only [Option.some_bind, Option.bind] at h
        cases hw : writeHMICB p.width p.height p.fps p.frames p.loop fr with
        | none => rw [hw] at h; cases h
        | some out => rw [hw] at h; cases h

theorem filter_pixels_isEmpty (commands : List Command) :
    (commands.filter (fun cmd => !cmd.pixels.isEmpty)).isEmpty = true ↔
      ∀ c ∈ commands, c.pixels = [] := by
  rw [List.isEmpty_iff, List.filter_eq_nil_iff]
  constructor
  · intro h c hc
    have := h c hc
    cases hpx : c.pixels with
    | nil => rfl
    | cons q qs => rw [hpx] at this; simp at this
  · intro h c hc
    rw [h c hc]
    simp

/-- C26: when `parse` returns a command list in which no command has a pixel, the
conversion ends with the fatal error for the lack of valid commands, whatever the header
holds and before the properties are read, the frames rendered or the container written;
when some command has a pixel, the conversion does not end with this error. -/
theorem convert_no_valid_commands (blend : Byte → Byte → Byte → Byte) (content : List Char)
    (header : HeaderMap) (commands : List Command)
    (h : parse content = some (header, commands)) :
    ((∀ c ∈ commands, c.pixels = []) →
      convert blend content = some (.failed .noValidCommands)) ∧
    ((∃ c ∈ commands, c.pixels ≠ []) →
      convert blend content ≠ some (.failed .noValidCommands)) := by
  unfold convert
  rw [h]
  simp only [Option.some_bind, Option.bind]
  constructor
  · intro hall
    rw [if_pos ((filter_pixels_isEmpty commands).mpr hall)]
  · rintro ⟨c, hc, hpx⟩
    have hne : ¬ ((commands.filter (fun cmd => !cmd.pixels.isEmpty)).isEmpty = true) := by
      rw [filter_pixels_isEmpty]
      intro hall
      exact hpx (hall c hc)
    rw [if_neg hne]
    cases hp : headerProps header with
    | none => simp
    | some p =>
      dsimp only
      split
      · simp
      · intro hr
        have := renderAndWrite_failed blend _ p _ hr
        cases this

/-- C26, at a concrete input: a frame block whose colour block holds no pixel line. -/
theorem convert_no_valid_commands_witness :
    convert (fun c _ _ => c) "info\x7bDISPLAY=0x0\x7dF1\x7b#FF0000\x7b\x7d\x7d".toList =
      some (.failed .noValidCommands) :=
  (convert_no_valid_commands (fun c _ _ => c) "info\x7bDISPLAY=0x0\x7dF1\x7b#FF0000\x7b\x7d\x7d".toList
    [("DISPLAY".toList, "0x0".toList)] [] (by decide)).1 (by decide)

/-- C27, the counterexample: with the header entry `DISPLAY=0x0` and no command the width
read from the header is 0, and the conversion ends with the error for the lack of valid
commands; with `DISPLAY=0x0`, `FPS=abc` and a command it ends with the exception of
`stoi`.  Neither is the error for invalid dimensions. -/
theorem convert_other_error_first :
    (parse "info\x7b\nDISPLAY=0x0\n\x7d".toList).map (fun hc => headerProps hc.1) =
        some (some ⟨0, 0, 2, 1, true⟩) ∧
      convert (fun c _ _ => c) "info\x7b\nDISPLAY=0x0\n\x7d".toList =
        some (.failed .noValidCommands) ∧
      convert (fun c _ _ => c) "info\x7b\nDISPLAY=0x0\nFPS=abc\n\x7dF1\x7b#FF0000\x7bP=1x1\x7d\x7d".toList =
        some (.failed .libraryException) := by
  decide

/-- C27, amended: when `parse` returns at least one command with a pixel and the loop over
the header reads the properties without an exception, the conversion ends with the error
for invalid dimensions, before the frames are rendered or written, exactly when the width
or the height read from the header lies outside [1, 10000]; otherwise it continues with
the rendering and the writing of the commands that have pixels. -/
theorem convert_invalid_dimensions (blend : Byte → Byte → Byte → Byte) (content : List Char)
    (header : HeaderMap) (commands : List Command) (p : Props)
    (h : parse content = some (header, commands))
    (hpx : ∃ c ∈ commands, c.pixels ≠ [])
    (hp : headerProps header = some p) :
    (convert blend content = some (.failed .invalidDimensions) ↔
      ¬ (1 ≤ p.width ∧ p.width ≤ 10000 ∧ 1 ≤ p.height ∧ p.height ≤ 10000)) ∧
    ((1 ≤ p.width ∧ p.width ≤ 10000 ∧ 1 ≤ p.height ∧ p.height ≤ 10000) →
      convert blend content =
        renderAndWrite blend (commands.filter (fun cmd => !cmd.pixels.isEmpty)) p) := by
  obtain ⟨c, hc, hcpx⟩ := hpx
  have hne : ¬ ((commands.filter (fun cmd => !cmd.pixels.isEmpty)).isEmpty = true) := by
    rw [filter_pixels_isEmpty]
    intro hall
    exact hcpx (hall c hc)
  unfold convert
  rw [h]
  simp only [Option.some_bind, Option.bind]
  rw [if_neg hne, hp]
  dsimp only
  by_cases hd : p.width ≤ 0 ∨ p.height ≤ 0 ∨ p.width > 10000 ∨ p.height > 10000
  · rw [if_pos hd]
    refine ⟨⟨fun _ => by omega, fun _ => rfl⟩, fun hin => by omega⟩
  · rw [if_neg hd]
    refine ⟨⟨fun hr => ?_, fun hout => by omega⟩, fun _ => rfl⟩
    have := renderAndWrite_failed blend _ p _ hr
    cases this

/-- C27, amended, at concrete inputs: a canvas of height 0, and a width numeral beyond
the range of `long`, which `sscanf` stores as -1. -/
theorem convert_invalid_dimensions_witness :
    (convert (fun c _ _ => c) "info\x7bDISPLAY=3x0\x7dF1\x7b#FF0000\x7bP=1x1\x7d\x7d".toList =
        some (.failed .invalidDimensions) ↔
      ¬ (1 ≤ (⟨3, 0, 2, 1, true⟩ : Props).width ∧ (⟨3, 0, 2, 1, true⟩ : Props).width ≤ 10000 ∧
        1 ≤ (⟨3, 0, 2, 1, true⟩ : Props).height ∧
        (⟨3, 0, 2, 1, true⟩ : Props).height ≤ 10000)) ∧
    convert (fun c _ _ => c)
      "info\x7bDISPLAY=18446744073709551621x5\x7dF1\x7b#FF0000\x7bP=1x1\x7d\x7d".toList =
        some (.failed .invalidDimensions) :=
  ⟨(convert_invalid_dimensions (fun c _ _ => c) "info\x7bDISPLAY=3x0\x7dF1\x7b#FF0000\x7bP=1x1\x7d\x7d".toList
    [("DISPLAY".toList, "3x0".toList)] [⟨1, 1, [⟨1, 1⟩], "#FF0000".toList⟩] ⟨3, 0, 2, 1, true⟩
    (by decide) ⟨_, List.mem_singleton.mpr rfl, by decide⟩ (by decide)).1,
    ((convert_invalid_dimensions (fun c _ _ => c)
      "info\x7bDISPLAY=18446744073709551621x5\x7dF1\x7b#FF0000\x7bP=1x1\x7d\x7d".toList
      [("DISPLAY".toList, "18446744073709551621x5".toList)]
      [⟨1, 1, [⟨1, 1⟩], "#FF0000".toList⟩] ⟨-1, 5, 2, 1, true⟩
      (by decide) ⟨_, List.mem_singleton.mpr rfl, by decide⟩ (by decide)).1).2 (by decide)⟩

end HMICB

namespace HMICB

open HMICX

/-- C24: for the script `info{DISPLAY=2x2`, `F=2`, `} F1-2{ #FF0000 { P=1x1,2x2 } }`:
`parse` yields the header entries and one command (frames 1 to 2, colour `#FF0000`, pixels
(1,1) and (2,2)); rendering it on a 2x2 canvas with 2 frames gives two equal buffers whose
cells 0 and 3 are (255,0,0,255) and whose other cells are (0,0,0,0); the container written
has the frame count 2, two index entries before the first payload at byte 50, frame 0 of
kind Full with the 16 bytes of the buffer and frame 1 of kind Delta with a payload that is
a change count of zero. -/
theorem convert_scenario (blend : Byte → Byte → Byte → Byte) :
    parse "info\x7bDISPLAY=2x2\nF=2\n\x7d F1-2\x7b #FF0000 \x7b P=1x1,2x2 \x7d \x7d".toList =
      some ([("DISPLAY".toList, "2x2".toList), ("F".toList, "2".toList)],
        [⟨1, 2, [⟨1, 1⟩, ⟨2, 2⟩], "#FF0000".toList⟩]) ∧
    renderAllFrames parseColor blend
        [⟨1, 2, [⟨1, 1⟩, ⟨2, 2⟩], "#FF0000".toList⟩] 2 2 2 =
      some [[⟨255, 0, 0, 255⟩, RGBA.clear, RGBA.clear, ⟨255, 0, 0, 255⟩],
        [⟨255, 0, 0, 255⟩, RGBA.clear, RGBA.clear, ⟨255, 0, 0, 255⟩]] ∧
    ∃ out,
      convert blend "info\x7bDISPLAY=2x2\nF=2\n\x7d F1-2\x7b #FF0000 \x7b P=1x1,2x2 \x7d \x7d".toList =
        some (.written out) ∧
      out.length = 32 + 9 * 2 + 16 + 4 ∧
      readU32 out 12 = 2 ∧
      indexOffset out 0 = 32 + 9 * 2 ∧
      indexKind out 0 = 0 ∧
      payloadAt out 2 0 = [255, 0, 0, 255, 0, 0, 0, 0, 0, 0, 0, 0, 255, 0, 0, 255] ∧
      indexKind out 1 = 1 ∧
      payloadAt out 2 1 = [0, 0, 0, 0] ∧
      readU32 (payloadAt out 2 1) 0 = 0 := by
  have hparse : parse "info\x7bDISPLAY=2x2\nF=2\n\x7d F1-2\x7b #FF0000 \x7b P=1x1,2x2 \x7d \x7d".toList =
      some ([("DISPLAY".toList, "2x2".toList), ("F".toList, "2".toList)],
        [⟨1, 2, [⟨1, 1⟩, ⟨2, 2⟩], "#FF0000".toList⟩]) := by decide
  have hrender : renderAllFrames parseColor blend
      [⟨1, 2, [⟨1, 1⟩, ⟨2, 2⟩], "#FF0000".toList⟩] 2 2 2 =
      some [[⟨255, 0, 0, 255⟩, RGBA.clear, RGBA.clear, ⟨255, 0, 0, 255⟩],
        [⟨255, 0, 0, 255⟩, RGBA.clear, RGBA.clear, ⟨255, 0, 0, 255⟩]] := by
    rfl
  have hne : [[(⟨255, 0, 0, 255⟩ : RGBA), RGBA.clear, RGBA.clear, ⟨255, 0, 0, 255⟩],
      [⟨255, 0, 0, 255⟩, RGBA.clear, RGBA.clear, ⟨255, 0, 0, 255⟩]] ≠ [] := by decide
  obtain ⟨out, hwrite⟩ : ∃ out, writeHMICB 2 2 2 2 true
      [[(⟨255, 0, 0, 255⟩ : RGBA), RGBA.clear, RGBA.clear, ⟨255, 0, 0, 255⟩],
        [⟨255, 0, 0, 255⟩, RGBA.clear, RGBA.clear, ⟨255, 0, 0, 255⟩]] = some out :=
    ⟨_, writeHMICB_eq 2 2 2 2 true _ hne (writable_of_uniform _ 2 4 (by decide) (by decide))⟩
  have hprops : headerProps [("DISPLAY".toList, "2x2".toList), ("F".toList, "2".toList)] =
      some ⟨2, 2, 2, 2, true⟩ := by decide
  have hcells : ∀ f ∈ [[(⟨255, 0, 0, 255⟩ : RGBA), RGBA.clear, RGBA.clear, ⟨255, 0, 0, 255⟩],
      [⟨255, 0, 0, 255⟩, RGBA.clear, RGBA.clear, ⟨255, 0, 0, 255⟩]], f.length = 4 := by decide
  have hlen := length_writeHMICB 2 2 2 2 true _ hne _ hwrite
  have hhead := header_read 2 2 2 2 true _ hne _ hwrite
  have he0 := index_entry_read 2 2 2 2 true _ 0 (by decide) _ hwrite
  have he1 := index_entry_read 2 2 2 2 true _ 1 (by decide) _ hwrite
  have hp0 := payloadAt_eq 2 2 2 2 true _ 4 (by decide) hcells _ hwrite 0 (by decide)
  have hp1 := payloadAt_eq 2 2 2 2 true _ 4 (by decide) hcells _ hwrite 1 (by decide)
  refine ⟨hparse, hrender, out, ?_, ?_, ?_, ?_, ?_, ?_, ?_, ?_, ?_⟩
  · unfold convert
    rw [hparse]
    simp only [Option.some_bind, Option.bind]
    rw [if_neg (by decide), hprops]
    dsimp only
    rw [if_neg (by decide)]
    unfold renderAndWrite
    rw [if_neg (by decide), if_neg (by decide)]
    have hfilter : List.filter (fun cmd => !cmd.pixels.isEmpty)
        [(⟨1, 2, [⟨1, 1⟩, ⟨2, 2⟩], "#FF0000".toList⟩ : Command)] =
        [⟨1, 2, [⟨1, 1⟩, ⟨2, 2⟩], "#FF0000".toList⟩] := by decide
    rw [hfilter]
    dsimp only
    rw [hrender]
    simp only [Option.some_bind, Option.bind]
    rw [hwrite]
    rfl
  · rw [hlen]; decide
  · rw [hhead.2.2.2.1]; decide
  · rw [he0.1]; decide
  · rw [he0.2.2]; decide
  · exact hp0.trans (by decide)
  · rw [he1.2.2]; decide
  · exact hp1.trans (by decide)
  · have h1 : payloadAt out 2 1 = [0, 0, 0, 0] := hp1.trans (by decide)
    rw [h1]
    decide

end HMICB

namespace HMICX

/-! ## Braces inside a matched block -/

/-- An index the scan returns at positive depth: the depth stays positive up to it and
falls to zero with it. -/
theorem findMatchingBraceFrom_some_depth (l : List Char) :
    ∀ (d : Int) (i c : Nat), 1 ≤ d → findMatchingBraceFrom l d i = some c →
      i ≤ c ∧ c - i < l.length ∧
      (∀ n, n ≤ c - i →
        0 < d + ((l.take n).count '{' : Int) - ((l.take n).count '}' : Int)) ∧
      d + ((l.take (c - i + 1)).count '{' : Int) - ((l.take (c - i + 1)).count '}' : Int) =
        0 := by
  induction l with
  | nil => intro d i c _ h; simp [findMatchingBraceFrom] at h
  | cons a cs ih =>
    intro d i c hd h
    have hrec : ∀ (d1 : Int) (x y : Int), 1 ≤ d1 →
        (∀ m : Nat, ((a :: cs).take (m + 1)).count '{' = x.toNat + (cs.take m).count '{' ∧
          ((a :: cs).take (m + 1)).count '}' = y.toNat + (cs.take m).count '}') →
        0 ≤ x → 0 ≤ y → d1 = d + x - y →
        findMatchingBraceFrom cs d1 (i + 1) = some c →
        i ≤ c ∧ c - i < (a :: cs).length ∧
        (∀ n, n ≤ c - i →
          0 < d + (((a :: cs).take n).count '{' : Int) - (((a :: cs).take n).count '}' : Int)) ∧
        d + (((a :: cs).take (c - i + 1)).count '{' : Int) -
          (((a :: cs).take (c - i + 1)).count '}' : Int) = 0 := by
      intro d1 x y hd1 hcount hx hy hd1eq h1
      obtain ⟨h2, h3, h4, h5⟩ := ih d1 (i + 1) c hd1 h1
      have hci : c - i = (c - (i + 1)) + 1 := by omega
      refine ⟨by omega, by simp only [List.length_cons]; omega, ?_, ?_⟩
      · intro n hn
        cases n with
        | zero => simp; omega
        | succ m =>
          have := h4 m (by omega)
          obtain ⟨e1, e2⟩ := hcount m
          rw [e1, e2]
          push_cast
          rw [Int.toNat_of_nonneg hx, Int.toNat_of_nonneg hy]
          omega
      · rw [hci]
        obtain ⟨e1, e2⟩ := hcount (c - (i + 1) + 1)
        rw [e1, e2]
        push_cast
        rw [Int.toNat_of_nonneg hx, Int.toNat_of_nonneg hy]
        omega
    by_cases ha : a = '{'
    · subst ha
      have hne : ('{' : Char) ≠ '}' := by decide
      simp only [findMatchingBraceFrom, if_true] at h
      refine hrec (d + 1) 1 0 (by omega) ?_ (by omega) (by omega) (by omega) h
      intro m
      simp [List.count_cons, hne]
      omega
    · by_cases ha2 : a = '}'
      · subst ha2
        have hne : ('}' : Char) ≠ '{' := by decide
        by_cases hd1 : d - 1 = 0
        · simp only [findMatchingBraceFrom, if_neg hne, if_true, if_pos hd1,
            Option.some.injEq] at h
          subst h
          refine ⟨Nat.le_refl _, by simp, ?_, ?_⟩
          · intro n hn
            have : n = 0 := by omega
            subst this
            simp
            omega
          · simp [List.count_cons, hne]
            omega
        · simp only [findMatchingBraceFrom, if_neg hne, if_true, if_neg hd1] at h
          refine hrec (d - 1) 0 1 (by omega) ?_ (by omega) (by omega) (by omega) h
          intro m
          simp [List.count_cons, hne]
          omega
      · simp only [findMatchingBraceFrom, if_neg ha, if_neg ha2] at h
        refine hrec d 0 0 hd ?_ (by omega) (by omega) (by omega) h
        intro m
        simp [List.count_cons, ha, ha2]

end HMICX

namespace HMICX

theorem drop_eq_cons_of_getElem? (l : List Char) (n : Nat) (c : Char) (h : l[n]? = some c) :
    l.drop n = c :: l.drop (n + 1) := by
  have hn : n < l.length := by
    by_contra hge
    rw [List.getElem?_eq_none (by omega)] at h
    cases h
  rw [List.getElem?_eq_getElem hn] at h
  rw [List.drop_eq_getElem_cons hn]
  simp only [Option.some.injEq] at h
  rw [h]

theorem split_at_getElem? (l : List Char) (n : Nat) (c : Char) (h : l[n]? = some c) :
    l = l.take n ++ c :: l.drop (n + 1) := by
  rw [← drop_eq_cons_of_getElem? l n c h, List.take_append_drop]

/-- The body of a matched block, seen through the depth: the body is the text between the
braces, the depth stays positive on each of its prefixes, it closes as many braces as it
opens. -/
theorem matched_block_body (text : List Char) (o c : Nat) (ho : text[o]? = some '{')
    (hc : findMatchingBrace text o = some c) :
    o < c ∧ slice text (o + 1) c = (text.drop (o + 1)).take (c - (o + 1)) ∧
    c - (o + 1) < (text.drop (o + 1)).length ∧
    (slice text (o + 1) c).length = c - (o + 1) ∧
    (∀ n, n ≤ c - (o + 1) →
      (((slice text (o + 1) c).take n).count '}' : Int) ≤
        (((slice text (o + 1) c).take n).count '{' : Int)) ∧
    ((slice text (o + 1) c).count '{' : Int) = ((slice text (o + 1) c).count '}' : Int) := by
  unfold findMatchingBrace at hc
  rw [drop_eq_cons_of_getElem? text o '{' ho] at hc
  simp only [findMatchingBraceFrom, if_true] at hc
  obtain ⟨h1, h2, h3, h4⟩ :=
    findMatchingBraceFrom_some_depth (text.drop (o + 1)) (0 + 1) (o + 1) c (by omega) hc
  have hslice : slice text (o + 1) c = (text.drop (o + 1)).take (c - (o + 1)) := rfl
  have hlen : (slice text (o + 1) c).length = c - (o + 1) := by
    rw [hslice, List.length_take]
    omega
  have hpre : ∀ n, n ≤ c - (o + 1) →
      (slice text (o + 1) c).take n = (text.drop (o + 1)).take n := by
    intro n hn
    rw [hslice, List.take_take, Nat.min_eq_left hn]
  have hlast : (text.drop (o + 1)).take (c - (o + 1) + 1) =
      (text.drop (o + 1)).take (c - (o + 1)) ++ [(text.drop (o + 1)).get ⟨c - (o + 1), h2⟩] := by
    rw [List.take_succ, List.getElem?_eq_getElem h2]
    rfl
  have hk := h3 (c - (o + 1)) (Nat.le_refl _)
  rw [hlast, List.count_append, List.count_append] at h4
  have hb1 : ([(text.drop (o + 1)).get ⟨c - (o + 1), h2⟩].count '{' : Int) ≥ 0 := by omega
  have hb2 : ([(text.drop (o + 1)).get ⟨c - (o + 1), h2⟩].count '}' : Int) ≤ 1 := by
    have : [(text.drop (o + 1)).get ⟨c - (o + 1), h2⟩].count '}' ≤
        [(text.drop (o + 1)).get ⟨c - (o + 1), h2⟩].length := List.count_le_length _ _
    simp only [List.length_singleton] at this
    omega
  push_cast at h4
  refine ⟨by omega, hslice, h2, hlen, ?_, ?_⟩
  · intro n hn
    rw [hpre n hn]
    have := h3 n hn
    omega
  · rw [hslice]
    omega

/-- C31: in a text whose opening brace at index o is matched by `findMatchingBrace` at
index c, every opening brace at an index p with o < p < c has its match inside the block:
`findMatchingBrace` run on the body text[o+1 .. c) from position p - o - 1 returns an index
behind that position and inside the body.  So for every position of the body that holds an
opening brace the search of `parseFrameBody` has a result, when the body is the one
`parseFrames` passes. -/
theorem findMatchingBrace_inner (text : List Char) (o c : Nat) (ho : text[o]? = some '{')
    (hc : findMatchingBrace text o = some c) :
    (∀ p, o < p → p < c → text[p]? = some '{' →
      ∃ e, findMatchingBrace (slice text (o + 1) c) (p - o - 1) = some e ∧
        p - o - 1 < e ∧ e < (slice text (o + 1) c).length) ∧
    (∀ pos, pos < (slice text (o + 1) c).length → charAt (slice text (o + 1) c) pos = '{' →
      findMatchingBrace (slice text (o + 1) c) pos ≠ none) := by
  obtain ⟨hoc, hslice, hk, hlen, hpos, htotal⟩ := matched_block_body text o c ho hc
  have key : ∀ q, q < (slice text (o + 1) c).length → (slice text (o + 1) c)[q]? = some '{' →
      ∃ e, findMatchingBrace (slice text (o + 1) c) q = some e ∧ q < e ∧
        e < (slice text (o + 1) c).length := by
    intro q hq hqb
    generalize slice text (o + 1) c = body at hq hqb hpos htotal hlen
    have hsplit := split_at_getElem? body q '{' hqb
    have hA := hpos q (by omega)
    have hne : ('{' : Char) ≠ '}' := by decide
    have htot : ((body.take q).count '{' : Int) + 1 + ((body.drop (q + 1)).count '{' : Int) =
        ((body.take q).count '}' : Int) + ((body.drop (q + 1)).count '}' : Int) := by
      have h1 : body.count '{' =
          (body.take q).count '{' + (1 + (body.drop (q + 1)).count '{') := by
        conv_lhs => rw [hsplit]
        rw [List.count_append, List.count_cons]
        simp
        omega
      have h2 : body.count '}' = (body.take q).count '}' + (body.drop (q + 1)).count '}' := by
        conv_lhs => rw [hsplit]
        rw [List.count_append, List.count_cons]
        simp [hne]
      rw [h1, h2] at htotal
      push_cast at htotal
      omega
    unfold findMatchingBrace
    rw [drop_eq_cons_of_getElem? body q '{' hqb]
    simp only [findMatchingBraceFrom, if_true]
    cases hres : findMatchingBraceFrom (body.drop (q + 1)) (0 + 1) (q + 1) with
    | none =>
      exfalso
      have hall := (findMatchingBraceFrom_eq_none_iff (body.drop (q + 1)) (0 + 1) (q + 1)
        (by omega)).mp hres (body.drop (q + 1)).length (Nat.le_refl _)
      rw [List.take_length] at hall
      omega
    | some e =>
      obtain ⟨h1, h2⟩ := findMatchingBraceFrom_eq_some (body.drop (q + 1)) (0 + 1) (q + 1) e hres
      refine ⟨e, rfl, by omega, ?_⟩
      have h3 : e - (q + 1) < (body.drop (q + 1)).length := by
        by_contra hge
        rw [List.getElem?_eq_none (by omega)] at h2
        cases h2
      rw [List.length_drop] at h3
      omega
  constructor
  · intro p hp1 hp2 hp
    have hq : p - o - 1 < (slice text (o + 1) c).length := by rw [hlen]; omega
    apply key (p - o - 1) hq
    rw [hslice, List.getElem?_take_of_lt (by omega), List.getElem?_drop]
    have : o + 1 + (p - o - 1) = p := by omega
    rw [this]
    exact hp
  · intro pos hpos1 hch
    have hq : (slice text (o + 1) c)[pos]? = some '{' := by
      unfold charAt at hch
      rw [List.getD_eq_getElem?_getD, List.getElem?_eq_getElem hpos1] at hch
      rw [List.getElem?_eq_getElem hpos1]
      simpa using hch
    obtain ⟨e, he, _, _⟩ := key pos hpos1 hq
    rw [he]
    exact fun h => by cases h

/-- C31, at a concrete input: in `a{b{c}{d{}}e}f` the block opened at index 1 closes at
index 12, and the braces at 3, 6 and 8 close inside its body. -/
theorem findMatchingBrace_inner_witness :
    (∀ p, 1 < p → p < 12 → "a\x7bb\x7bc\x7d\x7bd\x7b\x7d\x7de\x7df".toList[p]? = some '{' →
      ∃ e, findMatchingBrace (slice "a\x7bb\x7bc\x7d\x7bd\x7b\x7d\x7de\x7df".toList (1 + 1) 12)
          (p - 1 - 1) = some e ∧
        p - 1 - 1 < e ∧
        e < (slice "a\x7bb\x7bc\x7d\x7bd\x7b\x7d\x7de\x7df".toList (1 + 1) 12).length) ∧
    (∀ pos, pos < (slice "a\x7bb\x7bc\x7d\x7bd\x7b\x7d\x7de\x7df".toList (1 + 1) 12).length →
      charAt (slice "a\x7bb\x7bc\x7d\x7bd\x7b\x7d\x7de\x7df".toList (1 + 1) 12) pos = '{' →
      findMatchingBrace (slice "a\x7bb\x7bc\x7d\x7bd\x7b\x7d\x7de\x7df".toList (1 + 1) 12) pos ≠
        none) :=
  findMatchingBrace_inner "a\x7bb\x7bc\x7d\x7bd\x7b\x7d\x7de\x7df".toList 1 12 (by decide)
    (by decide)

end HMICX
